import Mathlib

/-!
# OPS-SAT Doom WAD editor: shallow embedding of `src/main.c`

The program opens a WAD archive, looks up the `SKY1` lump in the directory,
decodes the column/post encoded patch into an indexed pixel grid, maps it
through the Doom palette and hands the RGB buffer to a JPEG writer.

Conventions of the embedding
* a byte is a `Nat` (below 256 in a real file), a C `int`, `int32_t` or
  `int16_t` is an `Int`, with explicit wrap-around where the C expression can
  leave the range;
* a `FILE *` opened for reading is the pair of the file contents and the
  current position; `fread`, `fseek` are state-passing functions;
* the host is little-endian with a 32-bit `int` and a 64-bit `size_t`;
* `exit(EXIT_FAILURE)` is the outcome `Outcome.exit_failure`;
* `malloc` / `calloc` succeed exactly on the sizes accepted by the parameter
  `alloc : Nat → Bool`;
* the generated table `DOOM_PALETTE` of `doom_palette.h` and the JPEG writer
  `stbi_write_jpg` are parameters; the writer acts on the world outside the
  program, which `main` passes through it.
-/

namespace WadEditor

/-! ## Machine integers -/

/-- Value of a little-endian byte string as an unsigned number. -/
def le_unsigned : List Nat → Nat
  | [] => 0
  | b :: bs => b + 256 * le_unsigned bs

/-- Reinterpretation of an unsigned `bits`-bit pattern as two's complement. -/
def to_signed (bits : Nat) (u : Nat) : Int :=
  if u < 2 ^ (bits - 1) then (u : Int) else (u : Int) - 2 ^ bits

/-- The `int32_t` stored in four bytes of a little-endian host. -/
def int32_of_bytes (bs : List Nat) : Int := to_signed 32 (le_unsigned bs)

/-- The `int16_t` stored in two bytes of a little-endian host. -/
def int16_of_bytes (bs : List Nat) : Int := to_signed 16 (le_unsigned bs)

/-- Conversion of an integer value to `int` (32 bits, wrapping): the value
modulo `2 ^ 32`, read as two's complement. -/
def wrap_int32 (x : Int) : Int := to_signed 32 (x % 2 ^ 32).toNat

/-- Conversion of an integer value to `size_t` (64 bits, unsigned). -/
def to_size_t (x : Int) : Nat := (x % 2 ^ 64).toNat

/-! ## The byte stream -/

/-- State of a `FILE *` opened with mode `"rb"`: contents and position. -/
structure FILE where
  data : List Nat
  pos : Nat
deriving DecidableEq

/-- Results of the program: a returned value, a call of `exit(EXIT_FAILURE)`,
or a loop of the model that used up its iteration budget. -/
inductive Outcome (α : Type) where
  | ret (a : α)
  | exit_failure
  | out_of_fuel
deriving DecidableEq

/-- `fread(ptr, size, nmemb, file)`: the bytes stored, the number of complete
items read, and the stream advanced by the bytes consumed. -/
def fread (file : FILE) (size nmemb : Nat) : List Nat × Nat × FILE :=
  let got := (file.data.drop file.pos).take (size * nmemb)
  (got, got.length / size, { file with pos := file.pos + got.length })

/-- `fseek(file, offset, SEEK_SET)`: status (0 or -1) and the stream; a
negative offset is rejected and leaves the position where it was. -/
def fseek_SET (file : FILE) (offset : Int) : Int × FILE :=
  if offset < 0 then (-1, file) else (0, { file with pos := offset.toNat })

/-- `fseek(file, offset, SEEK_CUR)`. -/
def fseek_CUR (file : FILE) (offset : Int) : Int × FILE :=
  if (file.pos : Int) + offset < 0 then (-1, file)
  else (0, { file with pos := ((file.pos : Int) + offset).toNat })

/-! ## Archive header and directory -/

/-- `WadHeader`. -/
structure WadHeader where
  type : List Nat
  num_lumps : Int
  directory_offset : Int
deriving DecidableEq

/-- `WadDirEntry`. -/
structure WadDirEntry where
  filepos : Int
  size : Int
  name : List Nat
deriving DecidableEq

/-- `read_wad_header`: three reads of 4 bytes, each short read exits. -/
def read_wad_header (file : FILE) : Outcome (WadHeader × FILE) :=
  let (type, n1, file) := fread file 1 4
  if n1 ≠ 4 then .exit_failure else
  let (b2, n2, file) := fread file 4 1
  if n2 ≠ 1 then .exit_failure else
  let (b3, n3, file) := fread file 4 1
  if n3 ≠ 1 then .exit_failure else
  .ret ({ type := type, num_lumps := int32_of_bytes b2,
          directory_offset := int32_of_bytes b3 }, file)

/-- `read_directory_entry`: seek, then reads of 4, 4 and 8 bytes; a failed
seek or a short read exits. -/
def read_directory_entry (file : FILE) (offset : Int) : Outcome (WadDirEntry × FILE) :=
  let (st, file) := fseek_SET file offset
  if st ≠ 0 then .exit_failure else
  let (b1, n1, file) := fread file 4 1
  if n1 ≠ 1 then .exit_failure else
  let (b2, n2, file) := fread file 4 1
  if n2 ≠ 1 then .exit_failure else
  let (nm, n3, file) := fread file 1 8
  if n3 ≠ 8 then .exit_failure else
  .ret ({ filepos := int32_of_bytes b1, size := int32_of_bytes b2, name := nm }, file)

/-- `strncmp(s1, s2, n)` on byte strings; a read at or after the end of a
list yields the terminating NUL. The result is the difference of the first
differing bytes, as unsigned chars. -/
def strncmp : List Nat → List Nat → Nat → Int
  | _, _, 0 => 0
  | s1, s2, n + 1 =>
    let c1 := s1.headD 0
    let c2 := s2.headD 0
    if c1 ≠ c2 then (c1 : Int) - (c2 : Int)
    else if c1 = 0 then 0
    else strncmp s1.tail s2.tail n

/-- The argument `directory_offset + i * sizeof(WadDirEntry)` of
`read_directory_entry`: computed in `size_t`, converted to the `int`
parameter. -/
def dir_entry_offset (directory_offset i : Int) : Int :=
  wrap_int32 ((to_size_t directory_offset + to_size_t i * 16) % 2 ^ 64 : Nat)

/-- `WadDirEntry invalid_entry = {0, -1, ""}`. -/
def invalid_entry : WadDirEntry :=
  { filepos := 0, size := -1, name := [0, 0, 0, 0, 0, 0, 0, 0] }

/-- The `for` loop of `find_lump` with `n` iterations left, at index `i`. -/
def find_lump_loop (directory_offset : Int) (lump_name : List Nat) :
    Nat → Int → FILE → Outcome (WadDirEntry × FILE)
  | 0, _, file => .ret (invalid_entry, file)
  | n + 1, i, file =>
    match read_directory_entry file (dir_entry_offset directory_offset i) with
    | .ret (entry, file) =>
      if strncmp entry.name lump_name 8 = 0 then .ret (entry, file)
      else find_lump_loop directory_offset lump_name n (i + 1) file
    | .exit_failure => .exit_failure
    | .out_of_fuel => .out_of_fuel

/-- `find_lump`: the loop runs for `i = 0 .. num_lumps - 1`. -/
def find_lump (file : FILE) (num_lumps directory_offset : Int) (lump_name : List Nat) :
    Outcome (WadDirEntry × FILE) :=
  find_lump_loop directory_offset lump_name num_lumps.toNat 0 file

/-! ## Patch decoder -/

/-- `DoomPatchHeader`. -/
structure DoomPatchHeader where
  width : Int
  height : Int
  leftoffset : Int
  topoffset : Int
deriving DecidableEq

/-- The patch header stored in the 8 bytes read by `fread(&header, 8, 1, file)`. -/
def patch_header_of_bytes (bs : List Nat) : DoomPatchHeader :=
  { width := int16_of_bytes ((bs.drop 0).take 2),
    height := int16_of_bytes ((bs.drop 2).take 2),
    leftoffset := int16_of_bytes ((bs.drop 4).take 2),
    topoffset := int16_of_bytes ((bs.drop 6).take 2) }

/-- The first `n` elements of an `int32_t` array stored in `bs`. -/
def int32_array : Nat → List Nat → List Int
  | 0, _ => []
  | n + 1, bs => int32_of_bytes (bs.take 4) :: int32_array n (bs.drop 4)

/-- The store `pixels[idx] = v`; an index outside the allocation (undefined
in C) leaves the buffer as it is. -/
def pixels_store (pixels : List Nat) (idx : Int) (v : Nat) : List Nat :=
  if 0 ≤ idx ∧ idx < pixels.length then pixels.set idx.toNat v else pixels

/-- The inner `for (p = 0; p < post.length; ++p)` loop with `n` iterations
left: a short read leaves the loop, a byte read is stored at
`row * width + col` and advances `row`. -/
def read_post_pixels (width : Int) (col : Nat) :
    Nat → FILE → Int → List Nat → FILE × Int × List Nat
  | 0, file, row, pixels => (file, row, pixels)
  | n + 1, file, row, pixels =>
    let (b, cnt, file) := fread file 1 1
    if cnt ≠ 1 then (file, row, pixels)
    else read_post_pixels width col n file (row + 1)
           (pixels_store pixels (row * width + col) (b.headD 0))

/-- The `while (row < header.height)` loop of one column; `fuel` bounds the
number of iterations of the model, `none` is an exhausted budget. -/
def decode_posts (width height : Int) (col : Nat) :
    Nat → FILE → Int → List Nat → Option (FILE × List Nat)
  | 0, _, _, _ => none
  | fuel + 1, file, row, pixels =>
    if ¬ (row < height) then some (file, pixels) else
    let (post, cnt, file) := fread file 2 1
    if cnt ≠ 1 then some (file, pixels) else
    let topdelta := post.getD 0 0
    let length := post.getD 1 0
    if topdelta = 0xFF then some (file, pixels) else
    let row := row + topdelta
    if row + length > height then some (file, pixels) else
    let (file, row, pixels) := read_post_pixels width col length file row pixels
    let file := (fseek_CUR file 1).2
    decode_posts width height col fuel file row pixels

/-- The seek target `patch_offset + column_offsets[col]`, an `int`. -/
def column_start (patch_offset : Int) (column_offsets : List Int) (col : Nat) : Int :=
  wrap_int32 (patch_offset + column_offsets.getD col 0)

/-- Body of the `for (col ...)` loop: seek to the column (status ignored),
then decode its posts from row 0. Every pass of the `while` loop that goes
on consumes at least 3 bytes that exist, so the budget `length + 2` is
never used up. -/
def decode_column (patch_offset width height : Int) (column_offsets : List Int)
    (col : Nat) (file : FILE) (pixels : List Nat) : Option (FILE × List Nat) :=
  let file := (fseek_SET file (column_start patch_offset column_offsets col)).2
  decode_posts width height col (file.data.length + 2) file 0 pixels

/-- The `for (col = 0; col < header.width; ++col)` loop with `n` iterations
left, at column `col`. -/
def decode_columns (patch_offset width height : Int) (column_offsets : List Int) :
    Nat → Nat → FILE → List Nat → Option (FILE × List Nat)
  | 0, _, file, pixels => some (file, pixels)
  | n + 1, col, file, pixels =>
    match decode_column patch_offset width height column_offsets col file pixels with
    | none => none
    | some (file, pixels) =>
      decode_columns patch_offset width height column_offsets n (col + 1) file pixels

/-- `extract_patch_data`: `ret none` is the `NULL` return, `ret (some (w, h,
pixels))` the returned buffer with the values stored in `*width`, `*height`.
The status of the first seek is ignored, as in the source. -/
def extract_patch_data (alloc : Nat → Bool) (file : FILE) (patch_offset : Int) :
    Outcome (Option (Int × Int × List Nat)) :=
  let file := (fseek_SET file patch_offset).2
  let (hb, n, file) := fread file 8 1
  if n ≠ 1 then .ret none else
  let header := patch_header_of_bytes hb
  let count := to_size_t (header.width * header.height)
  if ¬ alloc count then .ret none else
  let pixels := List.replicate count 0
  if ¬ alloc ((to_size_t header.width * 4) % 2 ^ 64) then .ret none else
  let (ob, cnt, file) := fread file 4 (to_size_t header.width)
  if cnt ≠ to_size_t header.width then .ret none else
  let column_offsets := int32_array cnt ob
  match decode_columns patch_offset header.width header.height column_offsets
          header.width.toNat 0 file pixels with
  | none => .out_of_fuel
  | some (_, pixels) => .ret (some (header.width, header.height, pixels))

/-! ## Palette mapping and `main` -/

/-- `doom_index_to_rgb`; `DOOM_PALETTE` is the 256-entry table of
`doom_palette.h`, a parameter here. -/
def doom_index_to_rgb (DOOM_PALETTE : List (Nat × Nat × Nat)) (index : Nat) :
    Nat × Nat × Nat :=
  if index ≥ 256 then (0, 0, 0)
  else ((DOOM_PALETTE.getD index (0, 0, 0)).1,
        (DOOM_PALETTE.getD index (0, 0, 0)).2.1,
        (DOOM_PALETTE.getD index (0, 0, 0)).2.2)

/-- The conversion loop of `main` with `n` iterations left at pixel `i`:
the bytes stored at `rgb_pixels[3*i ..]`, in order. -/
def convert_to_rgb (DOOM_PALETTE : List (Nat × Nat × Nat)) (pixels : List Nat) :
    Nat → Nat → List Nat
  | 0, _ => []
  | n + 1, i =>
    let (r, g, b) := doom_index_to_rgb DOOM_PALETTE (pixels.getD i 0)
    r :: g :: b :: convert_to_rgb DOOM_PALETTE pixels n (i + 1)

/-- The name `"SKY1"`. -/
def SKY1 : List Nat := [83, 75, 89, 49]

/-- What `main` does after the file is open, up to the call of the JPEG
writer: the header, the lookup of `SKY1`, the decode and the conversion.
`ret (some (w, h, rgb))` are the arguments of `stbi_write_jpg` (with 3
channels); `ret none` is a `return EXIT_FAILURE`. The `int` product
`width * height * 3` wraps to 32 bits before it becomes the `size_t` argument
of `malloc`. -/
def main_pipeline (alloc : Nat → Bool) (DOOM_PALETTE : List (Nat × Nat × Nat))
    (file : FILE) : Outcome (Option (Int × Int × List Nat)) :=
  match read_wad_header file with
  | .exit_failure => .exit_failure
  | .out_of_fuel => .out_of_fuel
  | .ret (header, file) =>
    match find_lump file header.num_lumps header.directory_offset SKY1 with
    | .exit_failure => .exit_failure
    | .out_of_fuel => .out_of_fuel
    | .ret (sky1_entry, file) =>
      if sky1_entry.size = -1 then .ret none else
      match extract_patch_data alloc file sky1_entry.filepos with
      | .exit_failure => .exit_failure
      | .out_of_fuel => .out_of_fuel
      | .ret none => .ret none
      | .ret (some (width, height, pixels)) =>
        if ¬ alloc (to_size_t (wrap_int32 (width * height * 3))) then .ret none else
        .ret (some (width, height,
          convert_to_rgb DOOM_PALETTE pixels (width * height).toNat 0))

/-- The string `"sky1.jpeg"`, the `output_filename` of `main`. -/
def output_filename : List Nat := [115, 107, 121, 49, 46, 106, 112, 101, 103]

/-- The function `main` run on an opened file: the exit status
(`EXIT_FAILURE` is 1, `EXIT_SUCCESS` is 0) and the state of the world
outside the program. The JPEG writer is an outside procedure: it receives the
arguments of the call `stbi_write_jpg(output_filename, width, height, 3,
rgb_pixels, 100)` and the world, and returns its status and the world it
leaves (with the file written, or not). The status of the writer only
selects the message printed; the function then returns `EXIT_SUCCESS`. -/
def main {World : Type} (alloc : Nat → Bool) (DOOM_PALETTE : List (Nat × Nat × Nat))
    (stbi_write_jpg : List Nat → Int → Int → Nat → List Nat → Nat → World → Bool × World)
    (file : FILE) (world : World) : Outcome (Nat × World) :=
  match main_pipeline alloc DOOM_PALETTE file with
  | .exit_failure => .exit_failure
  | .out_of_fuel => .out_of_fuel
  | .ret none => .ret (1, world)
  | .ret (some (width, height, rgb_pixels)) =>
    let (ok, world) := stbi_write_jpg output_filename width height 3 rgb_pixels 100 world
    if ¬ ok then .ret (0, world) else .ret (0, world)

/-- The status the process ends with: a `return` from `main` or the argument
of `exit`. -/
def exit_status {World : Type} : Outcome (Nat × World) → Option Nat
  | .ret c => some c.1
  | .exit_failure => some 1
  | .out_of_fuel => none

/-! ## Notions used in the statements -/

/-- The 16-byte directory entry stored at byte `off` of an archive: `filepos`
and `size` as little-endian `int32_t`, then the 8 bytes of the name. -/
def dir_entry_at (data : List Nat) (off : Nat) : WadDirEntry :=
  { filepos := int32_of_bytes ((data.drop off).take 4),
    size := int32_of_bytes ((data.drop (off + 4)).take 4),
    name := (data.drop (off + 8)).take 8 }

/-- The directory entry of index `i`, at the offset `find_lump` computes. -/
def dir_entry (data : List Nat) (directory_offset : Int) (i : Nat) : WadDirEntry :=
  dir_entry_at data (dir_entry_offset directory_offset i).toNat

/-- All 16 bytes of the directory entry of index `i` lie inside the archive. -/
def entry_readable (data : List Nat) (directory_offset : Int) (i : Nat) : Prop :=
  0 ≤ dir_entry_offset directory_offset i ∧
    (dir_entry_offset directory_offset i).toNat + 16 ≤ data.length

instance (data : List Nat) (directory_offset : Int) (i : Nat) :
    Decidable (entry_readable data directory_offset i) :=
  inferInstanceAs (Decidable (0 ≤ dir_entry_offset directory_offset i ∧
    (dir_entry_offset directory_offset i).toNat + 16 ≤ data.length))

/-- The test `strncmp(entry.name, lump_name, sizeof(entry.name)) == 0`. -/
def name_matches (entry : WadDirEntry) (lump_name : List Nat) : Prop :=
  strncmp entry.name lump_name 8 = 0

instance (entry : WadDirEntry) (lump_name : List Nat) :
    Decidable (name_matches entry lump_name) :=
  inferInstanceAs (Decidable (strncmp entry.name lump_name 8 = 0))

/-- The contents of a file: every element is a byte. -/
def is_byte_stream (data : List Nat) : Prop := ∀ b ∈ data, b < 256

instance (data : List Nat) : Decidable (is_byte_stream data) :=
  inferInstanceAs (Decidable (∀ b ∈ data, b < 256))

/-- The part of `extract_patch_data` that precedes the column loop: the
patch header, the column offsets and the stream after the offset table;
`none` on the paths that return `NULL`. -/
def patch_prologue (alloc : Nat → Bool) (file : FILE) (patch_offset : Int) :
    Option (DoomPatchHeader × List Int × FILE) :=
  let file := (fseek_SET file patch_offset).2
  let (hb, n, file) := fread file 8 1
  if n ≠ 1 then none else
  let header := patch_header_of_bytes hb
  if ¬ alloc (to_size_t (header.width * header.height)) then none else
  if ¬ alloc ((to_size_t header.width * 4) % 2 ^ 64) then none else
  let (ob, cnt, file) := fread file 4 (to_size_t header.width)
  if cnt ≠ to_size_t header.width then none else
  some (header, int32_array cnt ob, file)

/-- The `width` column offsets stored after the 8-byte header of the patch
at byte `start`. -/
def column_offsets_at (data : List Nat) (start width : Nat) : List Int :=
  int32_array width ((data.drop (start + 8)).take (4 * width))

/-- A patch at `patch_offset` whose header, with positive width and height,
and whose offset table are present, and for which both allocations of
`extract_patch_data` are granted. -/
def patch_readable (alloc : Nat → Bool) (data : List Nat) (patch_offset : Int)
    (header : DoomPatchHeader) : Prop :=
  0 ≤ patch_offset ∧
  patch_header_of_bytes ((data.drop patch_offset.toNat).take 8) = header ∧
  0 < header.width ∧ 0 < header.height ∧
  patch_offset.toNat + 8 + 4 * header.width.toNat ≤ data.length ∧
  alloc (header.width * header.height).toNat = true ∧
  alloc (4 * header.width.toNat) = true

instance (alloc : Nat → Bool) (data : List Nat) (patch_offset : Int)
    (header : DoomPatchHeader) : Decidable (patch_readable alloc data patch_offset header) :=
  inferInstanceAs (Decidable (0 ≤ patch_offset ∧
    patch_header_of_bytes ((data.drop patch_offset.toNat).take 8) = header ∧
    0 < header.width ∧ 0 < header.height ∧
    patch_offset.toNat + 8 + 4 * header.width.toNat ≤ data.length ∧
    alloc (header.width * header.height).toNat = true ∧
    alloc (4 * header.width.toNat) = true))

/-- A column without posts: the seek to `start` is accepted and the post
header read there is short (fewer than two bytes are left, as when the
column starts at or after the end of the data) or begins with the end marker
`0xFF`. -/
def no_post_at (data : List Nat) (start : Int) : Prop :=
  0 ≤ start ∧ (data.length < start.toNat + 2 ∨ data.getD start.toNat 0 = 255)

instance (data : List Nat) (start : Int) : Decidable (no_post_at data start) :=
  inferInstanceAs (Decidable (0 ≤ start ∧
    (data.length < start.toNat + 2 ∨ data.getD start.toNat 0 = 255)))

/-- The grid obtained by decoding column `col` on its own: the body of the
column loop for `col`, run on a zeroed grid. -/
def column_alone (data : List Nat) (patch_offset width height : Int)
    (column_offsets : List Int) (col : Nat) : List Nat :=
  match decode_column patch_offset width height column_offsets col ⟨data, 0⟩
      (List.replicate (width.toNat * height.toNat) 0) with
  | some (_, pixels) => pixels
  | none => []

/-! ## The single-post patch of the round trip

The bytes below follow the text of the round-trip property, not the source:
an 8-byte header `(w, h, 0, 0)`, `w` little-endian 32-bit column offsets and,
for each column, one post `[0, h, g 0 c, .., g (h-1) c, pad, 0xFF]`. -/

/-- The four little-endian bytes of a 32-bit value. -/
def le_bytes4 (x : Nat) : List Nat :=
  [x % 256, x / 256 % 256, x / 65536 % 256, x / 16777216 % 256]

/-- The post of column `c`: topdelta 0, length `h`, the `h` indices of the
column, one pad byte and the end marker. -/
def post_column (h : Nat) (g : Nat → Nat → Nat) (pad : Nat) (c : Nat) : List Nat :=
  0 :: h :: ((List.range h).map (fun r => g r c) ++ [pad, 255])

/-- Offset of the post of column `c` from the start of the patch. -/
def column_offset (w h c : Nat) : Nat := 8 + 4 * w + c * (h + 4)

/-- The offset table for the `n` columns from `c` on. -/
def offset_table (w h : Nat) : Nat → Nat → List Nat
  | 0, _ => []
  | n + 1, c => le_bytes4 (column_offset w h c) ++ offset_table w h n (c + 1)

/-- The posts of the `n` columns from `c` on. -/
def post_columns (h : Nat) (g : Nat → Nat → Nat) (pad : Nat) : Nat → Nat → List Nat
  | 0, _ => []
  | n + 1, c => post_column h g pad c ++ post_columns h g pad n (c + 1)

/-- The bytes of the patch of width `w` and height `h` with the indices
`g row col`, one post per column. -/
def encode_patch (w h : Nat) (g : Nat → Nat → Nat) (pad : Nat) : List Nat :=
  [w % 256, w / 256 % 256, h % 256, h / 256 % 256, 0, 0, 0, 0] ++
    (offset_table w h w 0 ++ post_columns h g pad w 0)

/-! ## Concrete inputs -/

/-- The allocator that grants every request below `2 ^ 40` bytes, the empty
request included. -/
def roomy_alloc (n : Nat) : Bool := decide (n < 2 ^ 40)

/-- A 256-entry table with pairwise different entries: entry `i` is
`(i, 255 - i, 7)`. -/
def sample_palette : List (Nat × Nat × Nat) :=
  (List.range 256).map fun i => (i, 255 - i, 7)

/-- The grid `[[1, 3], [2, 4]]` (and its continuation): cell `(r, c)` holds
`1 + r + 2 * c`. -/
def sample_grid (r c : Nat) : Nat := 1 + r + 2 * c

/-- The synthetic archive: tag `PWAD`, one lump, the directory at offset 40;
at offset 12 a 2x2 patch whose columns hold the posts `{1,2}` and `{3,4}`;
the directory entry `(12, 28, "SKY1")`. -/
def sky_archive : List Nat :=
  [80, 87, 65, 68, 1, 0, 0, 0, 40, 0, 0, 0,
   2, 0, 2, 0, 0, 0, 0, 0, 16, 0, 0, 0, 22, 0, 0, 0,
   0, 2, 1, 2, 0, 255, 0, 2, 3, 4, 0, 255,
   12, 0, 0, 0, 28, 0, 0, 0, 83, 75, 89, 49, 0, 0, 0, 0]

/-- A 1x2 patch whose only column holds a post of length 2 with one data
byte, then the end of the file. -/
def ragged_patch : List Nat := [1, 0, 2, 0, 0, 0, 0, 0, 12, 0, 0, 0, 0, 2, 7]

/-- A 2x3 patch without posts: column 0 starts with the end marker, column 1
starts at the end of the data. -/
def empty_patch : List Nat :=
  [2, 0, 3, 0, 0, 0, 0, 0, 16, 0, 0, 0, 17, 0, 0, 0, 255]

/-- A patch header with width 3 and height 0, followed by three column
offsets. -/
def flat_patch : List Nat :=
  [3, 0, 0, 0, 0, 0, 0, 0, 20, 0, 0, 0, 20, 0, 0, 0, 20, 0, 0, 0]

/-- A patch header with width 0 and height -1. -/
def void_patch : List Nat := [0, 0, 255, 255, 0, 0, 0, 0]

/-- A patch header with width 2 and height -1, followed by two column
offsets. -/
def inverted_patch : List Nat := [2, 0, 255, 255, 0, 0, 0, 0, 16, 0, 0, 0, 16, 0, 0, 0]

/-- A 2x3 patch: the post of column 0 has topdelta 1 and length 2 (it ends
at the last row), the post of column 1 has topdelta 1 and length 3 (one row
too many). -/
def boundary_patch : List Nat :=
  [2, 0, 3, 0, 0, 0, 0, 0, 16, 0, 0, 0, 22, 0, 0, 0,
   1, 2, 5, 6, 0, 255,
   1, 3, 7, 8, 9, 0, 255]

/-- A directory of one entry `(0, 0, "SKY1    ")`, the name padded with
spaces. -/
def spaced_directory : List Nat :=
  [0, 0, 0, 0, 0, 0, 0, 0, 83, 75, 89, 49, 32, 32, 32, 32]

/-- A directory of one entry `(0, 0, "SKY1")`, the name padded with NUL
bytes. -/
def nul_directory : List Nat :=
  [0, 0, 0, 0, 0, 0, 0, 0, 83, 75, 89, 49, 0, 0, 0, 0]

/-- A 1x1 patch whose column is a run of three posts of topdelta 0 and
length 0, then the end of the file. -/
def zero_run_patch : List Nat :=
  [1, 0, 1, 0, 0, 0, 0, 0, 12, 0, 0, 0, 0, 0, 9, 0, 0, 9, 0, 0, 9]

/-! ## The stores of the decoder

The functions below are the loops of `extract_patch_data` with the pixel
buffer left out: same reads, same tests, and every store
`pixels[row * width + col] = pixel` recorded as the row and the file
position of the byte stored. -/

/-- The inner loop of a post with `n` iterations left: the stream and the
row after the loop and the stores `(row, position of the byte)`, in order. -/
def read_post_stores : Nat → FILE → Int → FILE × Int × List (Int × Nat)
  | 0, file, row => (file, row, [])
  | n + 1, file, row =>
    if (fread file 1 1).2.1 ≠ 1 then ((fread file 1 1).2.2, row, [])
    else
      ((read_post_stores n (fread file 1 1).2.2 (row + 1)).1,
       (read_post_stores n (fread file 1 1).2.2 (row + 1)).2.1,
       (row, file.pos) :: (read_post_stores n (fread file 1 1).2.2 (row + 1)).2.2)

/-- The post loop of one column: the stream after the loop and the stores
of the column, in order. -/
def decode_posts_stores (height : Int) :
    Nat → FILE → Int → Option (FILE × List (Int × Nat))
  | 0, _, _ => none
  | fuel + 1, file, row =>
    if ¬ (row < height) then some (file, []) else
    let (post, cnt, file) := fread file 2 1
    if cnt ≠ 1 then some (file, []) else
    let topdelta := post.getD 0 0
    let length := post.getD 1 0
    if topdelta = 0xFF then some (file, []) else
    let row := row + topdelta
    if row + length > height then some (file, []) else
    let (file, row, stores) := read_post_stores length file row
    let file := (fseek_CUR file 1).2
    match decode_posts_stores height fuel file row with
    | none => none
    | some (file, rest) => some (file, stores ++ rest)

/-- The body of the column loop: the stores of column `col`. -/
def decode_column_stores (patch_offset height : Int) (column_offsets : List Int)
    (col : Nat) (file : FILE) : Option (FILE × List (Int × Nat)) :=
  let file := (fseek_SET file (column_start patch_offset column_offsets col)).2
  decode_posts_stores height (file.data.length + 2) file 0

/-- The column loop: the stores `(col, row, position of the byte)` of the
columns `col .. col + n - 1`, in order. -/
def decode_columns_stores (patch_offset height : Int) (column_offsets : List Int) :
    Nat → Nat → FILE → Option (FILE × List (Nat × Int × Nat))
  | 0, _, file => some (file, [])
  | n + 1, col, file =>
    match decode_column_stores patch_offset height column_offsets col file with
    | none => none
    | some (file, stores) =>
      match decode_columns_stores patch_offset height column_offsets n (col + 1) file with
      | none => none
      | some (file, rest) => some (file, stores.map (fun s => (col, s.1, s.2)) ++ rest)

/-- All stores of `extract_patch_data`, in order; none on the paths that
return `NULL`. -/
def patch_stores (alloc : Nat → Bool) (file : FILE) (patch_offset : Int) :
    List (Nat × Int × Nat) :=
  match patch_prologue alloc file patch_offset with
  | none => []
  | some (header, column_offsets, file) =>
    match decode_columns_stores patch_offset header.height column_offsets
        header.width.toNat 0 file with
    | none => []
    | some (_, stores) => stores

/-- The pixel buffer after a list of stores `(col, row, position)`: each
store puts the byte at `position` of the file into cell `row * width + col`. -/
def replay_stores (width : Int) (data : List Nat) (pixels : List Nat)
    (stores : List (Nat × Int × Nat)) : List Nat :=
  stores.foldl (fun g s => pixels_store g (s.2.1 * width + s.1) (data.getD s.2.2 0)) pixels

/-- A 2x2 patch whose second column offset is -1: column 0 holds a post of
length 1 (byte 9) and an end marker, the bytes after it are `0, 1, 7, 0`. -/
def stale_patch_a : List Nat :=
  [2, 0, 2, 0, 0, 0, 0, 0, 16, 0, 0, 0, 255, 255, 255, 255,
   0, 1, 9, 0, 255, 0, 0, 1, 7, 0]

/-- The patch `stale_patch_a` with the length byte of the post of column 0
(byte 17) changed from 1 to 2. -/
def stale_patch_b : List Nat :=
  [2, 0, 2, 0, 0, 0, 0, 0, 16, 0, 0, 0, 255, 255, 255, 255,
   0, 2, 9, 0, 255, 0, 0, 1, 7, 0]

/-- A JPEG writer that succeeds and records the arguments of each call: the
world is the list of the calls made so far. -/
def recording_writer (name : List Nat) (width height : Int) (comp : Nat) (data : List Nat)
    (quality : Nat) (calls : List (List Nat × Int × Int × Nat × List Nat × Nat)) :
    Bool × List (List Nat × Int × Int × Nat × List Nat × Nat) :=
  (true, calls ++ [(name, width, height, comp, data, quality)])

/-- A 2x2 patch: the post of column 0 has topdelta 0 and length 3 (one row
too many), the offset of column 1 is -1; the data bytes of the post are
`0, 1, 7`. -/
def leaking_patch : List Nat :=
  [2, 0, 2, 0, 0, 0, 0, 0, 16, 0, 0, 0, 255, 255, 255, 255,
   0, 3, 0, 1, 7, 0]

/-! ## Post sequences

A post of a column is written here as `(topdelta, data bytes, pad byte)`;
the definitions follow the text of the properties on multi-post columns. -/

/-- The bytes of a post: topdelta, length, the data bytes and the pad byte. -/
def post_bytes (p : Nat × List Nat × Nat) : List Nat :=
  p.1 :: p.2.1.length :: (p.2.1 ++ [p.2.2])

/-- The bytes of a sequence of posts. -/
def posts_bytes : List (Nat × List Nat × Nat) → List Nat
  | [] => []
  | p :: ps => post_bytes p ++ posts_bytes ps

/-- Offset of the header of post `k` from the start of the column: the sum
of `L_j + 3` over the posts `j < k`. -/
def post_offset : List (Nat × List Nat × Nat) → Nat → Nat
  | [], _ => 0
  | _ :: _, 0 => 0
  | p :: ps, k + 1 => p.2.1.length + 3 + post_offset ps k

/-- First row of post `k`: the topdeltas and lengths of the posts `j < k`
added up, plus the topdelta of post `k`. -/
def post_row : List (Nat × List Nat × Nat) → Nat → Nat
  | [], _ => 0
  | p :: _, 0 => p.1
  | p :: ps, k + 1 => p.1 + p.2.1.length + post_row ps k

/-- The row cursor after a sequence of posts: all topdeltas and lengths
added up. -/
def posts_rows : List (Nat × List Nat × Nat) → Nat
  | [] => 0
  | p :: ps => p.1 + p.2.1.length + posts_rows ps

/-- The stores of a sequence of posts read at position `q` with the row
cursor at `cursor`. -/
def chain_stores : List (Nat × List Nat × Nat) → Nat → Int → List (Int × Nat)
  | [], _, _ => []
  | p :: ps, q, cursor =>
    (List.range p.2.1.length).map
      (fun (j : Nat) => (cursor + (p.1 : Int) + (j : Int), q + 2 + j)) ++
    chain_stores ps (q + p.2.1.length + 3) (cursor + (p.1 : Int) + (p.2.1.length : Int))

/-- The bytes `bytes` are present in `data` from position `q` on. -/
def bytes_at (data : List Nat) (q : Nat) (bytes : List Nat) : Prop :=
  q + bytes.length ≤ data.length ∧ ∀ i, i < bytes.length → data.getD (q + i) 0 = bytes.getD i 0

instance (data : List Nat) (q : Nat) (bytes : List Nat) : Decidable (bytes_at data q bytes) :=
  inferInstanceAs (Decidable (q + bytes.length ≤ data.length ∧
    ∀ i, i < bytes.length → data.getD (q + i) 0 = bytes.getD i 0))

/-- A 1x6 patch whose column holds two posts and an end marker: topdelta 1
with the bytes 5, 6, then topdelta 1 with the byte 7. -/
def tall_patch : List Nat :=
  [1, 0, 6, 0, 0, 0, 0, 0, 12, 0, 0, 0,
   1, 2, 5, 6, 0,
   1, 1, 7, 0,
   255]

/-- A 1x6 patch cut inside its second post: a post of topdelta 1 with the
byte 5, then a post of topdelta 1 and length 3 of which only the byte 7 is
present. -/
def cut_patch : List Nat :=
  [1, 0, 6, 0, 0, 0, 0, 0, 12, 0, 0, 0,
   1, 1, 5, 0,
   1, 3, 7]

/-- The 16 bytes of the directory entry of index `i`, at byte
`directory_offset + 16 * i` of the archive, lie inside the archive. -/
def entry_in_archive (data : List Nat) (directory_offset : Int) (i : Nat) : Prop :=
  0 ≤ directory_offset + 16 * (i : Int) ∧
    directory_offset + 16 * (i : Int) + 16 ≤ (data.length : Int)

instance (data : List Nat) (directory_offset : Int) (i : Nat) :
    Decidable (entry_in_archive data directory_offset i) :=
  inferInstanceAs (Decidable (0 ≤ directory_offset + 16 * (i : Int) ∧
    directory_offset + 16 * (i : Int) + 16 ≤ (data.length : Int)))

/-- An archive of `2 ^ 31 + 16` zero bytes. -/
def far_archive : List Nat := List.replicate 2147483664 0

/-- A directory of two entries, `(0, 0, "A")` and `(12, 28, "SKY1")`, the
names padded with NUL bytes. -/
def two_entry_directory : List Nat :=
  [0, 0, 0, 0, 0, 0, 0, 0, 65, 0, 0, 0, 0, 0, 0, 0,
   12, 0, 0, 0, 28, 0, 0, 0, 83, 75, 89, 49, 0, 0, 0, 0]

/-! # Theorems -/

/-! ## Reads from the byte stream -/

theorem fread_length (file : FILE) (size nmemb : Nat) :
    (fread file size nmemb).1.length = min (size * nmemb) (file.data.length - file.pos) := by
  simp [fread, List.length_take, List.length_drop]

/-- A read whose bytes are all present returns them and the full count. -/
theorem fread_full (file : FILE) (size nmemb : Nat) (hs : 0 < size)
    (h : file.pos + size * nmemb ≤ file.data.length) :
    fread file size nmemb =
      ((file.data.drop file.pos).take (size * nmemb), nmemb,
        { file with pos := file.pos + size * nmemb }) := by
  have hl : ((file.data.drop file.pos).take (size * nmemb)).length = size * nmemb := by
    rw [List.length_take, List.length_drop]; omega
  simp only [fread, hl]
  rw [Nat.mul_div_cancel_left _ hs]

/-- A read with fewer bytes left than asked for returns a smaller count. -/
theorem fread_short (file : FILE) (size nmemb : Nat) (hs : 0 < size) (hn : 0 < nmemb)
    (h : file.data.length < file.pos + size * nmemb) :
    (fread file size nmemb).2.1 < nmemb := by
  have hpos : 0 < size * nmemb := Nat.mul_pos hs hn
  have hl : ((file.data.drop file.pos).take (size * nmemb)).length < size * nmemb := by
    rw [List.length_take, List.length_drop]
    generalize size * nmemb = k at *
    omega
  simp only [fread]
  exact (Nat.div_lt_iff_lt_mul hs).2 (by rw [Nat.mul_comm nmemb size]; exact hl)

theorem read_wad_header_ok (data : List Nat) (h : 12 ≤ data.length) :
    read_wad_header ⟨data, 0⟩ =
      .ret ({ type := data.take 4,
              num_lumps := int32_of_bytes ((data.drop 4).take 4),
              directory_offset := int32_of_bytes ((data.drop 8).take 4) }, ⟨data, 12⟩) := by
  unfold read_wad_header
  rw [fread_full _ 1 4 (by decide) (by simpa using by omega)]
  simp only []
  rw [fread_full _ 4 1 (by decide) (by simpa using by omega)]
  simp only []
  rw [fread_full _ 4 1 (by decide) (by simpa using by omega)]
  simp

theorem le_unsigned_four (a b c d : Nat) :
    le_unsigned [a, b, c, d] = a + 256 * b + 65536 * c + 16777216 * d := by
  simp only [le_unsigned]; ring

theorem take_four_drop (data : List Nat) (k : Nat) (h : k + 4 ≤ data.length) :
    (data.drop k).take 4 =
      [data.getD k 0, data.getD (k + 1) 0, data.getD (k + 2) 0, data.getD (k + 3) 0] := by
  apply List.ext_getElem
  · simp [List.length_take, List.length_drop]; omega
  · intro i h1 h2
    simp only [List.length_cons, List.length_nil] at h2
    have hi : i = 0 ∨ i = 1 ∨ i = 2 ∨ i = 3 := by omega
    rcases hi with rfl | rfl | rfl | rfl <;>
      simp [List.getElem_take, List.getElem_drop, List.getD_eq_getElem?_getD,
        List.getElem?_eq_getElem (show k < data.length by omega),
        List.getElem?_eq_getElem (show k + 1 < data.length by omega),
        List.getElem?_eq_getElem (show k + 2 < data.length by omega),
        List.getElem?_eq_getElem (show k + 3 < data.length by omega)]

theorem read_wad_header_short (data : List Nat) (h : data.length < 12) :
    read_wad_header ⟨data, 0⟩ = .exit_failure := by
  unfold read_wad_header
  by_cases h1 : 4 ≤ data.length
  · rw [fread_full _ 1 4 (by decide) (by simpa using by omega)]
    simp only []
    by_cases h2 : 8 ≤ data.length
    · rw [fread_full _ 4 1 (by decide) (by simpa using by omega)]
      simp only []
      have := fread_short ⟨data, 0 + 1 * 4 + 4 * 1⟩ 4 1 (by decide) (by decide)
        (by simpa using by omega)
      rcases hfr : fread ⟨data, 0 + 1 * 4 + 4 * 1⟩ 4 1 with ⟨b, n, f⟩
      rw [hfr] at this
      simp at this
      simp [this]
    · have := fread_short ⟨data, 0 + 1 * 4⟩ 4 1 (by decide) (by decide)
        (by simpa using by omega)
      rcases hfr : fread ⟨data, 0 + 1 * 4⟩ 4 1 with ⟨b, n, f⟩
      rw [hfr] at this
      simp at this
      simp [this]
  · have := fread_short ⟨data, 0⟩ 1 4 (by decide) (by decide) (by simpa using by omega)
    rcases hfr : fread ⟨data, 0⟩ 1 4 with ⟨b, n, f⟩
    rw [hfr] at this
    simp at this
    have : n ≠ 4 := by omega
    simp [this]

/-- C10: `read_wad_header` on a stream at offset 0 returns a header if and
only if the stream holds at least 12 bytes; it then leaves the position at 12
and returns the first four bytes as the tag (whatever they are) and the two
little-endian signed 32-bit values of bytes 4..7 and 8..11; on a shorter
stream it exits with failure. -/
theorem read_wad_header_contract (data : List Nat) :
    ((∃ r, read_wad_header ⟨data, 0⟩ = .ret r) ↔ 12 ≤ data.length) ∧
    (12 ≤ data.length →
      read_wad_header ⟨data, 0⟩ =
        .ret ({ type := data.take 4,
                num_lumps := to_signed 32 (data.getD 4 0 + 256 * data.getD 5 0 +
                  65536 * data.getD 6 0 + 16777216 * data.getD 7 0),
                directory_offset := to_signed 32 (data.getD 8 0 + 256 * data.getD 9 0 +
                  65536 * data.getD 10 0 + 16777216 * data.getD 11 0) },
              ⟨data, 12⟩)) ∧
    (data.length < 12 → read_wad_header ⟨data, 0⟩ = .exit_failure) := by
  have hok : 12 ≤ data.length →
      read_wad_header ⟨data, 0⟩ =
        .ret ({ type := data.take 4,
                num_lumps := to_signed 32 (data.getD 4 0 + 256 * data.getD 5 0 +
                  65536 * data.getD 6 0 + 16777216 * data.getD 7 0),
                directory_offset := to_signed 32 (data.getD 8 0 + 256 * data.getD 9 0 +
                  65536 * data.getD 10 0 + 16777216 * data.getD 11 0) },
              ⟨data, 12⟩) := by
    intro h
    rw [read_wad_header_ok data h, int32_of_bytes, int32_of_bytes,
      take_four_drop data 4 (by omega), take_four_drop data 8 (by omega),
      le_unsigned_four, le_unsigned_four]
  refine ⟨⟨?_, fun h => ⟨_, hok h⟩⟩, hok, read_wad_header_short data⟩
  rintro ⟨r, hr⟩
  by_contra hlt
  rw [read_wad_header_short data (by omega)] at hr
  cases hr

/-- C10 at a 12-byte stream with the tag `XXXX`. -/
theorem read_wad_header_contract_witness :
    read_wad_header ⟨[88, 88, 88, 88, 2, 1, 0, 0, 255, 255, 255, 255], 0⟩ =
      .ret ({ type := [88, 88, 88, 88], num_lumps := 258, directory_offset := -1 },
            ⟨[88, 88, 88, 88, 2, 1, 0, 0, 255, 255, 255, 255], 12⟩) ∧
    read_wad_header ⟨[88, 88, 88, 88, 2, 1, 0, 0, 255, 255, 255], 0⟩ = .exit_failure :=
  ⟨((read_wad_header_contract [88, 88, 88, 88, 2, 1, 0, 0, 255, 255, 255, 255]).2.1
      (by decide)).trans (by decide),
   (read_wad_header_contract [88, 88, 88, 88, 2, 1, 0, 0, 255, 255, 255]).2.2 (by decide)⟩

/-- C9: for a 256-entry table and every 8-bit index, `doom_index_to_rgb`
returns the table entry at that index (a total lookup); index 0 gives the
first entry and index 255 the last one; the guard `index >= 256` is false, so
black is returned only where the table itself holds black. -/
theorem doom_index_to_rgb_lookup (DOOM_PALETTE : List (Nat × Nat × Nat))
    (hpal : DOOM_PALETTE.length = 256) (index : Nat) (hidx : index < 256) :
    DOOM_PALETTE[index]? = some (doom_index_to_rgb DOOM_PALETTE index) ∧
    DOOM_PALETTE.head? = some (doom_index_to_rgb DOOM_PALETTE 0) ∧
    DOOM_PALETTE.getLast? = some (doom_index_to_rgb DOOM_PALETTE 255) ∧
    ¬ (index ≥ 256) ∧
    (doom_index_to_rgb DOOM_PALETTE index = (0, 0, 0) →
      DOOM_PALETTE[index]? = some (0, 0, 0)) := by
  have key : ∀ i, i < 256 →
      DOOM_PALETTE[i]? = some (doom_index_to_rgb DOOM_PALETTE i) := by
    intro i hi
    have hlt : i < DOOM_PALETTE.length := by omega
    simp [doom_index_to_rgb, Nat.not_le.2 hi, List.getD_eq_getElem?_getD,
      List.getElem?_eq_getElem hlt]
  refine ⟨key index hidx, ?_, ?_, by omega, ?_⟩
  · rw [← key 0 (by decide)]
    cases DOOM_PALETTE <;> simp
  · rw [← key 255 (by decide), List.getLast?_eq_getElem?, hpal]
  · intro h
    rw [key index hidx, h]

/-- C9 at `sample_palette` and index 200. -/
theorem doom_index_to_rgb_lookup_witness :
    sample_palette[200]? = some (doom_index_to_rgb sample_palette 200) ∧
    sample_palette.head? = some (doom_index_to_rgb sample_palette 0) ∧
    sample_palette.getLast? = some (doom_index_to_rgb sample_palette 255) ∧
    ¬ (200 ≥ 256) ∧
    (doom_index_to_rgb sample_palette 200 = (0, 0, 0) →
      sample_palette[200]? = some (0, 0, 0)) :=
  doom_index_to_rgb_lookup sample_palette (by simp [sample_palette]) 200 (by decide)

/-! ## Directory lookup -/

theorem read_directory_entry_ok (file : FILE) (offset : Int) (h0 : 0 ≤ offset)
    (h : offset.toNat + 16 ≤ file.data.length) :
    read_directory_entry file offset =
      .ret (dir_entry_at file.data offset.toNat, ⟨file.data, offset.toNat + 16⟩) := by
  unfold read_directory_entry fseek_SET
  rw [if_neg (by omega)]
  simp only []
  rw [fread_full _ 4 1 (by decide) (by simpa using by omega)]
  simp only []
  rw [fread_full _ 4 1 (by decide) (by simpa using by omega)]
  simp only []
  rw [fread_full _ 1 8 (by decide) (by simpa using by omega)]
  simp [dir_entry_at, Nat.add_assoc]

/-- The loop of `find_lump` started at index `i` with `n` iterations left,
all of whose entries are readable: it returns the first matching entry, or
the sentinel when none matches. -/
theorem find_lump_loop_spec (directory_offset : Int) (lump_name : List Nat) :
    ∀ (n i : Nat) (file : FILE),
      (∀ j, i ≤ j → j < i + n → entry_readable file.data directory_offset j) →
      (∀ k, i ≤ k → k < i + n →
        name_matches (dir_entry file.data directory_offset k) lump_name →
        (∀ j, i ≤ j → j < k →
          ¬ name_matches (dir_entry file.data directory_offset j) lump_name) →
        find_lump_loop directory_offset lump_name n i file =
          .ret (dir_entry file.data directory_offset k,
            ⟨file.data, (dir_entry_offset directory_offset k).toNat + 16⟩)) ∧
      ((∀ j, i ≤ j → j < i + n →
          ¬ name_matches (dir_entry file.data directory_offset j) lump_name) →
        ∃ file', file'.data = file.data ∧
          find_lump_loop directory_offset lump_name n i file = .ret (invalid_entry, file')) := by
  intro n
  induction n with
  | zero =>
    intro i file _
    exact ⟨fun k h1 h2 => by omega, fun _ => ⟨file, rfl, rfl⟩⟩
  | succ n ih =>
    intro i file hread
    have hri := hread i (Nat.le_refl _) (by omega)
    have hstep := read_directory_entry_ok file (dir_entry_offset directory_offset i)
      hri.1 hri.2
    have ih' := ih (i + 1) ⟨file.data, (dir_entry_offset directory_offset i).toNat + 16⟩
      (fun j h1 h2 => hread j (by omega) (by omega))
    constructor
    · intro k hk1 hk2 hm hfirst
      rw [find_lump_loop, hstep]
      simp only []
      by_cases hik : k = i
      · subst hik
        have : strncmp (dir_entry_at file.data
            (dir_entry_offset directory_offset k).toNat).name lump_name 8 = 0 := hm
        rw [if_pos this]
        rfl
      · have hno := hfirst i (Nat.le_refl _) (by omega)
        have : ¬ strncmp (dir_entry_at file.data
            (dir_entry_offset directory_offset i).toNat).name lump_name 8 = 0 := hno
        rw [if_neg this]
        have := ih'.1 k (by omega) (by omega) hm (fun j h1 h2 => hfirst j (by omega) h2)
        rw [show ((i : Int) + 1) = ((i + 1 : Nat) : Int) by push_cast; rfl]
        exact this
    · intro hnone
      rw [find_lump_loop, hstep]
      simp only []
      have hno := hnone i (Nat.le_refl _) (by omega)
      have : ¬ strncmp (dir_entry_at file.data
          (dir_entry_offset directory_offset i).toNat).name lump_name 8 = 0 := hno
      rw [if_neg this]
      rw [show ((i : Int) + 1) = ((i + 1 : Nat) : Int) by push_cast; rfl]
      exact ih'.2 (fun j h1 h2 => hnone j (by omega) (by omega))

/-! ## The synthetic archive, end to end -/

theorem sky_archive_extract (alloc : Nat → Bool) (h4 : alloc 4 = true) (h8 : alloc 8 = true) :
    extract_patch_data alloc ⟨sky_archive, 56⟩ 12 = .ret (some (2, 2, [1, 3, 2, 4])) := by
  have e1 : fread (fseek_SET ⟨sky_archive, 56⟩ 12).2 8 1 =
      ([2, 0, 2, 0, 0, 0, 0, 0], 1, ⟨sky_archive, 20⟩) := by decide
  have e2 : patch_header_of_bytes [2, 0, 2, 0, 0, 0, 0, 0] = ⟨2, 2, 0, 0⟩ := by decide
  have e3 : to_size_t (2 * 2) = 4 := by decide
  have e4 : to_size_t 2 = 2 := by decide
  have e5 : fread ⟨sky_archive, 20⟩ 4 2 = ([16, 0, 0, 0, 22, 0, 0, 0], 2, ⟨sky_archive, 28⟩) := by
    decide
  have e6 : decode_columns 12 2 2 (int32_array 2 [16, 0, 0, 0, 22, 0, 0, 0]) (2 : Int).toNat 0
      ⟨sky_archive, 28⟩ (List.replicate 4 0) = some (⟨sky_archive, 39⟩, [1, 3, 2, 4]) := by
    decide
  unfold extract_patch_data
  simp only [e1, e2, e3, e4, e5, e6, h4, h8]
  simp [h8]

/-- C3: on the synthetic archive (tag `PWAD`, one lump `SKY1`, a 2x2 patch
with the posts `{1,2}` and `{3,4}`) the header is read, `find_lump` returns
the `SKY1` entry, `extract_patch_data` returns width 2, height 2 and the
row-major grid `[1,3,2,4]`, and the buffer handed to the JPEG writer is the
12 bytes of the palette entries 1, 3, 2, 4 in that order. -/
theorem sky_archive_end_to_end (alloc : Nat → Bool) (DOOM_PALETTE : List (Nat × Nat × Nat))
    (h4 : alloc 4 = true) (h8 : alloc 8 = true) (h12 : alloc 12 = true) :
    read_wad_header ⟨sky_archive, 0⟩ =
      .ret ({ type := [80, 87, 65, 68], num_lumps := 1, directory_offset := 40 },
        ⟨sky_archive, 12⟩) ∧
    find_lump ⟨sky_archive, 12⟩ 1 40 SKY1 =
      .ret ({ filepos := 12, size := 28, name := [83, 75, 89, 49, 0, 0, 0, 0] },
        ⟨sky_archive, 56⟩) ∧
    extract_patch_data alloc ⟨sky_archive, 56⟩ 12 = .ret (some (2, 2, [1, 3, 2, 4])) ∧
    main_pipeline alloc DOOM_PALETTE ⟨sky_archive, 0⟩ =
      .ret (some (2, 2,
        [(DOOM_PALETTE.getD 1 (0, 0, 0)).1, (DOOM_PALETTE.getD 1 (0, 0, 0)).2.1,
         (DOOM_PALETTE.getD 1 (0, 0, 0)).2.2,
         (DOOM_PALETTE.getD 3 (0, 0, 0)).1, (DOOM_PALETTE.getD 3 (0, 0, 0)).2.1,
         (DOOM_PALETTE.getD 3 (0, 0, 0)).2.2,
         (DOOM_PALETTE.getD 2 (0, 0, 0)).1, (DOOM_PALETTE.getD 2 (0, 0, 0)).2.1,
         (DOOM_PALETTE.getD 2 (0, 0, 0)).2.2,
         (DOOM_PALETTE.getD 4 (0, 0, 0)).1, (DOOM_PALETTE.getD 4 (0, 0, 0)).2.1,
         (DOOM_PALETTE.getD 4 (0, 0, 0)).2.2])) := by
  have e1 : read_wad_header ⟨sky_archive, 0⟩ =
      .ret ({ type := [80, 87, 65, 68], num_lumps := 1, directory_offset := 40 },
        ⟨sky_archive, 12⟩) := by decide
  have e2 : find_lump ⟨sky_archive, 12⟩ 1 40 SKY1 =
      .ret ({ filepos := 12, size := 28, name := [83, 75, 89, 49, 0, 0, 0, 0] },
        ⟨sky_archive, 56⟩) := by decide
  have e3 := sky_archive_extract alloc h4 h8
  have e4 : to_size_t (wrap_int32 (2 * 2 * 3)) = 12 := by decide
  refine ⟨e1, e2, e3, ?_⟩
  unfold main_pipeline
  simp only [e1, e2, e3, e4, h12]
  simp [convert_to_rgb, doom_index_to_rgb]

/-- C3 with the allocator that grants every request below `2 ^ 40` bytes and
`sample_palette`: the buffer is the twelve bytes of entries 1, 3, 2, 4. -/
theorem sky_archive_end_to_end_witness :
    main_pipeline (fun n => decide (n < 2 ^ 40)) sample_palette ⟨sky_archive, 0⟩ =
      .ret (some (2, 2, [1, 254, 7, 3, 252, 7, 2, 253, 7, 4, 251, 7])) :=
  (sky_archive_end_to_end (fun n => decide (n < 2 ^ 40)) sample_palette
    (by decide) (by decide) (by decide)).2.2.2.trans (by decide)

/-! ## The pixel buffer -/

theorem pixels_store_length (pixels : List Nat) (idx : Int) (v : Nat) :
    (pixels_store pixels idx v).length = pixels.length := by
  unfold pixels_store
  split <;> simp

theorem pixels_store_getD (pixels : List Nat) (idx : Int) (v : Nat) (k : Nat) :
    (pixels_store pixels idx v).getD k 0 =
      if (k : Int) = idx ∧ k < pixels.length then v else pixels.getD k 0 := by
  unfold pixels_store
  by_cases hb : 0 ≤ idx ∧ idx < pixels.length
  · rw [if_pos hb]
    simp only [List.getD_eq_getElem?_getD, List.getElem?_set]
    by_cases hk : (k : Int) = idx
    · have h1 : idx.toNat = k := by omega
      have h2 : k < pixels.length := by omega
      simp [hk, h1, h2]
    · have h1 : ¬ idx.toNat = k := by omega
      simp [hk, h1]
  · rw [if_neg hb]
    have : ¬ ((k : Int) = idx ∧ k < pixels.length) := by
      rintro ⟨h1, h2⟩; exact hb (by omega)
    rw [if_neg this]

/-! ## The inner loop of a post -/

theorem read_post_pixels_succ (width : Int) (col n : Nat) (file : FILE) (row : Int)
    (pixels : List Nat) :
    read_post_pixels width col (n + 1) file row pixels =
      if (fread file 1 1).2.1 ≠ 1 then ((fread file 1 1).2.2, row, pixels)
      else read_post_pixels width col n (fread file 1 1).2.2 (row + 1)
        (pixels_store pixels (row * width + col) ((fread file 1 1).1.headD 0)) := rfl

/-- One byte read at a position inside the data. -/
theorem fread_byte (file : FILE) (h : file.pos < file.data.length) :
    fread file 1 1 = ([file.data.getD file.pos 0], 1, ⟨file.data, file.pos + 1⟩) := by
  rw [fread_full file 1 1 (by decide) (by simpa using by omega)]
  have : (file.data.drop file.pos).take (1 * 1) = [file.data.getD file.pos 0] := by
    apply List.ext_getElem
    · simp [List.length_take, List.length_drop]; omega
    · intro i h1 h2
      simp only [List.length_cons, List.length_nil] at h2
      have hi : i = 0 := by omega
      subst hi
      simp [List.getElem_take, List.getElem_drop, List.getD_eq_getElem?_getD,
        List.getElem?_eq_getElem h]
  rw [this]

/-- One byte read at or after the end of the data. -/
theorem fread_byte_eof (file : FILE) (h : file.data.length ≤ file.pos) :
    fread file 1 1 = ([], 0, file) := by
  simp [fread, List.drop_eq_nil_of_le h]

/-- The inner loop keeps the data, never moves the position back and keeps
the size of the pixel buffer. -/
theorem read_post_pixels_frame (width : Int) (col : Nat) :
    ∀ (n : Nat) (file : FILE) (row : Int) (pixels : List Nat),
      (read_post_pixels width col n file row pixels).1.data = file.data ∧
      file.pos ≤ (read_post_pixels width col n file row pixels).1.pos ∧
      (read_post_pixels width col n file row pixels).2.2.length = pixels.length := by
  intro n
  induction n with
  | zero => intro file row pixels; simp [read_post_pixels]
  | succ n ih =>
    intro file row pixels
    rw [read_post_pixels_succ]
    by_cases hp : file.pos < file.data.length
    · rw [fread_byte file hp]
      simp only [ne_eq, not_true_eq_false, if_false]
      have := ih ⟨file.data, file.pos + 1⟩ (row + 1)
        (pixels_store pixels (row * width + col) ([file.data.getD file.pos 0].headD 0))
      simp only [pixels_store_length] at this
      exact ⟨this.1, by have := this.2.1; simp only at this; omega, this.2.2⟩
    · rw [fread_byte_eof file (by omega)]
      simp

/-! ## The post loop of a column -/

theorem decode_posts_succ (width height : Int) (col fuel : Nat) (file : FILE) (row : Int)
    (pixels : List Nat) :
    decode_posts width height col (fuel + 1) file row pixels =
      if ¬ (row < height) then some (file, pixels) else
      if (fread file 2 1).2.1 ≠ 1 then some ((fread file 2 1).2.2, pixels) else
      if (fread file 2 1).1.getD 0 0 = 0xFF then some ((fread file 2 1).2.2, pixels) else
      if row + ((fread file 2 1).1.getD 0 0 : Nat) + ((fread file 2 1).1.getD 1 0 : Nat) > height
      then some ((fread file 2 1).2.2, pixels) else
      decode_posts width height col fuel
        (fseek_CUR (read_post_pixels width col ((fread file 2 1).1.getD 1 0)
          (fread file 2 1).2.2 (row + ((fread file 2 1).1.getD 0 0 : Nat)) pixels).1 1).2
        (read_post_pixels width col ((fread file 2 1).1.getD 1 0)
          (fread file 2 1).2.2 (row + ((fread file 2 1).1.getD 0 0 : Nat)) pixels).2.1
        (read_post_pixels width col ((fread file 2 1).1.getD 1 0)
          (fread file 2 1).2.2 (row + ((fread file 2 1).1.getD 0 0 : Nat)) pixels).2.2 := rfl

theorem fread_data (file : FILE) (size nmemb : Nat) :
    (fread file size nmemb).2.2.data = file.data := rfl

theorem fseek_CUR_one (file : FILE) : (fseek_CUR file 1).2 = ⟨file.data, file.pos + 1⟩ := by
  unfold fseek_CUR
  rw [if_neg (by omega)]
  simp only [FILE.mk.injEq, true_and]
  omega

/-- A post header read at a position with two bytes left. -/
theorem fread_post (file : FILE) (h : file.pos + 2 ≤ file.data.length) :
    fread file 2 1 =
      ([file.data.getD file.pos 0, file.data.getD (file.pos + 1) 0], 1,
        ⟨file.data, file.pos + 2⟩) := by
  rw [fread_full file 2 1 (by decide) (by simpa using by omega)]
  have : (file.data.drop file.pos).take (2 * 1) =
      [file.data.getD file.pos 0, file.data.getD (file.pos + 1) 0] := by
    apply List.ext_getElem
    · simp [List.length_take, List.length_drop]; omega
    · intro i h1 h2
      simp only [List.length_cons, List.length_nil] at h2
      have hi : i = 0 ∨ i = 1 := by omega
      rcases hi with rfl | rfl <;>
        simp [List.getElem_take, List.getElem_drop, List.getD_eq_getElem?_getD,
          List.getElem?_eq_getElem (show file.pos < file.data.length by omega),
          List.getElem?_eq_getElem (show file.pos + 1 < file.data.length by omega)]
  rw [this]

/-- A post header read with fewer than two bytes left is a short read. -/
theorem fread_post_short (file : FILE) (h : file.data.length < file.pos + 2) :
    (fread file 2 1).2.1 ≠ 1 := by
  have := fread_short file 2 1 (by decide) (by decide) (by simpa using h)
  omega

/-- The post loop returns whenever its budget exceeds the number of bytes
left; it keeps the data and the size of the pixel buffer. -/
theorem decode_posts_returns (width height : Int) (col : Nat) :
    ∀ (fuel : Nat) (file : FILE) (row : Int) (pixels : List Nat),
      file.data.length - file.pos + 1 ≤ fuel →
      ∃ file' pixels', decode_posts width height col fuel file row pixels =
          some (file', pixels') ∧
        file'.data = file.data ∧ pixels'.length = pixels.length := by
  intro fuel
  induction fuel with
  | zero => intro file row pixels h; omega
  | succ fuel ih =>
    intro file row pixels h
    rw [decode_posts_succ]
    by_cases h1 : ¬ (row < height)
    · rw [if_pos h1]; exact ⟨_, _, rfl, rfl, rfl⟩
    rw [if_neg h1]
    by_cases hp : file.pos + 2 ≤ file.data.length
    · rw [fread_post file hp]
      simp only [ne_eq, not_true_eq_false, if_false]
      split
      · exact ⟨_, _, rfl, rfl, rfl⟩
      split
      · exact ⟨_, _, rfl, rfl, rfl⟩
      have hfr := read_post_pixels_frame width col
        ([file.data.getD file.pos 0, file.data.getD (file.pos + 1) 0].getD 1 0)
        ⟨file.data, file.pos + 2⟩
        (row + (([file.data.getD file.pos 0, file.data.getD (file.pos + 1) 0].getD 0 0 : Nat) : Int))
        pixels
      rw [fseek_CUR_one]
      generalize read_post_pixels width col
        ([file.data.getD file.pos 0, file.data.getD (file.pos + 1) 0].getD 1 0)
        ⟨file.data, file.pos + 2⟩
        (row + (([file.data.getD file.pos 0, file.data.getD (file.pos + 1) 0].getD 0 0 : Nat) : Int))
        pixels = res at hfr ⊢
      obtain ⟨f1, r1, p1⟩ := res
      simp only at hfr ⊢
      obtain ⟨f', p', he, hd, hl⟩ := ih ⟨f1.data, f1.pos + 1⟩ r1 p1 (by
        have := hfr.2.1
        simp only [hfr.1]
        omega)
      exact ⟨f', p', he, by rw [hd]; exact hfr.1, by rw [hl]; exact hfr.2.2⟩
    · rw [if_pos (fread_post_short file (by omega))]
      exact ⟨_, _, rfl, rfl, rfl⟩

/-! ## The column loop and `extract_patch_data` -/

/-- The function `extract_patch_data` is its prologue followed by the column loop on
a zeroed buffer of `width * height` cells. -/
theorem extract_patch_data_eq (alloc : Nat → Bool) (file : FILE) (patch_offset : Int) :
    extract_patch_data alloc file patch_offset =
      match patch_prologue alloc file patch_offset with
      | none => .ret none
      | some (header, column_offsets, file) =>
        match decode_columns patch_offset header.width header.height column_offsets
            header.width.toNat 0 file
            (List.replicate (to_size_t (header.width * header.height)) 0) with
        | none => .out_of_fuel
        | some (_, pixels) => .ret (some (header.width, header.height, pixels)) := by
  unfold extract_patch_data patch_prologue
  simp only []
  split_ifs <;> rfl

theorem fseek_SET_data (file : FILE) (offset : Int) :
    (fseek_SET file offset).2.data = file.data := by
  unfold fseek_SET; split <;> rfl

/-- The body of the column loop returns; it keeps the data and the size of
the pixel buffer. -/
theorem decode_column_returns (patch_offset width height : Int) (column_offsets : List Int)
    (col : Nat) (file : FILE) (pixels : List Nat) :
    ∃ file' pixels', decode_column patch_offset width height column_offsets col file pixels =
        some (file', pixels') ∧
      file'.data = file.data ∧ pixels'.length = pixels.length := by
  unfold decode_column
  obtain ⟨f', p', he, hd, hl⟩ := decode_posts_returns width height col
    ((fseek_SET file (column_start patch_offset column_offsets col)).2.data.length + 2)
    (fseek_SET file (column_start patch_offset column_offsets col)).2 0 pixels (by omega)
  exact ⟨f', p', he, by rw [hd, fseek_SET_data], hl⟩

/-- The column loop returns; it keeps the data and the size of the pixel
buffer. -/
theorem decode_columns_returns (patch_offset width height : Int) (column_offsets : List Int) :
    ∀ (n col : Nat) (file : FILE) (pixels : List Nat),
      ∃ file' pixels',
        decode_columns patch_offset width height column_offsets n col file pixels =
          some (file', pixels') ∧
        file'.data = file.data ∧ pixels'.length = pixels.length := by
  intro n
  induction n with
  | zero => intro col file pixels; exact ⟨_, _, rfl, rfl, rfl⟩
  | succ n ih =>
    intro col file pixels
    obtain ⟨f1, p1, he, hd, hl⟩ :=
      decode_column_returns patch_offset width height column_offsets col file pixels
    obtain ⟨f2, p2, he2, hd2, hl2⟩ := ih (col + 1) f1 p1
    refine ⟨f2, p2, ?_, by rw [hd2, hd], by rw [hl2, hl]⟩
    rw [decode_columns, he]
    exact he2

/-- The position at which `extract_patch_data` reads the patch header: the
patch offset, or the old position when the seek is rejected. -/
theorem fseek_SET_pos (file : FILE) (offset : Int) (h : 0 ≤ offset) :
    (fseek_SET file offset).2 = ⟨file.data, offset.toNat⟩ := by
  unfold fseek_SET
  rw [if_neg (by omega)]

/-- The prologue succeeds when header and offset table are present and both
allocations are granted. -/
theorem patch_prologue_some (alloc : Nat → Bool) (file : FILE) (patch_offset : Int)
    (start : Nat) (header : DoomPatchHeader)
    (hstart : (fseek_SET file patch_offset).2.pos = start)
    (hhdr : patch_header_of_bytes ((file.data.drop start).take 8) = header)
    (h8 : start + 8 ≤ file.data.length)
    (ha1 : alloc (to_size_t (header.width * header.height)) = true)
    (ha2 : alloc ((to_size_t header.width * 4) % 2 ^ 64) = true)
    (ht : start + 8 + 4 * to_size_t header.width ≤ file.data.length) :
    patch_prologue alloc file patch_offset =
      some (header,
        int32_array (to_size_t header.width)
          ((file.data.drop (start + 8)).take (4 * to_size_t header.width)),
        ⟨file.data, start + 8 + 4 * to_size_t header.width⟩) := by
  unfold patch_prologue
  have hf : (fseek_SET file patch_offset).2 = ⟨file.data, start⟩ := by
    rw [← hstart]
    have := fseek_SET_data file patch_offset
    cases hfs : (fseek_SET file patch_offset).2
    rw [hfs] at this
    simp only at this
    rw [this]
  simp only [hf]
  rw [fread_full _ 8 1 (by decide) (by simpa using h8)]
  simp only [Nat.mul_one, hhdr, ne_eq, not_true_eq_false, if_false, ha1, ha2]
  rw [fread_full _ 4 _ (by decide) (by simpa [Nat.add_assoc] using ht)]
  simp

/-- The prologue fails exactly on a short header, a refused allocation or a
short offset table. -/
theorem patch_prologue_none_iff (alloc : Nat → Bool) (file : FILE) (patch_offset : Int)
    (start : Nat) (header : DoomPatchHeader)
    (hstart : (fseek_SET file patch_offset).2.pos = start)
    (hhdr : patch_header_of_bytes ((file.data.drop start).take 8) = header) :
    patch_prologue alloc file patch_offset = none ↔
      (file.data.length < start + 8 ∨
       alloc (to_size_t (header.width * header.height)) = false ∨
       alloc ((to_size_t header.width * 4) % 2 ^ 64) = false ∨
       file.data.length < start + 8 + 4 * to_size_t header.width) := by
  by_cases h8 : start + 8 ≤ file.data.length
  swap
  · have hf : (fseek_SET file patch_offset).2 = ⟨file.data, start⟩ := by
      rw [← hstart]
      have := fseek_SET_data file patch_offset
      cases hfs : (fseek_SET file patch_offset).2
      rw [hfs] at this
      simp only at this
      rw [this]
    have hs := fread_short ⟨file.data, start⟩ 8 1 (by decide) (by decide)
      (by simpa using by omega)
    constructor
    · intro _; left; omega
    · intro _
      unfold patch_prologue
      simp only [hf]
      rcases hfr : fread ⟨file.data, start⟩ 8 1 with ⟨b, n, f⟩
      rw [hfr] at hs
      simp only at hs
      have : n ≠ 1 := by omega
      simp [this]
  by_cases ha1 : alloc (to_size_t (header.width * header.height)) = true
  swap
  · have ha1' : alloc (to_size_t (header.width * header.height)) = false := by
      simpa using ha1
    have hf : (fseek_SET file patch_offset).2 = ⟨file.data, start⟩ := by
      rw [← hstart]
      have := fseek_SET_data file patch_offset
      cases hfs : (fseek_SET file patch_offset).2
      rw [hfs] at this
      simp only at this
      rw [this]
    constructor
    · intro _; right; left; exact ha1'
    · intro _
      unfold patch_prologue
      simp only [hf]
      rw [fread_full _ 8 1 (by decide) (by simpa using h8)]
      simp [hhdr, ha1']
  by_cases ha2 : alloc ((to_size_t header.width * 4) % 2 ^ 64) = true
  swap
  · have ha2' : alloc ((to_size_t header.width * 4) % 2 ^ 64) = false := by
      simpa using ha2
    have hf : (fseek_SET file patch_offset).2 = ⟨file.data, start⟩ := by
      rw [← hstart]
      have := fseek_SET_data file patch_offset
      cases hfs : (fseek_SET file patch_offset).2
      rw [hfs] at this
      simp only at this
      rw [this]
    constructor
    · intro _; right; right; left; exact ha2'
    · intro _
      unfold patch_prologue
      simp only [hf]
      rw [fread_full _ 8 1 (by decide) (by simpa using h8)]
      have ha2n := ha2'
      norm_num at ha2n
      simp [hhdr, ha1, ha2n]
  by_cases ht : start + 8 + 4 * to_size_t header.width ≤ file.data.length
  · rw [patch_prologue_some alloc file patch_offset start header hstart hhdr h8 ha1 ha2 ht]
    simp only [reduceCtorEq, false_iff, not_or]
    refine ⟨by omega, by simp [ha1], ?_, by omega⟩
    rw [ha2]; simp
  · have hf : (fseek_SET file patch_offset).2 = ⟨file.data, start⟩ := by
      rw [← hstart]
      have := fseek_SET_data file patch_offset
      cases hfs : (fseek_SET file patch_offset).2
      rw [hfs] at this
      simp only at this
      rw [this]
    have hwpos : 0 < to_size_t header.width := by
      rcases Nat.eq_zero_or_pos (to_size_t header.width) with h0 | h0
      · rw [h0] at ht; omega
      · exact h0
    have hs := fread_short ⟨file.data, start + 8⟩ 4 (to_size_t header.width) (by decide)
      hwpos (by simpa using by omega)
    constructor
    · intro _; right; right; right; omega
    · intro _
      unfold patch_prologue
      simp only [hf]
      rw [fread_full _ 8 1 (by decide) (by simpa using h8)]
      simp only [Nat.mul_one, hhdr, ne_eq, not_true_eq_false, if_false, ha1, ha2]
      rcases hfr : fread ⟨file.data, start + 8⟩ 4 (to_size_t header.width) with ⟨b, n, f⟩
      rw [hfr] at hs
      simp only at hs
      have : n ≠ to_size_t header.width := by omega
      simp [this]

/-! ## Ranges of the header fields -/

theorem le_unsigned_lt (bs : List Nat) (h : ∀ b ∈ bs, b < 256) :
    le_unsigned bs < 256 ^ bs.length := by
  induction bs with
  | nil => simp [le_unsigned]
  | cons b bs ih =>
    have hb : b < 256 := h b (List.mem_cons_self _ _)
    have := ih (fun x hx => h x (List.mem_cons_of_mem _ hx))
    simp only [le_unsigned, List.length_cons, pow_succ]
    omega

theorem int16_of_bytes_range (bs : List Nat) (h : ∀ b ∈ bs, b < 256) (hl : bs.length ≤ 2) :
    -32768 ≤ int16_of_bytes bs ∧ int16_of_bytes bs < 32768 := by
  have h1 := le_unsigned_lt bs h
  have h2 : 256 ^ bs.length ≤ 256 ^ 2 := Nat.pow_le_pow_right (by decide) hl
  have h3 : le_unsigned bs < 65536 := by
    have : (256 : Nat) ^ 2 = 65536 := by norm_num
    omega
  unfold int16_of_bytes to_signed
  norm_num
  split <;> omega

/-- Width and height of a patch header read from a file are 16-bit signed
values. -/
theorem patch_header_range (data : List Nat) (hbytes : is_byte_stream data) (start : Nat) :
    -32768 ≤ (patch_header_of_bytes ((data.drop start).take 8)).width ∧
    (patch_header_of_bytes ((data.drop start).take 8)).width < 32768 ∧
    -32768 ≤ (patch_header_of_bytes ((data.drop start).take 8)).height ∧
    (patch_header_of_bytes ((data.drop start).take 8)).height < 32768 := by
  have hmem : ∀ k, ∀ b ∈ (((data.drop start).take 8).drop k).take 2, b < 256 := by
    intro k b hb
    exact hbytes b (List.mem_of_mem_drop (List.mem_of_mem_take
      (List.mem_of_mem_drop (List.mem_of_mem_take hb))))
  have hlen : ∀ k, ((((data.drop start).take 8).drop k).take 2).length ≤ 2 := by
    intro k; simp [List.length_take]
  have hw := int16_of_bytes_range _ (hmem 0) (hlen 0)
  have hh := int16_of_bytes_range _ (hmem 2) (hlen 2)
  exact ⟨hw.1, hw.2, hh.1, hh.2⟩

theorem to_size_t_nonneg (x : Int) (h0 : 0 ≤ x) (h1 : x < 2 ^ 64) : to_size_t x = x.toNat := by
  unfold to_size_t
  rw [Int.emod_eq_of_lt h0 h1]

theorem to_size_t_neg (x : Int) (h0 : x < 0) (h1 : -(2 ^ 64) ≤ x) :
    to_size_t x = (x + 2 ^ 64).toNat := by
  unfold to_size_t
  have : x % 2 ^ 64 = x + 2 ^ 64 := by
    rw [← Int.add_emod_self]
    exact Int.emod_eq_of_lt (by omega) (by omega)
  rw [this]

/-- After a successful prologue `extract_patch_data` returns a buffer of
`width * height` cells, whatever the column data. -/
theorem extract_patch_data_of_prologue (alloc : Nat → Bool) (file : FILE) (patch_offset : Int)
    (header : DoomPatchHeader) (column_offsets : List Int) (file1 : FILE)
    (h : patch_prologue alloc file patch_offset = some (header, column_offsets, file1)) :
    ∃ file' pixels,
      decode_columns patch_offset header.width header.height column_offsets
        header.width.toNat 0 file1
        (List.replicate (to_size_t (header.width * header.height)) 0) = some (file', pixels) ∧
      extract_patch_data alloc file patch_offset =
        .ret (some (header.width, header.height, pixels)) ∧
      pixels.length = to_size_t (header.width * header.height) := by
  obtain ⟨f', p', he, _, hl⟩ := decode_columns_returns patch_offset header.width header.height
    column_offsets header.width.toNat 0 file1
    (List.replicate (to_size_t (header.width * header.height)) 0)
  refine ⟨f', p', he, ?_, by rw [hl]; simp⟩
  rw [extract_patch_data_eq, h]
  simp only [he]

/-- C8: with the 8-byte patch header at `patch_offset` and, for positive
width and height, the `width` column offsets after it readable and both
allocations granted, `extract_patch_data` returns a grid of `width * height`
cells whatever the column data is; it returns `NULL` exactly when the header
is short, an allocation is refused or the offset table is short, and in every
other case it returns a grid (per-column anomalies never fail the decode). -/
theorem extract_patch_data_tolerates_columns (alloc : Nat → Bool) (file : FILE)
    (patch_offset : Int) (header : DoomPatchHeader)
    (hbytes : is_byte_stream file.data) (hp : 0 ≤ patch_offset)
    (hhdr : patch_header_of_bytes ((file.data.drop patch_offset.toNat).take 8) = header) :
    (0 < header.width → 0 < header.height →
      patch_offset.toNat + 8 + 4 * header.width.toNat ≤ file.data.length →
      alloc (header.width * header.height).toNat = true →
      alloc (4 * header.width.toNat) = true →
      ∃ pixels, extract_patch_data alloc file patch_offset =
          .ret (some (header.width, header.height, pixels)) ∧
        pixels.length = (header.width * header.height).toNat) ∧
    (extract_patch_data alloc file patch_offset = .ret none ↔
      (file.data.length < patch_offset.toNat + 8 ∨
       alloc (to_size_t (header.width * header.height)) = false ∨
       alloc ((to_size_t header.width * 4) % 2 ^ 64) = false ∨
       file.data.length < patch_offset.toNat + 8 + 4 * to_size_t header.width)) ∧
    (extract_patch_data alloc file patch_offset ≠ .ret none →
      ∃ pixels, extract_patch_data alloc file patch_offset =
          .ret (some (header.width, header.height, pixels)) ∧
        pixels.length = to_size_t (header.width * header.height)) := by
  have hstart : (fseek_SET file patch_offset).2.pos = patch_offset.toNat := by
    rw [fseek_SET_pos file patch_offset hp]
  have hiff := patch_prologue_none_iff alloc file patch_offset patch_offset.toNat header
    hstart hhdr
  have hnone : extract_patch_data alloc file patch_offset = .ret none ↔
      patch_prologue alloc file patch_offset = none := by
    constructor
    · intro he
      cases hpr : patch_prologue alloc file patch_offset with
      | none => rfl
      | some r =>
        obtain ⟨hd, offs, f1⟩ := r
        obtain ⟨_, _, _, he2, _⟩ :=
          extract_patch_data_of_prologue alloc file patch_offset hd offs f1 hpr
        rw [he2] at he
        cases he
    · intro hpr
      rw [extract_patch_data_eq, hpr]
  have hsome : extract_patch_data alloc file patch_offset ≠ .ret none →
      ∃ pixels, extract_patch_data alloc file patch_offset =
          .ret (some (header.width, header.height, pixels)) ∧
        pixels.length = to_size_t (header.width * header.height) := by
    intro hne
    cases hpr : patch_prologue alloc file patch_offset with
    | none => exact absurd (hnone.2 hpr) hne
    | some r =>
      obtain ⟨hd, offs, f1⟩ := r
      obtain ⟨_, px, _, he2, hl⟩ :=
        extract_patch_data_of_prologue alloc file patch_offset hd offs f1 hpr
      have h8 : patch_offset.toNat + 8 ≤ file.data.length := by
        by_contra hlt
        have := hiff.2 (Or.inl (by omega))
        rw [this] at hpr
        cases hpr
      have hhd : hd = header := by
        unfold patch_prologue at hpr
        rw [fseek_SET_pos file patch_offset hp] at hpr
        simp only [] at hpr
        rw [fread_full _ 8 1 (by decide) (by simpa using h8)] at hpr
        simp only [Nat.mul_one, hhdr] at hpr
        split_ifs at hpr
        simp only [Option.some.injEq, Prod.mk.injEq] at hpr
        exact hpr.1.symm
      subst hhd
      exact ⟨px, he2, hl⟩
  refine ⟨?_, hnone.trans hiff, hsome⟩
  intro hw hh ht ha1 ha2
  have hr := patch_header_range file.data hbytes patch_offset.toNat
  rw [hhdr] at hr
  have hwn : to_size_t header.width = header.width.toNat :=
    to_size_t_nonneg _ (by omega) (by omega)
  have hprod : 0 < header.width * header.height := Int.mul_pos hw hh
  have hprod2 : header.width * header.height < 2 ^ 64 := by
    have : header.width * header.height ≤ 32768 * 32768 :=
      Int.mul_le_mul (by omega) (by omega) (by omega) (by omega)
    omega
  have hpn : to_size_t (header.width * header.height) =
      (header.width * header.height).toNat := to_size_t_nonneg _ (by omega) hprod2
  have hne : extract_patch_data alloc file patch_offset ≠ .ret none := by
    intro he
    have := (hnone.trans hiff).1 he
    rw [hpn, hwn, ha1] at this
    have hmod : header.width.toNat * 4 % 2 ^ 64 = 4 * header.width.toNat := by
      rw [Nat.mod_eq_of_lt (by omega)]; omega
    rw [hmod, ha2] at this
    simp at this
    omega
  obtain ⟨px, he, hl⟩ := hsome hne
  exact ⟨px, he, by rw [hl, hpn]⟩

/-- C8 at a 1x2 patch whose column ends in the middle of a post: a grid of
two cells is returned. -/
theorem extract_patch_data_tolerates_columns_witness :
    ∃ pixels, extract_patch_data roomy_alloc ⟨ragged_patch, 0⟩ 0 =
        .ret (some (1, 2, pixels)) ∧ pixels.length = 2 :=
  (extract_patch_data_tolerates_columns roomy_alloc ⟨ragged_patch, 0⟩ 0 ⟨1, 2, 0, 0⟩
    (by decide) (by decide) (by decide)).1
    (by decide) (by decide) (by decide) (by decide) (by decide)

/-! ## Decoding a readable patch -/

/-- Sizes that `extract_patch_data` computes for a readable patch. -/
theorem patch_readable_sizes (alloc : Nat → Bool) (data : List Nat) (patch_offset : Int)
    (header : DoomPatchHeader) (hbytes : is_byte_stream data)
    (hr : patch_readable alloc data patch_offset header) :
    header.width < 32768 ∧ header.height < 32768 ∧
    to_size_t header.width = header.width.toNat ∧
    to_size_t (header.width * header.height) = (header.width * header.height).toNat ∧
    (header.width * header.height).toNat = header.width.toNat * header.height.toNat := by
  obtain ⟨hp, hhdr, hw, hh, _, _, _⟩ := hr
  have hrg := patch_header_range data hbytes patch_offset.toNat
  rw [hhdr] at hrg
  have hprod : 0 < header.width * header.height := Int.mul_pos hw hh
  have hprod2 : header.width * header.height < 2 ^ 64 := by
    have : header.width * header.height ≤ 32768 * 32768 :=
      Int.mul_le_mul (by omega) (by omega) (by omega) (by omega)
    omega
  refine ⟨hrg.2.1, hrg.2.2.2, to_size_t_nonneg _ (by omega) (by omega),
    to_size_t_nonneg _ (by omega) hprod2, ?_⟩
  have e1 : header.width = (header.width.toNat : Int) := by omega
  have e2 : header.height = (header.height.toNat : Int) := by omega
  have e3 : header.width * header.height =
      ((header.width.toNat * header.height.toNat : Nat) : Int) := by
    rw [Nat.cast_mul, ← e1, ← e2]
  rw [e3, Int.toNat_ofNat]

/-- On a readable patch `extract_patch_data` is the column loop, run from
the end of the offset table on a zeroed grid of `width * height` cells. -/
theorem extract_patch_data_readable (alloc : Nat → Bool) (file : FILE) (patch_offset : Int)
    (header : DoomPatchHeader) (hbytes : is_byte_stream file.data)
    (hr : patch_readable alloc file.data patch_offset header) :
    ∃ file' pixels,
      decode_columns patch_offset header.width header.height
        (column_offsets_at file.data patch_offset.toNat header.width.toNat)
        header.width.toNat 0
        ⟨file.data, patch_offset.toNat + 8 + 4 * header.width.toNat⟩
        (List.replicate (header.width.toNat * header.height.toNat) 0) = some (file', pixels) ∧
      extract_patch_data alloc file patch_offset =
        .ret (some (header.width, header.height, pixels)) ∧
      pixels.length = header.width.toNat * header.height.toNat := by
  have hs := patch_readable_sizes alloc file.data patch_offset header hbytes hr
  obtain ⟨hp, hhdr, hw, hh, ht, ha1, ha2⟩ := hr
  obtain ⟨_, _, hwn, hpn, hmul⟩ := hs
  have hmod : header.width.toNat * 4 % 2 ^ 64 = 4 * header.width.toNat := by
    rw [Nat.mod_eq_of_lt (by omega)]; omega
  have hpro := patch_prologue_some alloc file patch_offset patch_offset.toNat header
    (by rw [fseek_SET_pos file patch_offset hp]) hhdr (by omega)
    (by rw [hpn]; exact ha1) (by rw [hwn, hmod]; exact ha2) (by rw [hwn]; exact ht)
  obtain ⟨f', px, hd, he, hl⟩ := extract_patch_data_of_prologue alloc file patch_offset
    header _ _ hpro
  rw [hwn, hpn, hmul] at hd
  exact ⟨f', px, hd, he, by rw [hl, hpn, hmul]⟩

/-! ## Columns without posts -/

theorem decode_column_no_post (patch_offset width height : Int) (column_offsets : List Int)
    (col : Nat) (file : FILE) (pixels : List Nat)
    (h : no_post_at file.data (column_start patch_offset column_offsets col)) :
    ∃ file', file'.data = file.data ∧
      decode_column patch_offset width height column_offsets col file pixels =
        some (file', pixels) := by
  obtain ⟨h0, h1⟩ := h
  unfold decode_column
  rw [fseek_SET_pos file _ h0]
  simp only []
  rw [decode_posts_succ]
  by_cases hrow : ¬ ((0 : Int) < height)
  · rw [if_pos hrow]; exact ⟨_, by rfl, rfl⟩
  rw [if_neg hrow]
  by_cases hp : (column_start patch_offset column_offsets col).toNat + 2 ≤ file.data.length
  · rw [fread_post _ (by simpa using hp)]
    have h255 : file.data.getD (column_start patch_offset column_offsets col).toNat 0 = 255 := by
      rcases h1 with h1 | h1
      · omega
      · exact h1
    simp only [ne_eq, not_true_eq_false, if_false]
    rw [if_pos (by simpa using h255)]
    exact ⟨_, by rfl, rfl⟩
  · rw [if_pos (fread_post_short _ (by simpa using by omega))]
    exact ⟨_, by rfl, rfl⟩

theorem decode_columns_no_post (patch_offset width height : Int) (column_offsets : List Int) :
    ∀ (n col : Nat) (file : FILE) (pixels : List Nat),
      (∀ c, col ≤ c → c < col + n →
        no_post_at file.data (column_start patch_offset column_offsets c)) →
      ∃ file', decode_columns patch_offset width height column_offsets n col file pixels =
        some (file', pixels) := by
  intro n
  induction n with
  | zero => intro col file pixels _; exact ⟨_, rfl⟩
  | succ n ih =>
    intro col file pixels h
    obtain ⟨f1, hd, he⟩ := decode_column_no_post patch_offset width height column_offsets
      col file pixels (h col (Nat.le_refl _) (by omega))
    obtain ⟨f2, he2⟩ := ih (col + 1) f1 pixels
      (fun c h1 h2 => by rw [hd]; exact h c (by omega) (by omega))
    exact ⟨f2, by rw [decode_columns, he]; exact he2⟩

/-- C5: a readable patch of positive width `w` and height `h` in which every
column has no post (its post header is short, as for a column starting at or
after the end of the data, or is the `0xFF` end marker) decodes to width
`w`, height `h` and a grid of exactly `w * h` cells, all 0. -/
theorem extract_patch_data_no_posts (alloc : Nat → Bool) (file : FILE) (patch_offset : Int)
    (header : DoomPatchHeader) (hbytes : is_byte_stream file.data)
    (hr : patch_readable alloc file.data patch_offset header)
    (hcols : ∀ c : Nat, (c : Int) < header.width →
      no_post_at file.data (column_start patch_offset
        (column_offsets_at file.data patch_offset.toNat header.width.toNat) c)) :
    ∃ pixels, extract_patch_data alloc file patch_offset =
        .ret (some (header.width, header.height, pixels)) ∧
      pixels.length = header.width.toNat * header.height.toNat ∧
      (∀ i, i < header.width.toNat * header.height.toNat → pixels[i]? = some 0) ∧
      pixels = List.replicate (header.width.toNat * header.height.toNat) 0 := by
  obtain ⟨f', px, hd, he, hl⟩ :=
    extract_patch_data_readable alloc file patch_offset header hbytes hr
  obtain ⟨f2, hd2⟩ := decode_columns_no_post patch_offset header.width header.height
    (column_offsets_at file.data patch_offset.toNat header.width.toNat)
    header.width.toNat 0 ⟨file.data, patch_offset.toNat + 8 + 4 * header.width.toNat⟩
    (List.replicate (header.width.toNat * header.height.toNat) 0)
    (fun c _ h2 => hcols c (by omega))
  rw [hd2] at hd
  simp only [Option.some.injEq, Prod.mk.injEq] at hd
  refine ⟨px, he, hl, ?_, hd.2.symm⟩
  intro i hi
  rw [← hd.2]
  simp [List.getElem?_replicate, hi]

/-- C5 at a 2x3 patch whose first column starts with `0xFF` and whose second
column starts at the end of the data. -/
theorem extract_patch_data_no_posts_witness :
    ∃ pixels, extract_patch_data roomy_alloc ⟨empty_patch, 0⟩ 0 =
        .ret (some (2, 3, pixels)) ∧
      pixels.length = 6 ∧ (∀ i, i < 6 → pixels[i]? = some 0) ∧
      pixels = List.replicate 6 0 :=
  extract_patch_data_no_posts roomy_alloc ⟨empty_patch, 0⟩ 0 ⟨2, 3, 0, 0⟩
    (by decide) (by decide)
    (fun c hc => by
      have : c = 0 ∨ c = 1 := by
        have : (c : Int) < 2 := hc
        omega
      rcases this with rfl | rfl <;> decide)

/-! ## Headers with a non-positive dimension -/

/-- The function `extract_patch_data` returns `NULL` exactly when its prologue fails. -/
theorem extract_patch_data_null_iff (alloc : Nat → Bool) (file : FILE) (patch_offset : Int) :
    extract_patch_data alloc file patch_offset = .ret none ↔
      patch_prologue alloc file patch_offset = none := by
  constructor
  · intro he
    cases hpr : patch_prologue alloc file patch_offset with
    | none => rfl
    | some r =>
      obtain ⟨hd, offs, f1⟩ := r
      obtain ⟨_, _, _, he2, _⟩ :=
        extract_patch_data_of_prologue alloc file patch_offset hd offs f1 hpr
      rw [he2] at he
      cases he
  · intro hpr
    rw [extract_patch_data_eq, hpr]

/-- With a non-positive height no column writes anything. -/
theorem decode_columns_height_nonpos (patch_offset width height : Int)
    (column_offsets : List Int) (hh : height ≤ 0) :
    ∀ (n col : Nat) (file : FILE) (pixels : List Nat),
      ∃ file', decode_columns patch_offset width height column_offsets n col file pixels =
        some (file', pixels) := by
  intro n
  induction n with
  | zero => intro col file pixels; exact ⟨_, rfl⟩
  | succ n ih =>
    intro col file pixels
    have hc : decode_column patch_offset width height column_offsets col file pixels =
        some ((fseek_SET file (column_start patch_offset column_offsets col)).2, pixels) := by
      unfold decode_column
      simp only []
      rw [decode_posts_succ, if_pos (by omega)]
    obtain ⟨f2, he2⟩ := ih (col + 1)
      (fseek_SET file (column_start patch_offset column_offsets col)).2 pixels
    exact ⟨f2, by rw [decode_columns, hc]; exact he2⟩

/-- C6 (amended): `extract_patch_data` has no check of the dimensions. For a
header whose width is negative, or whose height is negative with a positive
width, it returns `NULL`, because an allocator that refuses requests of
`2 ^ 63` bytes or more refuses the request computed from such a header. For
a header with width 0, or with height 0 and a readable offset table, and an
allocator that grants the requests made, it returns an empty grid. -/
theorem extract_patch_data_nonpositive_dimension (alloc : Nat → Bool) (file : FILE)
    (patch_offset : Int) (header : DoomPatchHeader)
    (hbytes : is_byte_stream file.data) (hp : 0 ≤ patch_offset)
    (h8 : patch_offset.toNat + 8 ≤ file.data.length)
    (hhdr : patch_header_of_bytes ((file.data.drop patch_offset.toNat).take 8) = header) :
    ((∀ n, 2 ^ 63 ≤ n → alloc n = false) →
      (header.width < 0 ∨ (0 < header.width ∧ header.height < 0)) →
      extract_patch_data alloc file patch_offset = .ret none) ∧
    (header.width = 0 → alloc 0 = true →
      extract_patch_data alloc file patch_offset = .ret (some (0, header.height, []))) ∧
    (0 < header.width → header.height = 0 → alloc 0 = true →
      alloc (4 * header.width.toNat) = true →
      patch_offset.toNat + 8 + 4 * header.width.toNat ≤ file.data.length →
      extract_patch_data alloc file patch_offset = .ret (some (header.width, 0, []))) := by
  have hstart : (fseek_SET file patch_offset).2.pos = patch_offset.toNat := by
    rw [fseek_SET_pos file patch_offset hp]
  have hrg := patch_header_range file.data hbytes patch_offset.toNat
  rw [hhdr] at hrg
  refine ⟨?_, ?_, ?_⟩
  · intro hal hneg
    rw [extract_patch_data_null_iff,
      patch_prologue_none_iff alloc file patch_offset patch_offset.toNat header hstart hhdr]
    rcases hneg with hw | ⟨hw, hh⟩
    · right; right; left
      apply hal
      rw [to_size_t_neg _ hw (by omega)]
      have : (header.width + 2 ^ 64).toNat * 4 % 2 ^ 64 =
          (4 * header.width + 2 ^ 64).toNat := by omega
      rw [this]
      omega
    · right; left
      apply hal
      have h1 : header.width * header.height < 0 := Int.mul_neg_of_pos_of_neg hw hh
      have h2 : -(32768 * 32768) ≤ header.width * header.height := by
        have : header.width * (-header.height) ≤ 32768 * 32768 :=
          Int.mul_le_mul (by omega) (by omega) (by omega) (by omega)
        rw [Int.mul_neg] at this
        omega
      rw [to_size_t_neg _ h1 (by omega)]
      omega
  · intro hw ha0
    have hz : to_size_t header.width = 0 := by rw [hw]; rfl
    have hpro := patch_prologue_some alloc file patch_offset patch_offset.toNat header
      hstart hhdr h8 (by rw [hw, Int.zero_mul]; exact ha0) (by rw [hz]; exact ha0)
      (by rw [hz]; omega)
    rw [extract_patch_data_eq, hpro]
    simp only [hw, Int.zero_mul]
    rfl
  · intro hw hh ha0 ha2 ht
    have hwn : to_size_t header.width = header.width.toNat :=
      to_size_t_nonneg _ (by omega) (by omega)
    have hmod : header.width.toNat * 4 % 2 ^ 64 = 4 * header.width.toNat := by
      rw [Nat.mod_eq_of_lt (by omega)]; omega
    have hpro := patch_prologue_some alloc file patch_offset patch_offset.toNat header
      hstart hhdr h8 (by rw [hh, Int.mul_zero]; exact ha0) (by rw [hwn, hmod]; exact ha2)
      (by rw [hwn]; exact ht)
    rw [extract_patch_data_eq, hpro]
    simp only [hh, Int.mul_zero]
    obtain ⟨f', hd⟩ := decode_columns_height_nonpos patch_offset header.width 0
      (int32_array (to_size_t header.width)
        ((file.data.drop (patch_offset.toNat + 8)).take (4 * to_size_t header.width)))
      (Int.le_refl 0) header.width.toNat 0
      ⟨file.data, patch_offset.toNat + 8 + 4 * to_size_t header.width⟩
      (List.replicate (to_size_t 0) 0)
    rw [hd]
    rfl

/-- C6 (amended) at three headers: width 2 and height -1 gives `NULL`, width
0 and height -1 gives an empty grid, width 3 and height 0 gives an empty
grid. -/
theorem extract_patch_data_nonpositive_dimension_witness :
    extract_patch_data roomy_alloc ⟨inverted_patch, 0⟩ 0 = .ret none ∧
    extract_patch_data roomy_alloc ⟨void_patch, 0⟩ 0 = .ret (some (0, -1, [])) ∧
    extract_patch_data roomy_alloc ⟨flat_patch, 0⟩ 0 = .ret (some (3, 0, [])) :=
  ⟨(extract_patch_data_nonpositive_dimension roomy_alloc ⟨inverted_patch, 0⟩ 0
      ⟨2, -1, 0, 0⟩ (by decide) (by decide) (by decide) (by decide)).1
      (fun n hn => by
        unfold roomy_alloc
        exact decide_eq_false (by omega))
      (Or.inr ⟨by decide, by decide⟩),
   (extract_patch_data_nonpositive_dimension roomy_alloc ⟨void_patch, 0⟩ 0
      ⟨0, -1, 0, 0⟩ (by decide) (by decide) (by decide) (by decide)).2.1
      (by decide) (by decide),
   (extract_patch_data_nonpositive_dimension roomy_alloc ⟨flat_patch, 0⟩ 0
      ⟨3, 0, 0, 0⟩ (by decide) (by decide) (by decide) (by decide)).2.2
      (by decide) (by decide) (by decide) (by decide) (by decide)⟩

/-- C6 as stated fails: for a header of width 3 and height 0, and for one of
width 0 and height -1, `extract_patch_data` returns an (empty) grid, not
`NULL`. -/
theorem extract_patch_data_nonpositive_not_rejected :
    extract_patch_data roomy_alloc ⟨flat_patch, 0⟩ 0 = .ret (some (3, 0, [])) ∧
    extract_patch_data roomy_alloc ⟨void_patch, 0⟩ 0 = .ret (some (0, -1, [])) := by
  decide

/-! ## The exit status of `main` -/

/-- C7 (the code at the failing input): on the synthetic archive, where the
header, the lookup and the decode succeed, `main` ends with status 0 whatever
the JPEG writer returns, so also when the writer reports a failure. -/
theorem main_status_ignores_writer {World : Type}
    (stbi_write_jpg : List Nat → Int → Int → Nat → List Nat → Nat → World → Bool × World)
    (world : World) :
    exit_status (main roomy_alloc sample_palette stbi_write_jpg ⟨sky_archive, 0⟩ world) =
      some 0 ∧
    exit_status (main roomy_alloc sample_palette (fun _ _ _ _ _ _ w => (false, w))
      ⟨sky_archive, 0⟩ world) = some 0 := by
  have e : main_pipeline roomy_alloc sample_palette ⟨sky_archive, 0⟩ =
      .ret (some (2, 2, [1, 254, 7, 3, 252, 7, 2, 253, 7, 4, 251, 7])) := by decide
  unfold main
  rw [e]
  simp only []
  constructor
  · split <;> rfl
  · rfl

/-! ## What a post writes -/

/-- The inner loop of a post of length `n` reads `m = min n (bytes left)`
bytes: it ends `m` bytes and `m` rows further, stores byte `j` at row
`row + j` of the column and leaves every other cell as it was. -/
theorem read_post_pixels_spec (width : Int) (col : Nat) :
    ∀ (n : Nat) (file : FILE) (row : Int) (pixels : List Nat),
      (read_post_pixels width col n file row pixels).1 =
        ⟨file.data, file.pos + min n (file.data.length - file.pos)⟩ ∧
      (read_post_pixels width col n file row pixels).2.1 =
        row + (min n (file.data.length - file.pos) : Nat) ∧
      (∀ k : Nat, (∀ j : Nat, j < min n (file.data.length - file.pos) →
          (k : Int) ≠ (row + j) * width + col) →
        (read_post_pixels width col n file row pixels).2.2.getD k 0 = pixels.getD k 0) ∧
      (0 < width → ∀ j : Nat, j < min n (file.data.length - file.pos) →
        ∀ k : Nat, (k : Int) = (row + j) * width + col → k < pixels.length →
        (read_post_pixels width col n file row pixels).2.2.getD k 0 =
          file.data.getD (file.pos + j) 0) := by
  intro n
  induction n with
  | zero =>
    intro file row pixels
    simp [read_post_pixels]
  | succ n ih =>
    intro file row pixels
    rw [read_post_pixels_succ]
    by_cases hp : file.pos < file.data.length
    · rw [fread_byte file hp]
      simp only [ne_eq, not_true_eq_false, if_false, List.headD_cons]
      obtain ⟨h1, h2, h3, h4⟩ := ih ⟨file.data, file.pos + 1⟩ (row + 1)
        (pixels_store pixels (row * width + col) (file.data.getD file.pos 0))
      simp only at h1 h2 h3 h4
      have hm : min (n + 1) (file.data.length - file.pos) =
          min n (file.data.length - (file.pos + 1)) + 1 := by omega
      refine ⟨?_, ?_, ?_, ?_⟩
      · rw [h1, hm]; simp only [FILE.mk.injEq, true_and]; omega
      · rw [h2, hm]; push_cast; ring
      · intro k hk
        rw [h3 k ?_, pixels_store_getD, if_neg ?_]
        · rintro ⟨he, _⟩
          have := hk 0 (by omega)
          simp only [Nat.cast_zero, add_zero] at this
          exact this he
        · intro j hj
          have := hk (j + 1) (by omega)
          rw [show row + 1 + (j : Int) = row + ((j + 1 : Nat) : Int) by push_cast; ring]
          exact this
      · intro hw j hj k hk hkl
        rw [hm] at hj
        rcases Nat.eq_zero_or_pos j with hj0 | hj0
        · subst hj0
          simp only [Nat.cast_zero, add_zero] at hk
          rw [h3 k ?_, pixels_store_getD, if_pos ⟨hk, hkl⟩]
          · rfl
          · intro j' _ he
            rw [hk] at he
            have hpos : 0 < (1 + (j' : Int)) * width := Int.mul_pos (by omega) hw
            have : (row + 1 + (j' : Int)) * width = row * width + (1 + (j' : Int)) * width := by
              ring
            rw [this] at he
            omega
        · have := h4 hw (j - 1) (by omega) k (by
            rw [hk]
            have : ((j - 1 : Nat) : Int) = (j : Int) - 1 := by omega
            rw [this]; ring) (by rw [pixels_store_length]; exact hkl)
          rw [this]
          congr 1
          omega
    · rw [fread_byte_eof file (by omega)]
      have hm : min (n + 1) (file.data.length - file.pos) = 0 := by omega
      simp [hm]

/-! ## One pass of the post loop -/

/-- A pass of the post loop that decodes a post: the row cursor is inside
the grid, two header bytes are present, the first is not `0xFF`, and the
post fits. The loop goes on after the bytes of the post that are present
and one pad byte. -/
theorem decode_posts_continue (width height : Int) (col fuel : Nat) (file : FILE) (row : Int)
    (pixels : List Nat) (hrow : row < height) (hp : file.pos + 2 ≤ file.data.length)
    (ht : file.data.getD file.pos 0 ≠ 255)
    (hfit : row + (file.data.getD file.pos 0 : Nat) + (file.data.getD (file.pos + 1) 0 : Nat)
      ≤ height) :
    decode_posts width height col (fuel + 1) file row pixels =
      decode_posts width height col fuel
        ⟨file.data, file.pos + 2 +
          min (file.data.getD (file.pos + 1) 0) (file.data.length - (file.pos + 2)) + 1⟩
        (row + (file.data.getD file.pos 0 : Nat) +
          (min (file.data.getD (file.pos + 1) 0) (file.data.length - (file.pos + 2)) : Nat))
        (read_post_pixels width col (file.data.getD (file.pos + 1) 0)
          ⟨file.data, file.pos + 2⟩ (row + (file.data.getD file.pos 0 : Nat)) pixels).2.2 := by
  rw [decode_posts_succ, if_neg (by omega), fread_post file hp]
  simp only [ne_eq, not_true_eq_false, if_false, List.getD_cons_zero, List.getD_cons_succ]
  rw [if_neg ht, if_neg (by omega), fseek_CUR_one]
  obtain ⟨h1, h2, _, _⟩ := read_post_pixels_spec width col (file.data.getD (file.pos + 1) 0)
    ⟨file.data, file.pos + 2⟩ (row + (file.data.getD file.pos 0 : Nat)) pixels
  simp only at h1 h2
  rw [h1, h2]

/-- A pass of the post loop that ends the column: the row cursor is at or
below the last row, the header read is short, the end marker is read, or the
post does not fit. The pixel buffer is returned as it is. -/
theorem decode_posts_stop (width height : Int) (col fuel : Nat) (file : FILE) (row : Int)
    (pixels : List Nat)
    (h : ¬ (row < height ∧ file.pos + 2 ≤ file.data.length ∧
      file.data.getD file.pos 0 ≠ 255 ∧
      row + (file.data.getD file.pos 0 : Nat) + (file.data.getD (file.pos + 1) 0 : Nat)
        ≤ height)) :
    ∃ file', file'.data = file.data ∧
      decode_posts width height col (fuel + 1) file row pixels = some (file', pixels) := by
  rw [decode_posts_succ]
  by_cases hrow : row < height
  swap
  · rw [if_pos hrow]; exact ⟨_, by rfl, rfl⟩
  rw [if_neg (by omega)]
  by_cases hp : file.pos + 2 ≤ file.data.length
  swap
  · rw [if_pos (fread_post_short file (by omega))]; exact ⟨_, by rfl, rfl⟩
  rw [fread_post file hp]
  simp only [ne_eq, not_true_eq_false, if_false, List.getD_cons_zero, List.getD_cons_succ]
  by_cases ht : file.data.getD file.pos 0 = 255
  · rw [if_pos ht]; exact ⟨_, by rfl, rfl⟩
  rw [if_neg ht, if_pos (by
    have := fun hfit => h ⟨hrow, hp, ht, hfit⟩
    omega)]
  exact ⟨_, by rfl, rfl⟩

/-- The post loop of column `col` started at a non-negative row changes no
cell outside that column. -/
theorem decode_posts_other_cells (width height : Int) (col : Nat) :
    ∀ (fuel : Nat) (file : FILE) (row : Int) (pixels : List Nat) (file' : FILE)
      (pixels' : List Nat), 0 ≤ row →
      decode_posts width height col fuel file row pixels = some (file', pixels') →
      ∀ k : Nat, (∀ r : Int, 0 ≤ r → (k : Int) ≠ r * width + col) →
        pixels'.getD k 0 = pixels.getD k 0 := by
  intro fuel
  induction fuel with
  | zero => intro file row pixels file' pixels' _ h; simp [decode_posts] at h
  | succ fuel ih =>
    intro file row pixels file' pixels' hrow h k hk
    by_cases hc : row < height ∧ file.pos + 2 ≤ file.data.length ∧
      file.data.getD file.pos 0 ≠ 255 ∧
      row + (file.data.getD file.pos 0 : Nat) + (file.data.getD (file.pos + 1) 0 : Nat)
        ≤ height
    · rw [decode_posts_continue width height col fuel file row pixels hc.1 hc.2.1 hc.2.2.1
        hc.2.2.2] at h
      rw [ih _ _ _ _ _ (by omega) h k hk]
      obtain ⟨_, _, h3, _⟩ := read_post_pixels_spec width col
        (file.data.getD (file.pos + 1) 0) ⟨file.data, file.pos + 2⟩
        (row + (file.data.getD file.pos 0 : Nat)) pixels
      exact h3 k (fun j _ => hk _ (by omega))
    · obtain ⟨f1, _, he⟩ := decode_posts_stop width height col fuel file row pixels hc
      rw [he] at h
      simp only [Option.some.injEq, Prod.mk.injEq] at h
      rw [← h.2]

/-- Two runs of the inner loop on buffers of the same size agree on every
cell on which the buffers agreed. -/
theorem read_post_pixels_agree (width : Int) (col : Nat) :
    ∀ (n : Nat) (file : FILE) (row : Int) (p q : List Nat), p.length = q.length →
      ∀ k : Nat, p.getD k 0 = q.getD k 0 →
        (read_post_pixels width col n file row p).2.2.getD k 0 =
          (read_post_pixels width col n file row q).2.2.getD k 0 := by
  intro n
  induction n with
  | zero => intro file row p q _ k hk; simpa [read_post_pixels] using hk
  | succ n ih =>
    intro file row p q hl k hk
    rw [read_post_pixels_succ, read_post_pixels_succ]
    split
    · exact hk
    · apply ih
      · rw [pixels_store_length, pixels_store_length, hl]
      · rw [pixels_store_getD, pixels_store_getD, hl, hk]

/-- Two runs of the post loop on buffers of the same size agree on every
cell on which the buffers agreed. -/
theorem decode_posts_agree (width height : Int) (col : Nat) :
    ∀ (fuel : Nat) (file : FILE) (row : Int) (p q : List Nat) (f1 f2 : FILE)
      (p1 q1 : List Nat), p.length = q.length →
      decode_posts width height col fuel file row p = some (f1, p1) →
      decode_posts width height col fuel file row q = some (f2, q1) →
      ∀ k : Nat, p.getD k 0 = q.getD k 0 → p1.getD k 0 = q1.getD k 0 := by
  intro fuel
  induction fuel with
  | zero => intro file row p q f1 f2 p1 q1 _ h; simp [decode_posts] at h
  | succ fuel ih =>
    intro file row p q f1 f2 p1 q1 hl hp hq k hk
    by_cases hc : row < height ∧ file.pos + 2 ≤ file.data.length ∧
      file.data.getD file.pos 0 ≠ 255 ∧
      row + (file.data.getD file.pos 0 : Nat) + (file.data.getD (file.pos + 1) 0 : Nat)
        ≤ height
    · rw [decode_posts_continue width height col fuel file row p hc.1 hc.2.1 hc.2.2.1
        hc.2.2.2] at hp
      rw [decode_posts_continue width height col fuel file row q hc.1 hc.2.1 hc.2.2.1
        hc.2.2.2] at hq
      refine ih _ _ _ _ _ _ _ _ ?_ hp hq k ?_
      · rw [(read_post_pixels_frame width col _ _ _ p).2.2,
          (read_post_pixels_frame width col _ _ _ q).2.2, hl]
      · exact read_post_pixels_agree width col _ _ _ p q hl k hk
    · obtain ⟨_, _, he⟩ := decode_posts_stop width height col fuel file row p hc
      obtain ⟨_, _, he2⟩ := decode_posts_stop width height col fuel file row q hc
      rw [he] at hp
      rw [he2] at hq
      simp only [Option.some.injEq, Prod.mk.injEq] at hp hq
      rw [← hp.2, ← hq.2]
      exact hk

/-! ## Columns do not interfere -/

/-- Cells of different columns have different indices. -/
theorem cell_index_ne (width : Int) (c c' : Nat) (hc : (c : Int) < width)
    (hc' : (c' : Int) < width) (hne : c ≠ c') (r r' : Int) :
    r * width + c ≠ r' * width + c' := by
  intro h
  have h1 : (r * width + c) % width = (c : Int) := by
    rw [Int.add_comm, Int.add_mul_emod_self]
    exact Int.emod_eq_of_lt (by omega) hc
  have h2 : (r' * width + c') % width = (c' : Int) := by
    rw [Int.add_comm, Int.add_mul_emod_self]
    exact Int.emod_eq_of_lt (by omega) hc'
  rw [h] at h1
  rw [h1] at h2
  exact hne (by omega)

/-- The body of the column loop changes no cell outside its column. -/
theorem decode_column_other_cells (patch_offset width height : Int)
    (column_offsets : List Int) (col : Nat) (file : FILE) (pixels : List Nat) (file' : FILE)
    (pixels' : List Nat)
    (h : decode_column patch_offset width height column_offsets col file pixels =
      some (file', pixels'))
    (k : Nat) (hk : ∀ r : Int, 0 ≤ r → (k : Int) ≠ r * width + col) :
    pixels'.getD k 0 = pixels.getD k 0 :=
  decode_posts_other_cells width height col _ _ 0 pixels file' pixels' (Int.le_refl 0) h k hk

/-- The column loop over the columns `col .. col + n - 1`, all below the
width: cells of other columns are unchanged, and a cell of one of these
columns, whose seek is accepted, ends with the value that decoding this
column alone gives it. -/
theorem decode_columns_isolated (patch_offset width height : Int) (column_offsets : List Int) :
    ∀ (n col : Nat) (file : FILE) (pixels : List Nat) (file' : FILE) (px : List Nat),
      ((col + n : Nat) : Int) ≤ width →
      decode_columns patch_offset width height column_offsets n col file pixels =
        some (file', px) →
      (∀ k : Nat, (∀ c : Nat, col ≤ c → c < col + n → ∀ r : Int, 0 ≤ r →
          (k : Int) ≠ r * width + c) → px.getD k 0 = pixels.getD k 0) ∧
      (∀ c : Nat, col ≤ c → c < col + n →
        0 ≤ column_start patch_offset column_offsets c →
        ∀ (q : List Nat) (f2 : FILE) (q1 : List Nat), q.length = pixels.length →
          decode_column patch_offset width height column_offsets c ⟨file.data, 0⟩ q =
            some (f2, q1) →
          ∀ (k : Nat) (r : Int), 0 ≤ r → (k : Int) = r * width + c →
            pixels.getD k 0 = q.getD k 0 → px.getD k 0 = q1.getD k 0) := by
  intro n
  induction n with
  | zero =>
    intro col file pixels file' px _ h
    simp only [decode_columns, Option.some.injEq, Prod.mk.injEq] at h
    refine ⟨fun k _ => by rw [h.2], fun c h1 h2 => by omega⟩
  | succ n ih =>
    intro col file pixels file' px hle h
    obtain ⟨f1, p1, he, hd, hl⟩ :=
      decode_column_returns patch_offset width height column_offsets col file pixels
    rw [decode_columns, he] at h
    simp only at h
    obtain ⟨hframe, hiso⟩ := ih (col + 1) f1 p1 file' px (by push_cast at hle ⊢; omega) h
    constructor
    · intro k hk
      rw [hframe k (fun c h1 h2 => hk c (by omega) (by omega))]
      exact decode_column_other_cells patch_offset width height column_offsets col file pixels
        f1 p1 he k (hk col (Nat.le_refl _) (by omega))
    · intro c hc1 hc2 hs q f2 q1 hql hq k r hr hk hpq
      by_cases hcc : c = col
      · subst hcc
        rw [hframe k (fun c' h1 h2 r' _ => by
          rw [hk]
          exact cell_index_ne width c c' (by push_cast at hle; omega)
            (by push_cast at hle; omega) (by omega) r r')]
        unfold decode_column at he hq
        rw [fseek_SET_pos _ _ hs] at he hq
        simp only at he hq
        exact decode_posts_agree width height c _ _ 0 pixels q f1 f2 p1 q1 hql.symm he hq k hpq
      · refine hiso c (by omega) (by omega) hs q f2 q1 (by rw [hql, hl]) (by rw [hd]; exact hq)
          k r hr hk ?_
        rw [← hpq]
        exact decode_column_other_cells patch_offset width height column_offsets col file
          pixels f1 p1 he k (fun r' _ => by
            rw [hk]
            exact cell_index_ne width c col (by push_cast at hle; omega)
              (by push_cast at hle; omega) hcc r r')

/-- On a readable patch every cell of a column whose seek is accepted holds
the value that decoding this column alone gives it. -/
theorem extract_patch_data_columns (alloc : Nat → Bool) (file : FILE) (patch_offset : Int)
    (header : DoomPatchHeader) (hbytes : is_byte_stream file.data)
    (hr : patch_readable alloc file.data patch_offset header) :
    ∃ pixels, extract_patch_data alloc file patch_offset =
        .ret (some (header.width, header.height, pixels)) ∧
      pixels.length = header.width.toNat * header.height.toNat ∧
      ∀ c : Nat, (c : Int) < header.width →
        0 ≤ column_start patch_offset
          (column_offsets_at file.data patch_offset.toNat header.width.toNat) c →
        ∀ r : Nat, pixels.getD (r * header.width.toNat + c) 0 =
          (column_alone file.data patch_offset header.width header.height
            (column_offsets_at file.data patch_offset.toNat header.width.toNat) c).getD
            (r * header.width.toNat + c) 0 := by
  obtain ⟨f', px, hd, he, hl⟩ :=
    extract_patch_data_readable alloc file patch_offset header hbytes hr
  have hw : 0 < header.width := hr.2.2.1
  refine ⟨px, he, hl, ?_⟩
  intro c hc hs r
  obtain ⟨_, hiso⟩ := decode_columns_isolated patch_offset header.width header.height
    (column_offsets_at file.data patch_offset.toNat header.width.toNat)
    header.width.toNat 0 _ _ f' px (by omega) hd
  obtain ⟨f2, q1, hq, _, _⟩ := decode_column_returns patch_offset header.width header.height
    (column_offsets_at file.data patch_offset.toNat header.width.toNat) c ⟨file.data, 0⟩
    (List.replicate (header.width.toNat * header.height.toNat) 0)
  have hca : column_alone file.data patch_offset header.width header.height
      (column_offsets_at file.data patch_offset.toNat header.width.toNat) c = q1 := by
    unfold column_alone
    rw [hq]
  rw [hca]
  exact hiso c (Nat.zero_le _) (by omega) hs _ f2 q1 rfl hq _ r (by omega)
    (by push_cast; rw [Int.toNat_of_nonneg (by omega)]) rfl

/-- A column whose first post fits: the grid of the column alone holds the
bytes of the post from row `topdelta` on, when the post ends at the last
row. -/
theorem column_alone_full_post (data : List Nat) (patch_offset width height : Int)
    (column_offsets : List Int) (c : Nat) (hw : 0 < width) (hc : (c : Int) < width)
    (hs : 0 ≤ column_start patch_offset column_offsets c)
    (hpost : (column_start patch_offset column_offsets c).toNat + 2 +
      data.getD ((column_start patch_offset column_offsets c).toNat + 1) 0 ≤ data.length)
    (ht : data.getD (column_start patch_offset column_offsets c).toNat 0 ≠ 255)
    (hfit : ((data.getD (column_start patch_offset column_offsets c).toNat 0 : Nat) : Int) +
      (data.getD ((column_start patch_offset column_offsets c).toNat + 1) 0 : Nat) = height)
    (j : Nat) (hj : j < data.getD ((column_start patch_offset column_offsets c).toNat + 1) 0) :
    (column_alone data patch_offset width height column_offsets c).getD
      ((data.getD (column_start patch_offset column_offsets c).toNat 0 + j) * width.toNat + c) 0
      = data.getD ((column_start patch_offset column_offsets c).toNat + 2 + j) 0 := by
  unfold column_alone decode_column
  rw [fseek_SET_pos _ _ hs]
  simp only []
  generalize hsd : (column_start patch_offset column_offsets c).toNat = s at *
  generalize htd : data.getD s 0 = t at *
  generalize hLd : data.getD (s + 1) 0 = L at *
  have hcont := decode_posts_continue width height c (data.length + 1) ⟨data, s⟩ 0
    (List.replicate (width.toNat * height.toNat) 0) (by omega) (by simpa using by omega)
    (by show data.getD s 0 ≠ 255; rw [htd]; exact ht) (by simp only [htd, hLd]; omega)
  simp only [htd, hLd] at hcont
  have hmin : min L (data.length - (s + 2)) = L := by omega
  rw [hmin] at hcont
  have hstop := decode_posts_stop width height c data.length ⟨data, s + 2 + L + 1⟩
    (0 + (t : Int) + (L : Int))
    (read_post_pixels width c L ⟨data, s + 2⟩ (0 + (t : Int))
      (List.replicate (width.toNat * height.toNat) 0)).2.2
    (by intro h; have := h.1; omega)
  obtain ⟨f1, _, hst⟩ := hstop
  rw [hcont, hst]
  simp only []
  obtain ⟨_, _, _, h4⟩ := read_post_pixels_spec width c L ⟨data, s + 2⟩ (0 + (t : Int))
    (List.replicate (width.toNat * height.toNat) 0)
  have := h4 hw j (by simpa using by omega) ((t + j) * width.toNat + c)
    (by push_cast; rw [Int.toNat_of_nonneg (by omega)]; ring)
    (by
      rw [List.length_replicate]
      have h1 : t + j + 1 ≤ height.toNat := by omega
      have h2 : c < width.toNat := by omega
      calc (t + j) * width.toNat + c < (t + j) * width.toNat + width.toNat := by omega
        _ = (t + j + 1) * width.toNat := by ring
        _ ≤ height.toNat * width.toNat := Nat.mul_le_mul_right _ h1
        _ = width.toNat * height.toNat := Nat.mul_comm _ _)
  rw [this]

/-- A column whose first post does not fit stays zero when decoded alone. -/
theorem column_alone_overflow (data : List Nat) (patch_offset width height : Int)
    (column_offsets : List Int) (c : Nat)
    (hs : 0 ≤ column_start patch_offset column_offsets c)
    (hfit : height <
      ((data.getD (column_start patch_offset column_offsets c).toNat 0 : Nat) : Int) +
      (data.getD ((column_start patch_offset column_offsets c).toNat + 1) 0 : Nat)) :
    column_alone data patch_offset width height column_offsets c =
      List.replicate (width.toNat * height.toNat) 0 := by
  unfold column_alone decode_column
  rw [fseek_SET_pos _ _ hs]
  simp only []
  obtain ⟨f1, _, hst⟩ := decode_posts_stop width height c (data.length + 1)
    ⟨data, (column_start patch_offset column_offsets c).toNat⟩ 0
    (List.replicate (width.toNat * height.toNat) 0) (by
      intro h
      have := h.2.2.2
      simp only at this
      omega)
  rw [hst]

/-! ## A post at the lower edge of the grid -/

/-- The height boundary of a first post, for columns whose seek is accepted:
in a readable patch with positive width and height, let column `c` start (at
an accepted seek position) with a post of topdelta `t`, not `0xFF`, and
length `L` whose `L` data bytes are present. The decode succeeds. If `t + L`
equals the height, the cells `(t, c) .. (height - 1, c)` hold the `L` bytes
in order. If `t + L` exceeds the height, as for `height + 1`, column `c`
stays zero, and every other column whose seek is accepted holds exactly what
decoding that column alone gives. -/
theorem post_at_height_boundary (alloc : Nat → Bool) (file : FILE) (patch_offset : Int)
    (header : DoomPatchHeader) (hbytes : is_byte_stream file.data)
    (hr : patch_readable alloc file.data patch_offset header)
    (c : Nat) (hc : (c : Int) < header.width) (start t L : Nat)
    (hs : column_start patch_offset
      (column_offsets_at file.data patch_offset.toNat header.width.toNat) c = (start : Int))
    (ht : file.data.getD start 0 = t) (htne : t ≠ 255)
    (hL : file.data.getD (start + 1) 0 = L)
    (hpost : start + 2 + L ≤ file.data.length) :
    ∃ pixels, extract_patch_data alloc file patch_offset =
        .ret (some (header.width, header.height, pixels)) ∧
      pixels.length = header.width.toNat * header.height.toNat ∧
      ((t : Int) + L = header.height →
        ∀ j : Nat, j < L →
          pixels.getD ((t + j) * header.width.toNat + c) 0 = file.data.getD (start + 2 + j) 0) ∧
      (header.height < (t : Int) + L →
        (∀ r : Nat, (r : Int) < header.height →
          pixels.getD (r * header.width.toNat + c) 0 = 0) ∧
        (∀ c' : Nat, c' ≠ c → (c' : Int) < header.width →
          0 ≤ column_start patch_offset
            (column_offsets_at file.data patch_offset.toNat header.width.toNat) c' →
          ∀ r : Nat, (r : Int) < header.height →
            pixels.getD (r * header.width.toNat + c') 0 =
              (column_alone file.data patch_offset header.width header.height
                (column_offsets_at file.data patch_offset.toNat header.width.toNat) c').getD
                (r * header.width.toNat + c') 0)) := by
  obtain ⟨px, he, hl, hcol⟩ :=
    extract_patch_data_columns alloc file patch_offset header hbytes hr
  have hw : 0 < header.width := hr.2.2.1
  have hs0 : 0 ≤ column_start patch_offset
      (column_offsets_at file.data patch_offset.toNat header.width.toNat) c := by
    rw [hs]; omega
  have hsn : (column_start patch_offset
      (column_offsets_at file.data patch_offset.toNat header.width.toNat) c).toNat = start := by
    rw [hs]; simp
  refine ⟨px, he, hl, ?_, ?_⟩
  · intro hfit j hj
    rw [hcol c hc hs0 (t + j)]
    have := column_alone_full_post file.data patch_offset header.width header.height
      (column_offsets_at file.data patch_offset.toNat header.width.toNat) c hw hc hs0
      (by rw [hsn, hL]; exact hpost) (by rw [hsn, ht]; exact htne)
      (by rw [hsn, ht, hL]; exact hfit) j (by rw [hsn, hL]; exact hj)
    rw [hsn, ht] at this
    exact this
  · intro hover
    constructor
    · intro r hrh
      rw [hcol c hc hs0 r, column_alone_overflow file.data patch_offset header.width
        header.height _ c hs0 (by rw [hsn, ht, hL]; exact hover)]
      simp only [List.getD_eq_getElem?_getD, List.getElem?_replicate]
      split <;> rfl
    · intro c' _ hc' hs' r _
      exact hcol c' hc' hs' r

/-- The height boundary at a 2x3 patch: column 0 (topdelta 1, length 2) fills
rows 1 and 2 with its bytes 5 and 6; column 1 (topdelta 1, length 3) stays
zero and column 0 is decoded as on its own. -/
theorem post_at_height_boundary_witness :
    (∃ pixels, extract_patch_data roomy_alloc ⟨boundary_patch, 0⟩ 0 =
        .ret (some (2, 3, pixels)) ∧
      pixels.getD 2 0 = 5 ∧ pixels.getD 4 0 = 6) ∧
    (∃ pixels, extract_patch_data roomy_alloc ⟨boundary_patch, 0⟩ 0 =
        .ret (some (2, 3, pixels)) ∧
      pixels.getD 1 0 = 0 ∧ pixels.getD 3 0 = 0 ∧ pixels.getD 5 0 = 0 ∧
      pixels.getD 2 0 = 5) :=
  ⟨(post_at_height_boundary roomy_alloc ⟨boundary_patch, 0⟩ 0 ⟨2, 3, 0, 0⟩
      (by decide) (by decide) 0 (by decide) 16 1 2 (by decide) (by decide) (by decide)
      (by decide) (by decide)).imp
      (fun _ h => ⟨h.1, h.2.2.1 (by decide) 0 (by decide), h.2.2.1 (by decide) 1 (by decide)⟩),
   (post_at_height_boundary roomy_alloc ⟨boundary_patch, 0⟩ 0 ⟨2, 3, 0, 0⟩
      (by decide) (by decide) 1 (by decide) 22 1 3 (by decide) (by decide) (by decide)
      (by decide) (by decide)).imp
      (fun _ h => ⟨h.1, (h.2.2.2 (by decide)).1 0 (by decide),
        (h.2.2.2 (by decide)).1 1 (by decide), (h.2.2.2 (by decide)).1 2 (by decide),
        ((h.2.2.2 (by decide)).2 0 (by decide) (by decide) (by decide) 1 (by decide)).trans
          (by decide)⟩)⟩

/-- C4 (the code at the failing input): in the 2x2 patch `leaking_patch` the
first post of column 0, at position 16, has topdelta 0 (not `0xFF`) and
length 3 with its three data bytes `0, 1, 7` present at positions 18 to 20,
and `0 + 3` is the height plus 1. The seek of column 1, to -1, is rejected
and its status ignored, so column 1 is decoded from position 18, where column
0 stopped: the bytes `0, 1` are read as a post header and the byte 7 at
position 20, the third data byte of the skipped post, is the only store of
the decode, at row 0 of column 1. The grid is `[0, 7, 0, 0]`, while column 1
decoded on its own is zero. -/
theorem skipped_post_byte_stored_by_next_column :
    patch_readable roomy_alloc leaking_patch 0 ⟨2, 2, 0, 0⟩ ∧
    column_start 0 (column_offsets_at leaking_patch 0 2) 0 = 16 ∧
    leaking_patch.getD 16 0 = 0 ∧ leaking_patch.getD 17 0 = 3 ∧
    16 + 2 + 3 ≤ leaking_patch.length ∧
    (leaking_patch.getD 16 0 : Int) + (leaking_patch.getD 17 0 : Int) = 2 + 1 ∧
    column_start 0 (column_offsets_at leaking_patch 0 2) 1 = -1 ∧
    extract_patch_data roomy_alloc ⟨leaking_patch, 0⟩ 0 = .ret (some (2, 2, [0, 7, 0, 0])) ∧
    patch_stores roomy_alloc ⟨leaking_patch, 0⟩ 0 = [(1, 0, 20)] ∧
    column_alone leaking_patch 0 2 2 (column_offsets_at leaking_patch 0 2) 1 = [0, 0, 0, 0] := by
  decide

/-! ## Round trip of a single-post patch -/

/-- A readable patch in which every column starts with one post of topdelta
0 and length `height` holding the indices `g row col`: the decoded grid holds
`g row col` at cell `row * width + col`. -/
theorem single_post_patch_decodes (alloc : Nat → Bool) (file : FILE) (patch_offset : Int)
    (header : DoomPatchHeader) (g : Nat → Nat → Nat) (hbytes : is_byte_stream file.data)
    (hr : patch_readable alloc file.data patch_offset header)
    (hcols : ∀ c : Nat, (c : Int) < header.width → ∃ start : Nat,
      column_start patch_offset
        (column_offsets_at file.data patch_offset.toNat header.width.toNat) c = (start : Int) ∧
      file.data.getD start 0 = 0 ∧
      ((file.data.getD (start + 1) 0 : Nat) : Int) = header.height ∧
      start + 2 + file.data.getD (start + 1) 0 ≤ file.data.length ∧
      ∀ j : Nat, (j : Int) < header.height → file.data.getD (start + 2 + j) 0 = g j c) :
    ∃ pixels, extract_patch_data alloc file patch_offset =
        .ret (some (header.width, header.height, pixels)) ∧
      pixels.length = header.width.toNat * header.height.toNat ∧
      ∀ r c : Nat, (r : Int) < header.height → (c : Int) < header.width →
        pixels.getD (r * header.width.toNat + c) 0 = g r c := by
  obtain ⟨px, he, hl, hcol⟩ :=
    extract_patch_data_columns alloc file patch_offset header hbytes hr
  have hw : 0 < header.width := hr.2.2.1
  refine ⟨px, he, hl, ?_⟩
  intro r c hrh hc
  obtain ⟨start, hs, ht, hL, hpost, hdata⟩ := hcols c hc
  have hs0 : 0 ≤ column_start patch_offset
      (column_offsets_at file.data patch_offset.toNat header.width.toNat) c := by
    rw [hs]; omega
  have hsn : (column_start patch_offset
      (column_offsets_at file.data patch_offset.toNat header.width.toNat) c).toNat = start := by
    rw [hs]; simp
  rw [hcol c hc hs0 r]
  have := column_alone_full_post file.data patch_offset header.width header.height
    (column_offsets_at file.data patch_offset.toNat header.width.toNat) c hw hc hs0
    (by rw [hsn]; exact hpost) (by rw [hsn, ht]; decide)
    (by rw [hsn, ht, hL]; simp) r (by rw [hsn]; omega)
  rw [hsn, ht, Nat.zero_add] at this
  rw [this]
  exact hdata r hrh

theorem int32_of_le_bytes4 (x : Nat) (hx : x < 2 ^ 31) :
    int32_of_bytes (le_bytes4 x) = (x : Int) := by
  unfold int32_of_bytes le_bytes4
  rw [le_unsigned_four]
  have : x % 256 + 256 * (x / 256 % 256) + 65536 * (x / 65536 % 256) +
      16777216 * (x / 16777216 % 256) = x := by omega
  rw [this]
  unfold to_signed
  rw [if_pos (by norm_num; omega)]

theorem offset_table_length (w h : Nat) :
    ∀ n c, (offset_table w h n c).length = 4 * n := by
  intro n
  induction n with
  | zero => intro c; rfl
  | succ n ih =>
    intro c
    simp only [offset_table, List.length_append, ih, le_bytes4, List.length_cons,
      List.length_nil]
    omega

theorem post_column_length (h : Nat) (g : Nat → Nat → Nat) (pad c : Nat) :
    (post_column h g pad c).length = h + 4 := by
  simp [post_column]

theorem post_columns_length (h : Nat) (g : Nat → Nat → Nat) (pad : Nat) :
    ∀ n c, (post_columns h g pad n c).length = n * (h + 4) := by
  intro n
  induction n with
  | zero => intro c; simp [post_columns]
  | succ n ih =>
    intro c
    simp only [post_columns, List.length_append, ih, post_column_length]
    ring

/-- The offset table read back as an `int32_t` array. -/
theorem int32_array_offset_table (w h : Nat) :
    ∀ (n c : Nat) (rest : List Nat), column_offset w h (c + n) < 2 ^ 31 →
      ∀ i, i < n →
        (int32_array n (offset_table w h n c ++ rest)).getD i 0 =
          (column_offset w h (c + i) : Int) := by
  intro n
  induction n with
  | zero => intro c rest _ i hi; omega
  | succ n ih =>
    intro c rest hb i hi
    have hmono : ∀ a b : Nat, a ≤ b → column_offset w h a ≤ column_offset w h b := by
      intro a b hab
      unfold column_offset
      have := Nat.mul_le_mul_right (h + 4) hab
      omega
    have e1 : (offset_table w h (n + 1) c ++ rest).take 4 = le_bytes4 (column_offset w h c) := by
      simp [offset_table, le_bytes4]
    have e2 : (offset_table w h (n + 1) c ++ rest).drop 4 =
        offset_table w h n (c + 1) ++ rest := by
      simp [offset_table, le_bytes4]
    rw [int32_array, e1, e2]
    rcases Nat.eq_zero_or_pos i with hi0 | hi0
    · subst hi0
      rw [List.getD_cons_zero, int32_of_le_bytes4 _ (by
        have := hmono c (c + (n + 1)) (by omega)
        omega)]
      rfl
    · obtain ⟨i', rfl⟩ : ∃ i', i = i' + 1 := ⟨i - 1, by omega⟩
      rw [List.getD_cons_succ, ih (c + 1) rest (by
        rw [show c + 1 + n = c + (n + 1) by omega]; exact hb) i' (by omega)]
      rw [show c + 1 + i' = c + (i' + 1) by omega]

/-- Byte `k` of the post of column `c + i` inside the column data. -/
theorem post_columns_getD (h : Nat) (g : Nat → Nat → Nat) (pad : Nat) :
    ∀ (n c i k : Nat), i < n → k < h + 4 →
      (post_columns h g pad n c).getD (i * (h + 4) + k) 0 =
        (post_column h g pad (c + i)).getD k 0 := by
  intro n
  induction n with
  | zero => intro c i k hi; omega
  | succ n ih =>
    intro c i k hi hk
    rw [post_columns]
    rcases Nat.eq_zero_or_pos i with hi0 | hi0
    · subst hi0
      rw [Nat.zero_mul, Nat.zero_add,
        List.getD_append _ _ _ _ (by rw [post_column_length]; exact hk)]
      rfl
    · obtain ⟨i', rfl⟩ : ∃ i', i = i' + 1 := ⟨i - 1, by omega⟩
      rw [List.getD_append_right _ _ _ _ (by
        rw [post_column_length]
        have : (i' + 1) * (h + 4) = i' * (h + 4) + (h + 4) := by ring
        omega), post_column_length]
      have : (i' + 1) * (h + 4) + k - (h + 4) = i' * (h + 4) + k := by
        have : (i' + 1) * (h + 4) = i' * (h + 4) + (h + 4) := by ring
        omega
      rw [this, ih (c + 1) i' k (by omega) hk, show c + 1 + i' = c + (i' + 1) by omega]

theorem post_column_getD (h : Nat) (g : Nat → Nat → Nat) (pad c : Nat) :
    (post_column h g pad c).getD 0 0 = 0 ∧ (post_column h g pad c).getD 1 0 = h ∧
    ∀ j, j < h → (post_column h g pad c).getD (2 + j) 0 = g j c := by
  refine ⟨rfl, rfl, ?_⟩
  intro j hj
  unfold post_column
  rw [show 2 + j = j + 1 + 1 by omega, List.getD_cons_succ, List.getD_cons_succ,
    List.getD_append _ _ _ _ (by simpa using hj)]
  simp [List.getD_eq_getElem?_getD, hj]

theorem encode_patch_length (w h : Nat) (g : Nat → Nat → Nat) (pad : Nat) :
    (encode_patch w h g pad).length = 8 + 4 * w + w * (h + 4) := by
  simp only [encode_patch, List.length_append, List.length_cons, List.length_nil,
    offset_table_length, post_columns_length]
  omega

theorem offset_table_bytes (w h : Nat) :
    ∀ n c, ∀ b ∈ offset_table w h n c, b < 256 := by
  intro n
  induction n with
  | zero => intro c b hb; simp [offset_table] at hb
  | succ n ih =>
    intro c b hb
    simp only [offset_table, List.mem_append, le_bytes4, List.mem_cons, List.mem_singleton,
      List.not_mem_nil, or_false] at hb
    rcases hb with (h1 | h1 | h1 | h1) | h1
    · omega
    · omega
    · omega
    · omega
    · exact ih (c + 1) b h1

theorem post_columns_bytes (w h : Nat) (g : Nat → Nat → Nat) (pad : Nat) (hh : h ≤ 255)
    (hg : ∀ r c, r < h → c < w → g r c < 256) (hpad : pad < 256) :
    ∀ n c, c + n ≤ w → ∀ b ∈ post_columns h g pad n c, b < 256 := by
  intro n
  induction n with
  | zero => intro c _ b hb; simp [post_columns] at hb
  | succ n ih =>
    intro c hc b hb
    simp only [post_columns, List.mem_append, post_column, List.mem_cons, List.mem_map,
      List.mem_range, List.mem_singleton, List.not_mem_nil, or_false] at hb
    rcases hb with (h1 | h1 | ⟨r, hr, h1⟩ | h1 | h1) | h1
    · omega
    · omega
    · rw [← h1]; exact hg r c hr (by omega)
    · omega
    · omega
    · exact ih (c + 1) (by omega) b h1

theorem encode_patch_bytes (w h : Nat) (g : Nat → Nat → Nat) (pad : Nat) (hh : h ≤ 255)
    (hg : ∀ r c, r < h → c < w → g r c < 256) (hpad : pad < 256) :
    is_byte_stream (encode_patch w h g pad) := by
  intro b hb
  simp only [encode_patch, List.mem_append, List.mem_cons, List.mem_singleton,
    List.not_mem_nil, or_false] at hb
  rcases hb with (h1 | h1 | h1 | h1 | h1 | h1 | h1 | h1) | h1 | h1
  · omega
  · omega
  · omega
  · omega
  · omega
  · omega
  · omega
  · omega
  · exact offset_table_bytes w h w 0 b h1
  · exact post_columns_bytes w h g pad hh hg hpad w 0 (by omega) b h1

theorem int16_of_two_bytes (x : Nat) (hx : x < 32768) :
    int16_of_bytes [x % 256, x / 256 % 256] = (x : Int) := by
  unfold int16_of_bytes to_signed
  have : le_unsigned [x % 256, x / 256 % 256] = x := by
    simp only [le_unsigned]; omega
  rw [this, if_pos (by norm_num; omega)]

/-- The header read from the encoded patch behind any prefix. -/
theorem encode_patch_header (w h : Nat) (g : Nat → Nat → Nat) (pad : Nat) (pre suf : List Nat)
    (hw : w < 32768) (hh : h < 32768) :
    patch_header_of_bytes (((pre ++ encode_patch w h g pad ++ suf).drop pre.length).take 8) =
      ⟨(w : Int), (h : Int), 0, 0⟩ := by
  rw [List.append_assoc, List.drop_left]
  have : ((encode_patch w h g pad ++ suf).take 8) =
      [w % 256, w / 256 % 256, h % 256, h / 256 % 256, 0, 0, 0, 0] := by
    simp [encode_patch]
  rw [this]
  unfold patch_header_of_bytes
  simp only [List.drop, List.take, List.drop_zero]
  rw [int16_of_two_bytes w hw, int16_of_two_bytes h hh]
  have z : int16_of_bytes [0, 0] = 0 := by decide
  rw [z]

/-- Byte `k` of the encoded patch behind any prefix. -/
theorem encode_patch_getD (w h : Nat) (g : Nat → Nat → Nat) (pad : Nat) (pre suf : List Nat)
    (k : Nat) (hk : k < (encode_patch w h g pad).length) :
    (pre ++ encode_patch w h g pad ++ suf).getD (pre.length + k) 0 =
      (encode_patch w h g pad).getD k 0 := by
  rw [List.append_assoc, List.getD_append_right _ _ _ _ (by omega),
    show pre.length + k - pre.length = k by omega,
    List.getD_append _ _ _ _ hk]

/-- Byte `k` of the post of column `c` in the encoded patch. -/
theorem encode_patch_column_getD (w h : Nat) (g : Nat → Nat → Nat) (pad : Nat) (c k : Nat)
    (hc : c < w) (hk : k < h + 4) :
    (encode_patch w h g pad).getD (column_offset w h c + k) 0 =
      (post_column h g pad c).getD k 0 := by
  unfold encode_patch column_offset
  rw [List.getD_append_right _ _ _ _ (by simp; omega)]
  rw [List.getD_append_right _ _ _ _ (by simp [offset_table_length]; omega)]
  simp only [List.length_cons, List.length_nil, offset_table_length]
  rw [show 8 + 4 * w + c * (h + 4) + k - (0 + 1 + 1 + 1 + 1 + 1 + 1 + 1 + 1) - 4 * w =
    c * (h + 4) + k by omega]
  rw [post_columns_getD h g pad w 0 c k hc hk, Nat.zero_add]

theorem wrap_int32_of_small (x : Int) (h0 : 0 ≤ x) (h1 : x < 2 ^ 31) : wrap_int32 x = x := by
  unfold wrap_int32 to_signed
  rw [Int.emod_eq_of_lt h0 (by omega)]
  rw [if_pos (by norm_num; omega)]
  omega

/-- The seek position of column `c` of the encoded patch behind a prefix. -/
theorem encode_patch_column_start (w h : Nat) (g : Nat → Nat → Nat) (pad : Nat)
    (pre suf : List Nat) (c : Nat) (hc : c < w)
    (hsize : pre.length + (encode_patch w h g pad).length < 2 ^ 31) :
    column_start (pre.length : Int)
      (column_offsets_at (pre ++ encode_patch w h g pad ++ suf) pre.length w) c =
      ((pre.length + column_offset w h c : Nat) : Int) := by
  rw [encode_patch_length] at hsize
  have hoff : column_offset w h w < 2 ^ 31 := by unfold column_offset; omega
  have hcw : column_offset w h c ≤ column_offset w h w := by
    unfold column_offset
    have := Nat.mul_le_mul_right (h + 4) (Nat.le_of_lt hc)
    omega
  have hdrop : (pre ++ encode_patch w h g pad ++ suf).drop (pre.length + 8) =
      offset_table w h w 0 ++ (post_columns h g pad w 0 ++ suf) := by
    rw [← List.drop_drop, List.append_assoc, List.drop_left]
    simp [encode_patch]
  unfold column_start column_offsets_at
  rw [hdrop, List.take_left' (by rw [offset_table_length])]
  have := int32_array_offset_table w h w 0 [] (by rw [Nat.zero_add]; exact hoff) c hc
  rw [List.append_nil, Nat.zero_add] at this
  rw [this]
  rw [wrap_int32_of_small _ (by omega) (by
    have : column_offset w h w = 8 + 4 * w + w * (h + 4) := rfl
    omega)]
  push_cast
  rfl

/-- C2: for a width `1 <= w <= 32767` (a positive signed 16-bit value), a
height `1 <= h <= 255` and a grid `g` of 8-bit indices, the patch bytes
`encode_patch w h g pad` (header `(w, h, 0, 0)`, `w` little-endian column
offsets, per column the post `[0, h, g 0 c .. g (h-1) c, pad, 0xFF]`), placed
at any offset of a file below 2 GiB, decode under `extract_patch_data` to
width `w`, height `h` and a buffer of `w * h` cells whose cell
`row * w + c` is `g row c`. -/
theorem patch_round_trip (alloc : Nat → Bool) (w h : Nat) (g : Nat → Nat → Nat) (pad : Nat)
    (pre suf : List Nat) (pos : Nat)
    (hw1 : 1 ≤ w) (hw2 : w ≤ 32767) (hh1 : 1 ≤ h) (hh2 : h ≤ 255)
    (hg : ∀ r c, r < h → c < w → g r c < 256) (hpad : pad < 256)
    (hpre : is_byte_stream pre) (hsuf : is_byte_stream suf)
    (hsize : pre.length + (encode_patch w h g pad).length < 2 ^ 31)
    (ha1 : alloc (w * h) = true) (ha2 : alloc (4 * w) = true) :
    ∃ pixels,
      extract_patch_data alloc ⟨pre ++ encode_patch w h g pad ++ suf, pos⟩ pre.length =
        .ret (some ((w : Int), (h : Int), pixels)) ∧
      pixels.length = w * h ∧
      ∀ r c, r < h → c < w → pixels[r * w + c]? = some (g r c) := by
  have hlen := encode_patch_length w h g pad
  have hbytes : is_byte_stream (pre ++ encode_patch w h g pad ++ suf) := by
    intro b hb
    simp only [List.mem_append] at hb
    rcases hb with (h1 | h1) | h1
    · exact hpre b h1
    · exact encode_patch_bytes w h g pad hh2 hg hpad b h1
    · exact hsuf b h1
  have hr : patch_readable alloc (pre ++ encode_patch w h g pad ++ suf) (pre.length : Int)
      ⟨(w : Int), (h : Int), 0, 0⟩ := by
    refine ⟨by omega, ?_, by simp only; omega, by simp only; omega, ?_, ?_, ?_⟩
    · rw [Int.toNat_ofNat]
      exact encode_patch_header w h g pad pre suf (by omega) (by omega)
    · simp only [Int.toNat_ofNat, List.length_append, hlen]
      omega
    · simp only
      rw [← Nat.cast_mul, Int.toNat_ofNat]
      exact ha1
    · simp only [Int.toNat_ofNat]
      exact ha2
  obtain ⟨px, he, hl, hcell⟩ := single_post_patch_decodes alloc
    ⟨pre ++ encode_patch w h g pad ++ suf, pos⟩ (pre.length : Int) ⟨(w : Int), (h : Int), 0, 0⟩
    g hbytes hr (by
      intro c hc
      simp only [Int.toNat_ofNat] at hc ⊢
      have hc' : c < w := by omega
      have hcw : column_offset w h c + (h + 4) ≤ (encode_patch w h g pad).length := by
        rw [hlen]
        unfold column_offset
        have := Nat.mul_le_mul_right (h + 4) (show c + 1 ≤ w by omega)
        have e : (c + 1) * (h + 4) = c * (h + 4) + (h + 4) := by ring
        omega
      have hget : ∀ k, k < h + 4 →
          (pre ++ encode_patch w h g pad ++ suf).getD (pre.length + column_offset w h c + k) 0 =
            (post_column h g pad c).getD k 0 := by
        intro k hk
        rw [Nat.add_assoc, encode_patch_getD w h g pad pre suf _ (by omega),
          encode_patch_column_getD w h g pad c k hc' hk]
      obtain ⟨p0, p1, p2⟩ := post_column_getD h g pad c
      refine ⟨pre.length + column_offset w h c,
        encode_patch_column_start w h g pad pre suf c hc' hsize, ?_, ?_, ?_, ?_⟩
      · have := hget 0 (by omega)
        rw [Nat.add_zero] at this
        rw [this, p0]
      · rw [hget 1 (by omega), p1]
      · rw [hget 1 (by omega), p1]
        simp only [List.length_append]
        omega
      · intro j hj
        rw [Nat.add_assoc, hget (2 + j) (by omega), p2 j (by omega)])
  simp only [Int.toNat_ofNat] at hl hcell
  refine ⟨px, he, hl, ?_⟩
  intro r c hr' hc'
  have hv := hcell r c (by omega) (by omega)
  have hidx : r * w + c < px.length := by
    rw [hl]
    calc r * w + c < r * w + w := by omega
      _ = (r + 1) * w := by ring
      _ ≤ h * w := Nat.mul_le_mul_right _ hr'
      _ = w * h := Nat.mul_comm _ _
  rw [List.getD_eq_getElem?_getD, List.getElem?_eq_getElem hidx] at hv
  rw [List.getElem?_eq_getElem hidx]
  simpa using hv

/-- C2 at width 2, height 2 and the grid `[[1, 3], [2, 4]]`, the patch being
the whole file. -/
theorem patch_round_trip_witness :
    ∃ pixels,
      extract_patch_data roomy_alloc ⟨[] ++ encode_patch 2 2 sample_grid 0 ++ [], 0⟩
          (([] : List Nat).length : Int) = .ret (some (2, 2, pixels)) ∧
      pixels.length = 2 * 2 ∧
      ∀ r c, r < 2 → c < 2 → pixels[r * 2 + c]? = some (sample_grid r c) :=
  patch_round_trip roomy_alloc 2 2 sample_grid 0 [] [] 0 (by decide) (by decide) (by decide)
    (by decide) (fun r c hr hc => by unfold sample_grid; omega) (by decide) (by decide)
    (by decide) (by decide) (by decide) (by decide)

/-! ## The fixed-length name comparison -/

theorem strncmp_succ (s1 s2 : List Nat) (n : Nat) :
    strncmp s1 s2 (n + 1) =
      if s1.headD 0 ≠ s2.headD 0 then (s1.headD 0 : Int) - (s2.headD 0 : Int)
      else if s1.headD 0 = 0 then 0
      else strncmp s1.tail s2.tail n := by
  cases s1 <;> cases s2 <;> rfl

theorem getD_tail (s : List Nat) (j : Nat) : s.tail.getD j 0 = s.getD (j + 1) 0 := by
  cases s <;> simp

theorem headD_eq_getD (s : List Nat) : s.headD 0 = s.getD 0 0 := by
  cases s <;> simp

/-- The comparison returns 0 exactly when the strings agree at every index
below `n` up to and including the first NUL of the first string. -/
theorem strncmp_eq_zero_iff :
    ∀ (n : Nat) (s1 s2 : List Nat),
      strncmp s1 s2 n = 0 ↔
        ∀ j, j < n → (∀ i, i < j → s1.getD i 0 ≠ 0) → s1.getD j 0 = s2.getD j 0 := by
  intro n
  induction n with
  | zero => intro s1 s2; simp [strncmp]
  | succ n ih =>
    intro s1 s2
    rw [strncmp_succ, headD_eq_getD, headD_eq_getD]
    by_cases h0 : s1.getD 0 0 = s2.getD 0 0
    · rw [if_neg (by simpa using h0)]
      by_cases hz : s1.getD 0 0 = 0
      · rw [if_pos hz]
        refine ⟨fun _ j hj hne => ?_, fun _ => rfl⟩
        rcases Nat.eq_zero_or_pos j with hj0 | hj0
        · subst hj0; exact h0
        · exact absurd hz (hne 0 hj0)
      · rw [if_neg hz, ih]
        constructor
        · intro h j hj hne
          rcases Nat.eq_zero_or_pos j with hj0 | hj0
          · subst hj0; exact h0
          · obtain ⟨j', rfl⟩ : ∃ j', j = j' + 1 := ⟨j - 1, by omega⟩
            have := h j' (by omega) (fun i hi => by
              rw [getD_tail]; exact hne (i + 1) (by omega))
            rw [getD_tail, getD_tail] at this
            exact this
        · intro h j hj hne
          rw [getD_tail, getD_tail]
          refine h (j + 1) (by omega) (fun i hi => ?_)
          rcases Nat.eq_zero_or_pos i with hi0 | hi0
          · subst hi0; exact hz
          · obtain ⟨i', rfl⟩ : ∃ i', i = i' + 1 := ⟨i - 1, by omega⟩
            have := hne i' (by omega)
            rw [getD_tail] at this
            exact this
    · rw [if_pos (by simpa using h0)]
      constructor
      · intro h; exfalso; apply h0; omega
      · intro h
        exact absurd (h 0 (by omega) (fun i hi => by omega)) h0

/-- The comparison only depends on the first string up to its first NUL. -/
theorem strncmp_congr_upto_nul :
    ∀ (n : Nat) (s1 s1' s2 : List Nat) (i : Nat), s1.getD i 0 = 0 →
      (∀ j, j ≤ i → s1'.getD j 0 = s1.getD j 0) →
      strncmp s1' s2 n = strncmp s1 s2 n := by
  intro n
  induction n with
  | zero => intro s1 s1' s2 i _ _; rfl
  | succ n ih =>
    intro s1 s1' s2 i hz hag
    rw [strncmp_succ, strncmp_succ, headD_eq_getD, headD_eq_getD, headD_eq_getD,
      hag 0 (Nat.zero_le _)]
    split
    · rfl
    split
    · rfl
    · rename_i _ hnz
      have hi : 0 < i := by
        rcases Nat.eq_zero_or_pos i with hi0 | hi0
        · subst hi0; exact absurd hz hnz
        · exact hi0
      obtain ⟨i', rfl⟩ : ∃ i', i = i' + 1 := ⟨i - 1, by omega⟩
      refine ih s1.tail s1'.tail s2.tail i' (by rw [getD_tail]; exact hz) (fun j hj => ?_)
      rw [getD_tail, getD_tail]
      exact hag (j + 1) (by omega)

/-- The comparison of `n` bytes reads nothing after the first `n` bytes of
the first string. -/
theorem strncmp_append :
    ∀ (n : Nat) (s1 past s2 : List Nat), n ≤ s1.length →
      strncmp (s1 ++ past) s2 n = strncmp s1 s2 n := by
  intro n
  induction n with
  | zero => intro s1 past s2 _; rfl
  | succ n ih =>
    intro s1 past s2 hl
    cases s1 with
    | nil => simp at hl
    | cons a s1 =>
      rw [strncmp_succ, strncmp_succ]
      simp only [List.cons_append, List.headD_cons, List.tail_cons]
      rw [ih s1 past s2.tail (by simpa using hl)]

theorem getD_ne_zero_of_mem (t : List Nat) (hc : ∀ b ∈ t, b ≠ 0) (j : Nat) (hj : j < t.length) :
    t.getD j 0 ≠ 0 := by
  rw [List.getD_eq_getElem?_getD, List.getElem?_eq_getElem hj]
  exact hc _ (List.getElem_mem hj)

/-- The matching rule of `strncmp(name, target, 8)` for a target without NUL
bytes of at most 8 bytes. -/
theorem strncmp_name_rule (name target : List Nat) (ht : target.length ≤ 8)
    (hc : ∀ b ∈ target, b ≠ 0) :
    strncmp name target 8 = 0 ↔
      (∀ j, j < target.length → name.getD j 0 = target.getD j 0) ∧
      (target.length = 8 ∨ name.getD target.length 0 = 0) := by
  rw [strncmp_eq_zero_iff]
  constructor
  · intro h
    have hpre : ∀ j, j < target.length → name.getD j 0 = target.getD j 0 := by
      intro j
      induction j using Nat.strong_induction_on with
      | _ j ihj =>
        intro hj
        exact h j (by omega) (fun i hi => by
          rw [ihj i hi (by omega)]
          exact getD_ne_zero_of_mem target hc i (by omega))
    refine ⟨hpre, ?_⟩
    by_cases h8 : target.length = 8
    · exact Or.inl h8
    · right
      have := h target.length (by omega) (fun i hi => by
        rw [hpre i hi]
        exact getD_ne_zero_of_mem target hc i hi)
      rw [this, List.getD_eq_getElem?_getD, List.getElem?_eq_none (Nat.le_refl _)]
      rfl
  · rintro ⟨hpre, hend⟩ j hj hne
    by_cases hjt : j < target.length
    · exact hpre j hjt
    · rcases hend with h8 | hz
      · omega
      · by_cases hje : j = target.length
        · subst hje
          rw [hz, List.getD_eq_getElem?_getD, List.getElem?_eq_none (Nat.le_refl _)]
          rfl
        · exact absurd hz (hne target.length (by omega))

/-- C16: for an entry with an 8-byte name field and a target of at most 8
bytes without NUL, the entry matches exactly when the name agrees with the
target on the target's length and, for a target shorter than 8, the next
byte of the name is NUL. The bytes of the name after its first NUL do not
influence the result, a name that continues the target with a non-NUL byte
does not match, and nothing after the 8 bytes of the field is read. -/
theorem name_match_rule (entry : WadDirEntry) (target : List Nat)
    (hn : entry.name.length = 8) (ht : target.length ≤ 8) (hc : ∀ b ∈ target, b ≠ 0) :
    (name_matches entry target ↔
      (∀ j, j < target.length → entry.name.getD j 0 = target.getD j 0) ∧
      (target.length = 8 ∨ entry.name.getD target.length 0 = 0)) ∧
    (∀ (name' : List Nat) (i : Nat), entry.name.getD i 0 = 0 →
      (∀ j, j ≤ i → name'.getD j 0 = entry.name.getD j 0) →
      strncmp name' target 8 = strncmp entry.name target 8) ∧
    (target.length < 8 →
      (∀ j, j < target.length → entry.name.getD j 0 = target.getD j 0) →
      entry.name.getD target.length 0 ≠ 0 → ¬ name_matches entry target) ∧
    (target.length = 8 →
      (∀ j, j < 8 → entry.name.getD j 0 = target.getD j 0) → name_matches entry target) ∧
    (∀ past : List Nat, strncmp (entry.name ++ past) target 8 = strncmp entry.name target 8) := by
  have hrule := strncmp_name_rule entry.name target ht hc
  refine ⟨hrule, ?_, ?_, ?_, ?_⟩
  · intro name' i hz hag
    exact strncmp_congr_upto_nul 8 entry.name name' target i hz hag
  · intro hlt _ hnz hm
    rcases (hrule.1 hm).2 with h8 | hz
    · omega
    · exact hnz hz
  · intro h8 hag
    exact hrule.2 ⟨fun j hj => hag j (by omega), Or.inl h8⟩
  · intro past
    exact strncmp_append 8 entry.name past target (by omega)

/-- C16 at the name `SKY1\0XYZ` and the target `SKY1`: the entry matches; and
the unterminated name `SKYLIGHT` matches the 8-byte target `SKYLIGHT`. -/
theorem name_match_rule_witness :
    name_matches ⟨0, 0, [83, 75, 89, 49, 0, 88, 89, 90]⟩ SKY1 ∧
    ¬ name_matches ⟨0, 0, [83, 75, 89, 49, 50, 0, 0, 0]⟩ SKY1 ∧
    name_matches ⟨0, 0, [83, 75, 89, 76, 73, 71, 72, 84]⟩
      [83, 75, 89, 76, 73, 71, 72, 84] :=
  ⟨(name_match_rule ⟨0, 0, [83, 75, 89, 49, 0, 88, 89, 90]⟩ SKY1 (by decide) (by decide)
      (by decide)).1.2 (by decide),
   (name_match_rule ⟨0, 0, [83, 75, 89, 49, 50, 0, 0, 0]⟩ SKY1 (by decide) (by decide)
      (by decide)).2.2.1 (by decide) (by decide) (by decide),
   (name_match_rule ⟨0, 0, [83, 75, 89, 76, 73, 71, 72, 84]⟩
      [83, 75, 89, 76, 73, 71, 72, 84] (by decide) (by decide)
      (by decide)).2.2.2.1 (by decide) (by decide)⟩

/-- A target shorter than 8 bytes matches its NUL-padded name field. -/
theorem strncmp_nul_padded (target : List Nat) (ht : target.length < 8)
    (hc : ∀ b ∈ target, b ≠ 0) :
    strncmp (target ++ List.replicate (8 - target.length) 0) target 8 = 0 := by
  rw [strncmp_name_rule _ target (by omega) hc]
  constructor
  · intro j hj
    rw [List.getD_append _ _ _ _ hj]
  · right
    rw [List.getD_append_right _ _ _ _ (Nat.le_refl _), Nat.sub_self,
      List.getD_eq_getElem?_getD, List.getElem?_replicate]
    split <;> rfl

/-- A target shorter than 8 bytes does not match its space-padded name
field: the space after the name differs from the terminating NUL. -/
theorem strncmp_space_padded (target : List Nat) (ht : target.length < 8)
    (hc : ∀ b ∈ target, b ≠ 0) :
    strncmp (target ++ List.replicate (8 - target.length) 32) target 8 ≠ 0 := by
  rw [Ne, strncmp_name_rule _ target (by omega) hc]
  rintro ⟨_, h8 | hz⟩
  · omega
  · rw [List.getD_append_right _ _ _ _ (Nat.le_refl _), Nat.sub_self,
      List.getD_eq_getElem?_getD, List.getElem?_replicate, if_pos (by omega)] at hz
    simp at hz

/-- C15 (amended): for every target of fewer than 8 bytes (without NUL),
the test of `find_lump` accepts the name field made of the target padded to
8 bytes with NUL bytes and rejects the one padded with spaces; in a readable
directory of one entry, `find_lump` returns that entry for the NUL-padded
name and the sentinel for the space-padded name. -/
theorem find_lump_padding (file : FILE) (directory_offset : Int) (target : List Nat)
    (ht : target.length < 8) (hc : ∀ b ∈ target, b ≠ 0)
    (hread : entry_readable file.data directory_offset 0) :
    (∀ filepos size : Int,
      name_matches ⟨filepos, size, target ++ List.replicate (8 - target.length) 0⟩ target ∧
      ¬ name_matches ⟨filepos, size, target ++ List.replicate (8 - target.length) 32⟩ target) ∧
    ((dir_entry file.data directory_offset 0).name =
        target ++ List.replicate (8 - target.length) 0 →
      ∃ file', find_lump file 1 directory_offset target =
        .ret (dir_entry file.data directory_offset 0, file')) ∧
    ((dir_entry file.data directory_offset 0).name =
        target ++ List.replicate (8 - target.length) 32 →
      ∃ file', find_lump file 1 directory_offset target = .ret (invalid_entry, file')) := by
  have hspec := find_lump_loop_spec directory_offset target 1 0 file
    (fun j _ hj => by
      have : j = 0 := by omega
      subst this
      exact hread)
  refine ⟨fun filepos size =>
    ⟨strncmp_nul_padded target ht hc, strncmp_space_padded target ht hc⟩, ?_, ?_⟩
  · intro hname
    have hm : name_matches (dir_entry file.data directory_offset 0) target := by
      unfold name_matches
      rw [hname]
      exact strncmp_nul_padded target ht hc
    have := hspec.1 0 (Nat.le_refl _) (by omega) hm (fun j _ hj => by omega)
    exact ⟨_, by simpa [find_lump] using this⟩
  · intro hname
    have hm : ¬ name_matches (dir_entry file.data directory_offset 0) target := by
      unfold name_matches
      rw [hname]
      exact strncmp_space_padded target ht hc
    obtain ⟨file', _, h⟩ := hspec.2 (fun j _ hj => by
      have : j = 0 := by omega
      subst this
      exact hm)
    exact ⟨file', by simpa [find_lump] using h⟩

/-- C15 (amended) at the target `SKY1` and the two one-entry directories. -/
theorem find_lump_padding_witness :
    (∃ file', find_lump ⟨nul_directory, 0⟩ 1 0 SKY1 =
      .ret (dir_entry nul_directory 0 0, file')) ∧
    (∃ file', find_lump ⟨spaced_directory, 0⟩ 1 0 SKY1 = .ret (invalid_entry, file')) :=
  ⟨(find_lump_padding ⟨nul_directory, 0⟩ 0 SKY1 (by decide) (by decide) (by decide)).2.1
      (by decide),
   (find_lump_padding ⟨spaced_directory, 0⟩ 0 SKY1 (by decide) (by decide) (by decide)).2.2
      (by decide)⟩

/-- C15 as stated fails: the entry named `SKY1` padded with spaces is not
matched by the target `SKY1`; the lookup returns the sentinel. -/
theorem find_lump_space_padded_not_found :
    ¬ name_matches (dir_entry spaced_directory 0 0) SKY1 ∧
    find_lump ⟨spaced_directory, 0⟩ 1 0 SKY1 = .ret (invalid_entry, ⟨spaced_directory, 16⟩) := by
  decide

/-! ## Termination -/

/-- A result of the post loop is kept by a larger budget. -/
theorem decode_posts_fuel_succ (width height : Int) (col : Nat) :
    ∀ (fuel : Nat) (file : FILE) (row : Int) (pixels : List Nat) (r : FILE × List Nat),
      decode_posts width height col fuel file row pixels = some r →
      decode_posts width height col (fuel + 1) file row pixels = some r := by
  intro fuel
  induction fuel with
  | zero => intro file row pixels r h; simp [decode_posts] at h
  | succ fuel ih =>
    intro file row pixels r h
    rw [decode_posts_succ] at h
    rw [decode_posts_succ]
    split_ifs at h ⊢ <;> first | exact h | exact ih _ _ _ _ h

theorem decode_posts_fuel_le (width height : Int) (col : Nat) (fuel fuel' : Nat)
    (hle : fuel ≤ fuel') (file : FILE) (row : Int) (pixels : List Nat) (r : FILE × List Nat)
    (h : decode_posts width height col fuel file row pixels = some r) :
    decode_posts width height col fuel' file row pixels = some r := by
  induction fuel' with
  | zero =>
    have : fuel = 0 := by omega
    subst this
    exact h
  | succ n ih =>
    by_cases hn : fuel ≤ n
    · exact decode_posts_fuel_succ width height col n file row pixels r (ih hn)
    · have : fuel = n + 1 := by omega
      subst this
      exact h

/-- C18: `extract_patch_data` returns on every byte source, patch offset and
header or offset-table contents (the model never uses up its iteration
budget). The post loop returns from every state; any budget above the number
of bytes left gives the result of the budget used by the decoder. Each pass
of the post loop either ends the loop or goes on at a position at least 3
bytes further, which it only does when two header bytes were present. -/
theorem extract_patch_data_terminates (alloc : Nat → Bool) (file : FILE) (patch_offset : Int) :
    (∃ r, extract_patch_data alloc file patch_offset = .ret r) ∧
    (∀ (width height : Int) (col : Nat) (file : FILE) (row : Int) (pixels : List Nat)
      (fuel : Nat), file.data.length - file.pos + 1 ≤ fuel →
      ∃ r, decode_posts width height col fuel file row pixels = some r ∧
        decode_posts width height col (file.data.length + 2) file row pixels = some r) ∧
    (∀ (width height : Int) (col fuel : Nat) (file : FILE) (row : Int) (pixels : List Nat),
      (∃ file', decode_posts width height col (fuel + 1) file row pixels =
        some (file', pixels)) ∨
      (file.pos + 2 ≤ file.data.length ∧
        ∃ (file' : FILE) (row' : Int) (pixels' : List Nat),
          file.pos + 3 ≤ file'.pos ∧ file'.data = file.data ∧
          decode_posts width height col (fuel + 1) file row pixels =
            decode_posts width height col fuel file' row' pixels')) := by
  refine ⟨?_, ?_, ?_⟩
  · cases hpr : patch_prologue alloc file patch_offset with
    | none => exact ⟨none, (extract_patch_data_null_iff alloc file patch_offset).2 hpr⟩
    | some r =>
      obtain ⟨hd, offs, f1⟩ := r
      obtain ⟨_, px, _, he, _⟩ :=
        extract_patch_data_of_prologue alloc file patch_offset hd offs f1 hpr
      exact ⟨_, he⟩
  · intro width height col file row pixels fuel hf
    obtain ⟨f', p', he, _, _⟩ := decode_posts_returns width height col
      (file.data.length - file.pos + 1) file row pixels (Nat.le_refl _)
    exact ⟨(f', p'),
      decode_posts_fuel_le width height col _ fuel hf file row pixels _ he,
      decode_posts_fuel_le width height col _ _ (by omega) file row pixels _ he⟩
  · intro width height col fuel file row pixels
    by_cases hc : row < height ∧ file.pos + 2 ≤ file.data.length ∧
      file.data.getD file.pos 0 ≠ 255 ∧
      row + (file.data.getD file.pos 0 : Nat) + (file.data.getD (file.pos + 1) 0 : Nat)
        ≤ height
    · right
      exact ⟨hc.2.1,
        ⟨file.data, file.pos + 2 +
          min (file.data.getD (file.pos + 1) 0) (file.data.length - (file.pos + 2)) + 1⟩,
        _, _, by simp only; omega, rfl,
        decode_posts_continue width height col fuel file row pixels hc.1 hc.2.1 hc.2.2.1
          hc.2.2.2⟩
    · left
      obtain ⟨f', _, he⟩ := decode_posts_stop width height col fuel file row pixels hc
      exact ⟨f', he⟩

/-- C18 at a 1x1 patch whose column is a run of posts of topdelta 0 and
length 0: the post loop started at the column returns with a budget of 10
passes as with the budget of the decoder. -/
theorem extract_patch_data_terminates_witness :
    ∃ r, decode_posts 1 1 0 10 ⟨zero_run_patch, 12⟩ 0 [0] = some r ∧
      decode_posts 1 1 0 (zero_run_patch.length + 2) ⟨zero_run_patch, 12⟩ 0 [0] = some r :=
  (extract_patch_data_terminates roomy_alloc ⟨zero_run_patch, 0⟩ 0).2.1 1 1 0
    ⟨zero_run_patch, 12⟩ 0 [0] 10 (by decide)

/-! ## The decoder replays its stores -/

theorem replay_stores_nil (width : Int) (data pixels : List Nat) :
    replay_stores width data pixels [] = pixels := rfl

theorem replay_stores_cons (width : Int) (data pixels : List Nat) (s : Nat × Int × Nat)
    (l : List (Nat × Int × Nat)) :
    replay_stores width data pixels (s :: l) =
      replay_stores width data
        (pixels_store pixels (s.2.1 * width + s.1) (data.getD s.2.2 0)) l := rfl

theorem replay_stores_append (width : Int) (data pixels : List Nat)
    (l1 l2 : List (Nat × Int × Nat)) :
    replay_stores width data pixels (l1 ++ l2) =
      replay_stores width data (replay_stores width data pixels l1) l2 := by
  unfold replay_stores
  rw [List.foldl_append]

theorem replay_stores_length (width : Int) (data : List Nat) :
    ∀ (l : List (Nat × Int × Nat)) (pixels : List Nat),
      (replay_stores width data pixels l).length = pixels.length := by
  intro l
  induction l with
  | nil => intro pixels; rfl
  | cons s l ih =>
    intro pixels
    rw [replay_stores_cons, ih, pixels_store_length]

theorem read_post_stores_succ (n : Nat) (file : FILE) (row : Int) :
    read_post_stores (n + 1) file row =
      if (fread file 1 1).2.1 ≠ 1 then ((fread file 1 1).2.2, row, [])
      else
        ((read_post_stores n (fread file 1 1).2.2 (row + 1)).1,
         (read_post_stores n (fread file 1 1).2.2 (row + 1)).2.1,
         (row, file.pos) :: (read_post_stores n (fread file 1 1).2.2 (row + 1)).2.2) := rfl

/-- The inner loop is the replay of its stores. -/
theorem read_post_pixels_replay (width : Int) (col : Nat) :
    ∀ (n : Nat) (file : FILE) (row : Int) (pixels : List Nat),
      read_post_pixels width col n file row pixels =
        ((read_post_stores n file row).1, (read_post_stores n file row).2.1,
          replay_stores width file.data pixels
            ((read_post_stores n file row).2.2.map (fun s => (col, s.1, s.2)))) := by
  intro n
  induction n with
  | zero => intro file row pixels; rfl
  | succ n ih =>
    intro file row pixels
    rw [read_post_pixels_succ, read_post_stores_succ]
    by_cases hp : file.pos < file.data.length
    · rw [fread_byte file hp]
      simp only [ne_eq, not_true_eq_false, if_false, List.headD_cons, List.map_cons]
      rw [ih, replay_stores_cons]
    · rw [fread_byte_eof file (by omega)]
      simp only [ne_eq, zero_ne_one, not_false_eq_true, if_true, List.map_nil]
      rfl

/-- The stores of the inner loop: the `m = min n (bytes left)` bytes that
are present go to the rows `row .. row + m - 1`. -/
theorem read_post_stores_spec :
    ∀ (n : Nat) (file : FILE) (row : Int),
      read_post_stores n file row =
        (⟨file.data, file.pos + min n (file.data.length - file.pos)⟩,
          row + (min n (file.data.length - file.pos) : Nat),
          (List.range (min n (file.data.length - file.pos))).map
            (fun (j : Nat) => (row + (j : Int), file.pos + j))) := by
  intro n
  induction n with
  | zero => intro file row; simp [read_post_stores]
  | succ n ih =>
    intro file row
    rw [read_post_stores_succ]
    by_cases hp : file.pos < file.data.length
    · rw [fread_byte file hp]
      simp only [ne_eq, not_true_eq_false, if_false]
      rw [ih]
      have hm : min (n + 1) (file.data.length - file.pos) =
          min n (file.data.length - (file.pos + 1)) + 1 := by omega
      simp only [hm]
      refine Prod.ext ?_ (Prod.ext ?_ ?_)
      · simp only [FILE.mk.injEq, true_and]; omega
      · simp only; push_cast; ring
      · simp only
        rw [List.range_succ_eq_map, List.map_cons, List.map_map]
        simp only [Nat.cast_zero, add_zero, List.cons.injEq, true_and]
        apply List.map_congr_left
        intro j _
        simp only [Function.comp, Prod.mk.injEq]
        constructor
        · push_cast; ring
        · omega
    · rw [fread_byte_eof file (by omega)]
      have hm : min (n + 1) (file.data.length - file.pos) = 0 := by omega
      simp [hm]

theorem decode_posts_stores_succ (height : Int) (fuel : Nat) (file : FILE) (row : Int) :
    decode_posts_stores height (fuel + 1) file row =
      if ¬ (row < height) then some (file, []) else
      if (fread file 2 1).2.1 ≠ 1 then some ((fread file 2 1).2.2, []) else
      if (fread file 2 1).1.getD 0 0 = 0xFF then some ((fread file 2 1).2.2, []) else
      if row + ((fread file 2 1).1.getD 0 0 : Nat) + ((fread file 2 1).1.getD 1 0 : Nat) > height
      then some ((fread file 2 1).2.2, []) else
      match decode_posts_stores height fuel
        (fseek_CUR (read_post_stores ((fread file 2 1).1.getD 1 0)
          (fread file 2 1).2.2 (row + ((fread file 2 1).1.getD 0 0 : Nat))).1 1).2
        (read_post_stores ((fread file 2 1).1.getD 1 0)
          (fread file 2 1).2.2 (row + ((fread file 2 1).1.getD 0 0 : Nat))).2.1 with
      | none => none
      | some (file', rest) =>
        some (file', (read_post_stores ((fread file 2 1).1.getD 1 0)
          (fread file 2 1).2.2 (row + ((fread file 2 1).1.getD 0 0 : Nat))).2.2 ++ rest) := rfl

/-- A pass of the post loop that decodes a post, on the stores: the bytes of
the post that are present, then the stores of the rest of the column. -/
theorem decode_posts_stores_continue (height : Int) (fuel : Nat) (file : FILE) (row : Int)
    (hrow : row < height) (hp : file.pos + 2 ≤ file.data.length)
    (ht : file.data.getD file.pos 0 ≠ 255)
    (hfit : row + (file.data.getD file.pos 0 : Nat) + (file.data.getD (file.pos + 1) 0 : Nat)
      ≤ height) :
    decode_posts_stores height (fuel + 1) file row =
      match decode_posts_stores height fuel
        ⟨file.data, file.pos + 2 +
          min (file.data.getD (file.pos + 1) 0) (file.data.length - (file.pos + 2)) + 1⟩
        (row + (file.data.getD file.pos 0 : Nat) +
          (min (file.data.getD (file.pos + 1) 0) (file.data.length - (file.pos + 2)) : Nat))
        with
      | none => none
      | some (file', rest) =>
        some (file',
          (List.range (min (file.data.getD (file.pos + 1) 0)
            (file.data.length - (file.pos + 2)))).map
            (fun (j : Nat) => (row + (file.data.getD file.pos 0 : Nat) + (j : Int),
              file.pos + 2 + j)) ++ rest) := by
  rw [decode_posts_stores_succ, if_neg (by omega), fread_post file hp]
  simp only [ne_eq, not_true_eq_false, if_false, List.getD_cons_zero, List.getD_cons_succ]
  rw [if_neg ht, if_neg (by omega), read_post_stores_spec, fseek_CUR_one]

/-- A pass of the post loop that ends the column, on the stores. -/
theorem decode_posts_stores_stop (height : Int) (fuel : Nat) (file : FILE) (row : Int)
    (h : ¬ (row < height ∧ file.pos + 2 ≤ file.data.length ∧
      file.data.getD file.pos 0 ≠ 255 ∧
      row + (file.data.getD file.pos 0 : Nat) + (file.data.getD (file.pos + 1) 0 : Nat)
        ≤ height)) :
    ∃ file', file'.data = file.data ∧
      decode_posts_stores height (fuel + 1) file row = some (file', []) := by
  rw [decode_posts_stores_succ]
  by_cases hrow : row < height
  swap
  · rw [if_pos hrow]; exact ⟨_, by rfl, rfl⟩
  rw [if_neg (by omega)]
  by_cases hp : file.pos + 2 ≤ file.data.length
  swap
  · rw [if_pos (fread_post_short file (by omega))]; exact ⟨_, by rfl, rfl⟩
  rw [fread_post file hp]
  simp only [ne_eq, not_true_eq_false, if_false, List.getD_cons_zero, List.getD_cons_succ]
  by_cases ht : file.data.getD file.pos 0 = 255
  · rw [if_pos ht]; exact ⟨_, by rfl, rfl⟩
  rw [if_neg ht, if_pos (by
    have := fun hfit => h ⟨hrow, hp, ht, hfit⟩
    omega)]
  exact ⟨_, by rfl, rfl⟩

/-- The post loop is the replay of its stores. -/
theorem decode_posts_replay (width height : Int) (col : Nat) :
    ∀ (fuel : Nat) (file : FILE) (row : Int) (pixels : List Nat),
      decode_posts width height col fuel file row pixels =
        (decode_posts_stores height fuel file row).map
          (fun r => (r.1, replay_stores width file.data pixels
            (r.2.map (fun s => (col, s.1, s.2))))) := by
  intro fuel
  induction fuel with
  | zero => intro file row pixels; rfl
  | succ fuel ih =>
    intro file row pixels
    by_cases hc : row < height ∧ file.pos + 2 ≤ file.data.length ∧
      file.data.getD file.pos 0 ≠ 255 ∧
      row + (file.data.getD file.pos 0 : Nat) + (file.data.getD (file.pos + 1) 0 : Nat)
        ≤ height
    · rw [decode_posts_continue width height col fuel file row pixels hc.1 hc.2.1 hc.2.2.1
        hc.2.2.2,
        decode_posts_stores_continue height fuel file row hc.1 hc.2.1 hc.2.2.1 hc.2.2.2, ih,
        read_post_pixels_replay, read_post_stores_spec]
      simp only
      cases decode_posts_stores height fuel
        ⟨file.data, file.pos + 2 +
          min (file.data.getD (file.pos + 1) 0) (file.data.length - (file.pos + 2)) + 1⟩
        (row + (file.data.getD file.pos 0 : Nat) +
          (min (file.data.getD (file.pos + 1) 0) (file.data.length - (file.pos + 2)) : Nat))
        with
      | none => rfl
      | some r =>
        simp only [Option.map_some', List.map_append, replay_stores_append]
    · rw [decode_posts_succ, decode_posts_stores_succ]
      split_ifs with h1 h2 h3 h4
      all_goals first
        | rfl
        | (exfalso
           apply hc
           have hp : file.pos + 2 ≤ file.data.length := by
             by_contra hlt
             exact fread_post_short file (by omega) (by simpa using h2)
           rw [fread_post file hp] at h3 h4
           simp only [List.getD_cons_zero, List.getD_cons_succ] at h3 h4
           exact ⟨by omega, hp, h3, by omega⟩)

/-! ## Properties of the stores -/

/-- The stores of the post loop started at a non-negative row: the rows lie
between the start row and the height, they increase strictly, and every
byte stored is a byte of the file. -/
theorem decode_posts_stores_bounds (height : Int) :
    ∀ (fuel : Nat) (file : FILE) (row : Int) (file' : FILE) (stores : List (Int × Nat)),
      decode_posts_stores height fuel file row = some (file', stores) →
      file'.data = file.data ∧
      (∀ e ∈ stores, row ≤ e.1 ∧ e.1 < height ∧ e.2 < file.data.length) ∧
      stores.Pairwise (fun a b => a.1 < b.1) := by
  intro fuel
  induction fuel with
  | zero => intro file row file' stores h; simp [decode_posts_stores] at h
  | succ fuel ih =>
    intro file row file' stores h
    by_cases hc : row < height ∧ file.pos + 2 ≤ file.data.length ∧
      file.data.getD file.pos 0 ≠ 255 ∧
      row + (file.data.getD file.pos 0 : Nat) + (file.data.getD (file.pos + 1) 0 : Nat)
        ≤ height
    · rw [decode_posts_stores_continue height fuel file row hc.1 hc.2.1 hc.2.2.1 hc.2.2.2] at h
      generalize file.data.getD file.pos 0 = t at *
      generalize file.data.getD (file.pos + 1) 0 = L at *
      cases hrec : decode_posts_stores height fuel
        ⟨file.data, file.pos + 2 + min L (file.data.length - (file.pos + 2)) + 1⟩
        (row + (t : Int) + (min L (file.data.length - (file.pos + 2)) : Nat)) with
      | none => rw [hrec] at h; simp at h
      | some r =>
        obtain ⟨f1, rest⟩ := r
        rw [hrec] at h
        simp only [Option.some.injEq, Prod.mk.injEq] at h
        obtain ⟨hd, hb, hpw⟩ := ih _ _ _ _ hrec
        simp only at hd hb
        have hA : ∀ e ∈ (List.range (min L (file.data.length - (file.pos + 2)))).map
            (fun (j : Nat) => (row + (t : Int) + (j : Int), file.pos + 2 + j)),
            row ≤ e.1 ∧ e.1 < row + (t : Int) +
              (min L (file.data.length - (file.pos + 2)) : Nat) ∧
            e.2 < file.data.length := by
          intro e he
          simp only [List.mem_map, List.mem_range] at he
          obtain ⟨j, hj, rfl⟩ := he
          simp only
          omega
        rw [← h.1, ← h.2]
        refine ⟨hd, ?_, ?_⟩
        · intro e he
          rcases List.mem_append.1 he with he | he
          · have := hA e he
            omega
          · have := hb e he
            omega
        · rw [List.pairwise_append]
          refine ⟨?_, hpw, ?_⟩
          · rw [List.pairwise_map]
            exact (List.pairwise_lt_range _).imp (fun hab => by simp only; omega)
          · intro a ha b hb'
            have h1 := hA a ha
            have h2 := hb b hb'
            omega
    · obtain ⟨f2, hd, he2⟩ := decode_posts_stores_stop height fuel file row hc
      rw [he2] at h
      simp only [Option.some.injEq, Prod.mk.injEq] at h
      rw [← h.1, ← h.2]
      exact ⟨hd, fun e he => by simp at he, List.Pairwise.nil⟩

/-- The body of the column loop is the replay of the stores of the column. -/
theorem decode_column_replay (patch_offset width height : Int) (column_offsets : List Int)
    (col : Nat) (file : FILE) (pixels : List Nat) :
    decode_column patch_offset width height column_offsets col file pixels =
      (decode_column_stores patch_offset height column_offsets col file).map
        (fun r => (r.1, replay_stores width file.data pixels
          (r.2.map (fun s => (col, s.1, s.2))))) := by
  unfold decode_column decode_column_stores
  simp only []
  rw [decode_posts_replay, fseek_SET_data]

/-- The column loop is the replay of its stores. -/
theorem decode_columns_replay (patch_offset width height : Int) (column_offsets : List Int) :
    ∀ (n col : Nat) (file : FILE) (pixels : List Nat),
      decode_columns patch_offset width height column_offsets n col file pixels =
        (decode_columns_stores patch_offset height column_offsets n col file).map
          (fun r => (r.1, replay_stores width file.data pixels r.2)) := by
  intro n
  induction n with
  | zero => intro col file pixels; rfl
  | succ n ih =>
    intro col file pixels
    rw [decode_columns, decode_columns_stores, decode_column_replay]
    cases hcs : decode_column_stores patch_offset height column_offsets col file with
    | none => rfl
    | some r =>
      obtain ⟨f1, tr⟩ := r
      have hd : f1.data = file.data := by
        unfold decode_column_stores at hcs
        have := (decode_posts_stores_bounds height _ _ _ _ _ hcs).1
        rw [this, fseek_SET_data]
      simp only [Option.map_some']
      rw [ih, hd]
      cases decode_columns_stores patch_offset height column_offsets n (col + 1) f1 with
      | none => rfl
      | some r2 =>
        simp only [Option.map_some', replay_stores_append]

/-- The stores of the column loop: columns and rows are inside the grid,
every byte stored is a byte of the file, and the stores go through the
cells in strictly increasing order of column, then row. -/
theorem decode_columns_stores_bounds (patch_offset height : Int) (column_offsets : List Int) :
    ∀ (n col : Nat) (file file' : FILE) (stores : List (Nat × Int × Nat)),
      decode_columns_stores patch_offset height column_offsets n col file =
        some (file', stores) →
      file'.data = file.data ∧
      (∀ e ∈ stores, col ≤ e.1 ∧ e.1 < col + n ∧ 0 ≤ e.2.1 ∧ e.2.1 < height ∧
        e.2.2 < file.data.length) ∧
      stores.Pairwise (fun a b => a.1 < b.1 ∨ (a.1 = b.1 ∧ a.2.1 < b.2.1)) := by
  intro n
  induction n with
  | zero =>
    intro col file file' stores h
    simp only [decode_columns_stores, Option.some.injEq, Prod.mk.injEq] at h
    rw [← h.1, ← h.2]
    exact ⟨rfl, fun e he => by simp at he, List.Pairwise.nil⟩
  | succ n ih =>
    intro col file file' stores h
    rw [decode_columns_stores] at h
    cases hcs : decode_column_stores patch_offset height column_offsets col file with
    | none => rw [hcs] at h; simp at h
    | some r =>
      obtain ⟨f1, tr⟩ := r
      rw [hcs] at h
      simp only at h
      cases hrest : decode_columns_stores patch_offset height column_offsets n (col + 1) f1 with
      | none => rw [hrest] at h; simp at h
      | some r2 =>
        obtain ⟨f2, rest⟩ := r2
        rw [hrest] at h
        simp only [Option.some.injEq, Prod.mk.injEq] at h
        unfold decode_column_stores at hcs
        obtain ⟨hd1, hb1, hp1⟩ := decode_posts_stores_bounds height _ _ _ _ _ hcs
        rw [fseek_SET_data] at hd1 hb1
        obtain ⟨hd2, hb2, hp2⟩ := ih _ _ _ _ hrest
        rw [hd1] at hd2 hb2
        rw [← h.1, ← h.2]
        refine ⟨hd2, ?_, ?_⟩
        · intro e he
          rcases List.mem_append.1 he with he | he
          · simp only [List.mem_map] at he
            obtain ⟨s, hs, rfl⟩ := he
            have := hb1 s hs
            simp only
            omega
          · have := hb2 e he
            omega
        · rw [List.pairwise_append]
          refine ⟨?_, hp2, ?_⟩
          · rw [List.pairwise_map]
            exact hp1.imp (fun hab => Or.inr ⟨rfl, hab⟩)
          · intro a ha b hb'
            simp only [List.mem_map] at ha
            obtain ⟨s, hs, rfl⟩ := ha
            have := hb2 b hb'
            left
            simp only
            omega

/-! ## The buffer after a list of stores -/

/-- A cell that no store targets keeps its value. -/
theorem replay_stores_untouched (width : Int) (data : List Nat) (k : Nat) :
    ∀ (l : List (Nat × Int × Nat)) (pixels : List Nat),
      (∀ e ∈ l, (k : Int) ≠ e.2.1 * width + e.1) →
      (replay_stores width data pixels l).getD k 0 = pixels.getD k 0 := by
  intro l
  induction l with
  | nil => intro pixels _; rfl
  | cons s l ih =>
    intro pixels h
    rw [replay_stores_cons, ih _ (fun e he => h e (List.mem_cons_of_mem _ he)),
      pixels_store_getD, if_neg]
    rintro ⟨he, _⟩
    exact h s (List.mem_cons_self _ _) he

/-- A cell holds its old value or the byte of a store that targets it. -/
theorem replay_stores_value (width : Int) (data : List Nat) (k : Nat) :
    ∀ (l : List (Nat × Int × Nat)) (pixels : List Nat),
      (replay_stores width data pixels l).getD k 0 = pixels.getD k 0 ∨
      ∃ e ∈ l, (k : Int) = e.2.1 * width + e.1 ∧
        (replay_stores width data pixels l).getD k 0 = data.getD e.2.2 0 := by
  intro l
  induction l with
  | nil => intro pixels; exact Or.inl rfl
  | cons s l ih =>
    intro pixels
    rw [replay_stores_cons]
    rcases ih (pixels_store pixels (s.2.1 * width + s.1) (data.getD s.2.2 0)) with h | h
    · rw [h, pixels_store_getD]
      by_cases hk : (k : Int) = s.2.1 * width + s.1 ∧ k < pixels.length
      · rw [if_pos hk]
        right
        exact ⟨s, List.mem_cons_self _ _, hk.1, rfl⟩
      · rw [if_neg hk]
        exact Or.inl rfl
    · obtain ⟨e, he, hk, hv⟩ := h
      exact Or.inr ⟨e, List.mem_cons_of_mem _ he, hk, hv⟩

/-- With stores that target pairwise different cells, the cell of a store
holds the byte of that store. -/
theorem replay_stores_stored (width : Int) (data : List Nat) :
    ∀ (l : List (Nat × Int × Nat)) (pixels : List Nat),
      l.Pairwise (fun a b => a.2.1 * width + a.1 ≠ b.2.1 * width + b.1) →
      ∀ e ∈ l, ∀ k : Nat, (k : Int) = e.2.1 * width + e.1 → k < pixels.length →
        (replay_stores width data pixels l).getD k 0 = data.getD e.2.2 0 := by
  intro l
  induction l with
  | nil => intro pixels _ e he; simp at he
  | cons s l ih =>
    intro pixels hpw e he k hk hkl
    rw [List.pairwise_cons] at hpw
    rw [replay_stores_cons]
    rcases List.mem_cons.1 he with he | he
    · subst he
      rw [replay_stores_untouched width data k l _ (fun e' he' => by
        rw [hk]; exact hpw.1 e' he'), pixels_store_getD, if_pos ⟨hk, hkl⟩]
    · exact ih _ hpw.2 e he k hk (by rw [pixels_store_length]; exact hkl)

/-- Two cells of the grid with the same index are the same cell. -/
theorem cell_index_inj (width : Int) (c c' : Nat) (hc : (c : Int) < width)
    (hc' : (c' : Int) < width) (r r' : Int)
    (h : r * width + c = r' * width + c') : c = c' ∧ r = r' := by
  have hcc : c = c' := by
    by_contra hne
    exact cell_index_ne width c c' hc hc' hne r r' h
  subst hcc
  refine ⟨rfl, ?_⟩
  have hw : width ≠ 0 := by omega
  have : r * width = r' * width := by omega
  exact Int.eq_of_mul_eq_mul_right hw this

/-! ## The stores of a decoded patch -/

/-- What a successful prologue returns: the header stored at the position of
the first read, and a stream on the same data. -/
theorem patch_prologue_inv (alloc : Nat → Bool) (file : FILE) (patch_offset : Int)
    (header : DoomPatchHeader) (column_offsets : List Int) (file1 : FILE)
    (h : patch_prologue alloc file patch_offset = some (header, column_offsets, file1)) :
    file1.data = file.data ∧
    header = patch_header_of_bytes
      ((file.data.drop (fseek_SET file patch_offset).2.pos).take 8) := by
  unfold patch_prologue fread at h
  simp only [] at h
  split_ifs at h
  simp only [Option.some.injEq, Prod.mk.injEq] at h
  obtain ⟨h1, _, h3⟩ := h
  rw [fseek_SET_data] at h1 h3
  exact ⟨by rw [← h3], by rw [← h1]⟩

/-- A decoded grid is the replay of the stores of the decoder on a zeroed
buffer of `width * height` cells; the stores stay inside the grid, take
their bytes from the file and go through the cells in strictly increasing
order of column, then row. -/
theorem extract_patch_data_stores (alloc : Nat → Bool) (file : FILE) (patch_offset : Int)
    (width height : Int) (pixels : List Nat) (hbytes : is_byte_stream file.data)
    (hw : 0 < width) (hh : 0 < height)
    (he : extract_patch_data alloc file patch_offset = .ret (some (width, height, pixels))) :
    width < 32768 ∧ height < 32768 ∧
    pixels.length = width.toNat * height.toNat ∧
    pixels = replay_stores width file.data
      (List.replicate (width.toNat * height.toNat) 0) (patch_stores alloc file patch_offset) ∧
    (∀ e ∈ patch_stores alloc file patch_offset,
      (e.1 : Int) < width ∧ 0 ≤ e.2.1 ∧ e.2.1 < height ∧ e.2.2 < file.data.length) ∧
    (patch_stores alloc file patch_offset).Pairwise
      (fun a b => a.1 < b.1 ∨ (a.1 = b.1 ∧ a.2.1 < b.2.1)) := by
  rw [extract_patch_data_eq] at he
  cases hpr : patch_prologue alloc file patch_offset with
  | none => rw [hpr] at he; simp at he
  | some r =>
    obtain ⟨hd, offs, f1⟩ := r
    rw [hpr] at he
    simp only at he
    obtain ⟨hdata, hhdr⟩ := patch_prologue_inv alloc file patch_offset hd offs f1 hpr
    rw [decode_columns_replay] at he
    cases hcs : decode_columns_stores patch_offset hd.height offs hd.width.toNat 0 f1 with
    | none => rw [hcs] at he; simp at he
    | some r2 =>
      obtain ⟨f2, stores⟩ := r2
      rw [hcs] at he
      simp only [Option.map_some', Outcome.ret.injEq, Option.some.injEq, Prod.mk.injEq] at he
      obtain ⟨e1, e2, e3⟩ := he
      have hps : patch_stores alloc file patch_offset = stores := by
        unfold patch_stores
        rw [hpr]
        simp only
        rw [hcs]
      have hrg := patch_header_range file.data hbytes (fseek_SET file patch_offset).2.pos
      rw [← hhdr, e1, e2] at hrg
      have hprod2 : width * height < 2 ^ 64 := by
        have : width * height ≤ 32768 * 32768 :=
          Int.mul_le_mul (by omega) (by omega) (by omega) (by omega)
        omega
      have hpn : to_size_t (width * height) = width.toNat * height.toNat := by
        rw [to_size_t_nonneg _ (by have := Int.mul_pos hw hh; omega) hprod2]
        have e1' : width = (width.toNat : Int) := by omega
        have e2' : height = (height.toNat : Int) := by omega
        have e3' : width * height = ((width.toNat * height.toNat : Nat) : Int) := by
          rw [Nat.cast_mul, ← e1', ← e2']
        rw [e3', Int.toNat_ofNat]
      rw [e1, e2, hpn, hdata] at e3
      obtain ⟨_, hb, hpw⟩ := decode_columns_stores_bounds patch_offset hd.height offs
        hd.width.toNat 0 f1 f2 stores hcs
      rw [hps]
      refine ⟨hrg.2.1, hrg.2.2.2, ?_, e3.symm, ?_, hpw⟩
      · rw [← e3, replay_stores_length, List.length_replicate]
      · intro e hem
        have := hb e hem
        rw [hdata, e1, e2] at this
        omega

/-! ## Cells of a decoded grid -/

/-- C17: for every byte source and every patch header read with positive
width `w` and height `h`, `w * h` fits a signed 32-bit integer, and every
store that `extract_patch_data` performs has a column below `w` and a row
from 0 to `h - 1` (far below the 32-bit limit, also after adding a topdelta
and a length), so its index `row * w + col` lies in `[0, w * h)`: the test
of `pixels_store` holds on every buffer of `w * h` cells and the store is
the in-bounds update. -/
theorem stores_in_bounds (alloc : Nat → Bool) (file : FILE) (patch_offset : Int)
    (header : DoomPatchHeader) (hbytes : is_byte_stream file.data)
    (hhdr : header = patch_header_of_bytes
      ((file.data.drop (fseek_SET file patch_offset).2.pos).take 8))
    (hw : 0 < header.width) (hh : 0 < header.height) :
    header.width * header.height < 2 ^ 31 ∧
    ∀ e ∈ patch_stores alloc file patch_offset,
      (e.1 : Int) < header.width ∧ 0 ≤ e.2.1 ∧ e.2.1 < header.height ∧
      e.2.1 + 255 + 255 < 2 ^ 31 ∧
      0 ≤ e.2.1 * header.width + e.1 ∧
      e.2.1 * header.width + e.1 < header.width * header.height ∧
      ∀ (buffer : List Nat) (v : Nat),
        buffer.length = header.width.toNat * header.height.toNat →
        (0 ≤ e.2.1 * header.width + e.1 ∧
          e.2.1 * header.width + e.1 < buffer.length) ∧
        pixels_store buffer (e.2.1 * header.width + e.1) v =
          buffer.set (e.2.1 * header.width + e.1).toNat v := by
  have hrg := patch_header_range file.data hbytes (fseek_SET file patch_offset).2.pos
  rw [← hhdr] at hrg
  have hprod : header.width * header.height < 2 ^ 31 := by
    have : header.width * header.height ≤ 32768 * 32768 :=
      Int.mul_le_mul (by omega) (by omega) (by omega) (by omega)
    omega
  refine ⟨hprod, ?_⟩
  intro e hem
  cases hpr : patch_prologue alloc file patch_offset with
  | none =>
    unfold patch_stores at hem
    rw [hpr] at hem
    simp at hem
  | some r =>
    obtain ⟨hd, offs, f1⟩ := r
    obtain ⟨_, hhd⟩ := patch_prologue_inv alloc file patch_offset hd offs f1 hpr
    rw [← hhdr] at hhd
    subst hhd
    obtain ⟨_, px, _, he, _⟩ :=
      extract_patch_data_of_prologue alloc file patch_offset hd offs f1 hpr
    obtain ⟨_, _, _, _, hb, _⟩ :=
      extract_patch_data_stores alloc file patch_offset hd.width hd.height px hbytes hw hh he
    obtain ⟨h1, h2, h3, _⟩ := hb e hem
    have hidx0 : 0 ≤ e.2.1 * hd.width + e.1 := by
      have := Int.mul_nonneg h2 (Int.le_of_lt hw)
      omega
    have hidx1 : e.2.1 * hd.width + e.1 < hd.width * hd.height := by
      have : (e.2.1 + 1) * hd.width ≤ hd.height * hd.width :=
        Int.mul_le_mul_of_nonneg_right (by omega) (Int.le_of_lt hw)
      have e1 : (e.2.1 + 1) * hd.width = e.2.1 * hd.width + hd.width := by ring
      have e2 : hd.height * hd.width = hd.width * hd.height := Int.mul_comm _ _
      omega
    refine ⟨h1, h2, h3, by omega, hidx0, hidx1, ?_⟩
    intro buffer v hlen
    have hl : (buffer.length : Int) = hd.width * hd.height := by
      rw [hlen]
      push_cast
      rw [Int.toNat_of_nonneg (by omega), Int.toNat_of_nonneg (by omega)]
    have hg : 0 ≤ e.2.1 * hd.width + e.1 ∧ e.2.1 * hd.width + e.1 < buffer.length := by
      rw [hl]; exact ⟨hidx0, hidx1⟩
    refine ⟨hg, ?_⟩
    unfold pixels_store
    rw [if_pos hg]

/-- C17 at the 2x3 patch `boundary_patch`: the product fits and the store of
column 0, row 1 (the byte at position 18) is in bounds. -/
theorem stores_in_bounds_witness :
    (2 : Int) * 3 < 2 ^ 31 ∧
    (0, (1 : Int), 18) ∈ patch_stores roomy_alloc ⟨boundary_patch, 0⟩ 0 ∧
    (((0 : Nat) : Int) < 2 ∧ (0 : Int) ≤ 1 ∧ (1 : Int) < 3 ∧
      (1 : Int) * 2 + ((0 : Nat) : Int) < 2 * 3) :=
  ⟨(stores_in_bounds roomy_alloc ⟨boundary_patch, 0⟩ 0 ⟨2, 3, 0, 0⟩ (by decide) (by decide)
      (by decide) (by decide)).1,
   by decide,
   let h := (stores_in_bounds roomy_alloc ⟨boundary_patch, 0⟩ 0 ⟨2, 3, 0, 0⟩ (by decide)
      (by decide) (by decide) (by decide)).2 (0, 1, 18) (by decide)
   ⟨h.1, h.2.1, h.2.2.1, h.2.2.2.2.2.1⟩⟩

/-! ## A column whose seek is rejected -/

/-- C19 (the code at the failing input): the offset of column 1 is -1 in
both patches, so its seek is rejected; the two files differ only in the
length byte of the post of column 0, and column 1 of the decoded grid
differs: the byte 7 at row 0 in one, zero in the other. Decoding column 1
on its own gives neither: it depends on where the previous column stopped. -/
theorem column_follows_previous_after_rejected_seek :
    column_start 0 (column_offsets_at stale_patch_a 0 2) 1 = -1 ∧
    column_start 0 (column_offsets_at stale_patch_b 0 2) 1 = -1 ∧
    stale_patch_b = stale_patch_a.set 17 2 ∧
    extract_patch_data roomy_alloc ⟨stale_patch_a, 0⟩ 0 = .ret (some (2, 2, [9, 7, 0, 0])) ∧
    extract_patch_data roomy_alloc ⟨stale_patch_b, 0⟩ 0 = .ret (some (2, 2, [9, 0, 0, 0])) ∧
    column_alone stale_patch_a 0 2 2 (column_offsets_at stale_patch_a 0 2) 1 = [0, 0, 0, 0] := by
  decide

/-! ## The RGB buffer -/

theorem convert_to_rgb_length (DOOM_PALETTE : List (Nat × Nat × Nat)) (pixels : List Nat) :
    ∀ n i, (convert_to_rgb DOOM_PALETTE pixels n i).length = 3 * n := by
  intro n
  induction n with
  | zero => intro i; rfl
  | succ n ih =>
    intro i
    simp only [convert_to_rgb, List.length_cons, ih]
    omega

/-- The three bytes of pixel `i + j` in the converted buffer. -/
theorem convert_to_rgb_getD (DOOM_PALETTE : List (Nat × Nat × Nat)) (pixels : List Nat) :
    ∀ n i j, j < n →
      (convert_to_rgb DOOM_PALETTE pixels n i).getD (3 * j) 0 =
        (doom_index_to_rgb DOOM_PALETTE (pixels.getD (i + j) 0)).1 ∧
      (convert_to_rgb DOOM_PALETTE pixels n i).getD (3 * j + 1) 0 =
        (doom_index_to_rgb DOOM_PALETTE (pixels.getD (i + j) 0)).2.1 ∧
      (convert_to_rgb DOOM_PALETTE pixels n i).getD (3 * j + 2) 0 =
        (doom_index_to_rgb DOOM_PALETTE (pixels.getD (i + j) 0)).2.2 := by
  intro n
  induction n with
  | zero => intro i j hj; omega
  | succ n ih =>
    intro i j hj
    rcases Nat.eq_zero_or_pos j with hj0 | hj0
    · subst hj0
      exact ⟨rfl, rfl, rfl⟩
    · obtain ⟨j', rfl⟩ : ∃ j', j = j' + 1 := ⟨j - 1, by omega⟩
      have := ih (i + 1) j' (by omega)
      rw [show i + 1 + j' = i + (j' + 1) by omega] at this
      simp only [convert_to_rgb]
      rw [show 3 * (j' + 1) = 3 * j' + 1 + 1 + 1 by omega,
        show 3 * j' + 1 + 1 + 1 + 1 = 3 * j' + 1 + 1 + 1 + 1 by rfl]
      simp only [List.getD_cons_succ]
      exact this

/-- For an 8-bit index the mapper returns the entry of a 256-entry table. -/
theorem doom_index_to_rgb_entry (DOOM_PALETTE : List (Nat × Nat × Nat))
    (hpal : DOOM_PALETTE.length = 256) (index : Nat) (hidx : index < 256) :
    DOOM_PALETTE[index]? = some (doom_index_to_rgb DOOM_PALETTE index) := by
  have hlt : index < DOOM_PALETTE.length := by omega
  simp [doom_index_to_rgb, Nat.not_le.2 hidx, List.getD_eq_getElem?_getD,
    List.getElem?_eq_getElem hlt]

theorem read_wad_header_data (file : FILE) (header : WadHeader) (file1 : FILE)
    (h : read_wad_header file = .ret (header, file1)) : file1.data = file.data := by
  unfold read_wad_header fread at h
  simp only [] at h
  split_ifs at h
  simp only [Outcome.ret.injEq, Prod.mk.injEq] at h
  rw [← h.2]

theorem read_directory_entry_data (file : FILE) (offset : Int) (entry : WadDirEntry)
    (file1 : FILE) (h : read_directory_entry file offset = .ret (entry, file1)) :
    file1.data = file.data := by
  unfold read_directory_entry fread at h
  simp only [] at h
  split_ifs at h
  simp only [Outcome.ret.injEq, Prod.mk.injEq] at h
  rw [← h.2]
  exact fseek_SET_data file offset

theorem find_lump_loop_data (directory_offset : Int) (lump_name : List Nat) :
    ∀ (n : Nat) (i : Int) (file : FILE) (entry : WadDirEntry) (file1 : FILE),
      find_lump_loop directory_offset lump_name n i file = .ret (entry, file1) →
      file1.data = file.data := by
  intro n
  induction n with
  | zero =>
    intro i file entry file1 h
    simp only [find_lump_loop, Outcome.ret.injEq, Prod.mk.injEq] at h
    rw [← h.2]
  | succ n ih =>
    intro i file entry file1 h
    rw [find_lump_loop] at h
    cases hr : read_directory_entry file (dir_entry_offset directory_offset i) with
    | ret r =>
      obtain ⟨e, f⟩ := r
      rw [hr] at h
      simp only at h
      have hd := read_directory_entry_data file _ e f hr
      split_ifs at h
      · simp only [Outcome.ret.injEq, Prod.mk.injEq] at h
        rw [← h.2, hd]
      · rw [ih _ _ _ _ h, hd]
    | exit_failure => rw [hr] at h; simp at h
    | out_of_fuel => rw [hr] at h; simp at h

/-- Every cell of a decoded grid is a byte. -/
theorem decoded_cells_are_bytes (alloc : Nat → Bool) (file : FILE) (patch_offset : Int)
    (width height : Int) (pixels : List Nat) (hbytes : is_byte_stream file.data)
    (hw : 0 < width) (hh : 0 < height)
    (he : extract_patch_data alloc file patch_offset = .ret (some (width, height, pixels)))
    (k : Nat) : pixels.getD k 0 < 256 := by
  obtain ⟨_, _, _, hrep, hb, _⟩ :=
    extract_patch_data_stores alloc file patch_offset width height pixels hbytes hw hh he
  rcases replay_stores_value width file.data k (patch_stores alloc file patch_offset)
    (List.replicate (width.toNat * height.toNat) 0) with h | ⟨e, hem, _, hv⟩
  · rw [hrep, h, List.getD_eq_getElem?_getD, List.getElem?_replicate]
    split <;> simp
  · rw [hrep, hv, List.getD_eq_getElem?_getD,
      List.getElem?_eq_getElem (hb e hem).2.2.2]
    exact hbytes _ (List.getElem_mem _)

/-- C11: let `main` read the header, find the `SKY1` entry and decode its
patch to a grid `pixels` of width `w` and height `h`, both positive, and let
the buffer of `w * h * 3` bytes be granted. Then, whatever the JPEG writer
and the world outside are, `main` makes exactly the call
`stbi_write_jpg("sky1.jpeg", w, h, 3, rgb_pixels, 100)` on that world and
ends with the world the call leaves, where `rgb_pixels` has exactly
`3 * w * h` bytes and, for every pixel `i` of the row-major grid, its bytes
`3i`, `3i + 1`, `3i + 2` are the red, green and blue components of the entry
`DOOM_PALETTE[pixels[i]]` of the 256-entry table. -/
theorem rgb_buffer_is_palette_image (alloc : Nat → Bool)
    (DOOM_PALETTE : List (Nat × Nat × Nat)) (file : FILE) (header : WadHeader) (file1 : FILE)
    (sky1_entry : WadDirEntry) (file2 : FILE) (width height : Int) (pixels : List Nat)
    (hpal : DOOM_PALETTE.length = 256) (hbytes : is_byte_stream file.data)
    (h1 : read_wad_header file = .ret (header, file1))
    (h2 : find_lump file1 header.num_lumps header.directory_offset SKY1 =
      .ret (sky1_entry, file2))
    (hsz : sky1_entry.size ≠ -1)
    (h3 : extract_patch_data alloc file2 sky1_entry.filepos =
      .ret (some (width, height, pixels)))
    (hw : 0 < width) (hh : 0 < height)
    (ha : alloc (to_size_t (wrap_int32 (width * height * 3))) = true) :
    ∃ rgb_pixels : List Nat,
      (∀ (World : Type)
        (stbi_write_jpg : List Nat → Int → Int → Nat → List Nat → Nat → World → Bool × World)
        (world : World),
        main alloc DOOM_PALETTE stbi_write_jpg file world =
          .ret (0, (stbi_write_jpg output_filename width height 3 rgb_pixels 100 world).2)) ∧
      pixels.length = width.toNat * height.toNat ∧
      rgb_pixels.length = 3 * (width.toNat * height.toNat) ∧
      ∀ i, i < width.toNat * height.toNat →
        DOOM_PALETTE[pixels.getD i 0]? =
          some (rgb_pixels.getD (3 * i) 0, rgb_pixels.getD (3 * i + 1) 0,
            rgb_pixels.getD (3 * i + 2) 0) := by
  have hm : main_pipeline alloc DOOM_PALETTE file =
      .ret (some (width, height,
        convert_to_rgb DOOM_PALETTE pixels (width * height).toNat 0)) := by
    unfold main_pipeline
    rw [h1]
    simp only
    rw [h2]
    simp only
    rw [if_neg hsz, h3]
    simp only
    rw [if_neg (not_not.2 ha)]
  have hd2 : file2.data = file.data := by
    unfold find_lump at h2
    rw [find_lump_loop_data _ _ _ _ _ _ _ h2, read_wad_header_data _ _ _ h1]
  have hbytes2 : is_byte_stream file2.data := by rw [hd2]; exact hbytes
  obtain ⟨hw15, hh15, hl, _⟩ := extract_patch_data_stores alloc file2 sky1_entry.filepos
    width height pixels hbytes2 hw hh h3
  have hn : (width * height).toNat = width.toNat * height.toNat := by
    have e1 : width = (width.toNat : Int) := by omega
    have e2 : height = (height.toNat : Int) := by omega
    have e3 : width * height = ((width.toNat * height.toNat : Nat) : Int) := by
      rw [Nat.cast_mul, ← e1, ← e2]
    rw [e3, Int.toNat_ofNat]
  refine ⟨convert_to_rgb DOOM_PALETTE pixels (width * height).toNat 0, ?_, hl, ?_, ?_⟩
  · intro World stbi_write_jpg world
    unfold main
    rw [hm]
    simp only
    split <;> rfl
  · rw [convert_to_rgb_length, hn]
  · intro i hi
    have hv := decoded_cells_are_bytes alloc file2 sky1_entry.filepos width height pixels
      hbytes2 hw hh h3 i
    obtain ⟨c1, c2, c3⟩ := convert_to_rgb_getD DOOM_PALETTE pixels (width * height).toNat 0 i
      (by rw [hn]; exact hi)
    rw [Nat.zero_add] at c1 c2 c3
    rw [c1, c2, c3, doom_index_to_rgb_entry DOOM_PALETTE hpal _ hv]

/-- C11 at the synthetic archive and `sample_palette`, with a writer that
records its calls: `main` makes one call, with the name `"sky1.jpeg"`, width
2, height 2, 3 channels and quality 100; the buffer has 12 bytes and its
first three are the entry 1 of the palette, the index of pixel 0. -/
theorem rgb_buffer_is_palette_image_witness :
    ∃ rgb_pixels : List Nat,
      main roomy_alloc sample_palette recording_writer ⟨sky_archive, 0⟩ [] =
        .ret (0, [(output_filename, 2, 2, 3, rgb_pixels, 100)]) ∧
      rgb_pixels.length = 12 ∧
      sample_palette[1]? =
        some (rgb_pixels.getD 0 0, rgb_pixels.getD 1 0, rgb_pixels.getD 2 0) :=
  (rgb_buffer_is_palette_image roomy_alloc sample_palette ⟨sky_archive, 0⟩
    { type := [80, 87, 65, 68], num_lumps := 1, directory_offset := 40 } ⟨sky_archive, 12⟩
    { filepos := 12, size := 28, name := [83, 75, 89, 49, 0, 0, 0, 0] } ⟨sky_archive, 56⟩
    2 2 [1, 3, 2, 4] (by simp [sample_palette]) (by decide) (by decide) (by decide)
    (by decide) (by decide) (by decide) (by decide) (by decide)).imp
    (fun _ h => ⟨h.1 _ recording_writer [], h.2.2.1, h.2.2.2 0 (by decide)⟩)

/-! ## Each cell is stored at most once -/

/-- At the end of the decode the cell of every store holds the byte of that
store: no later store targets the same cell. -/
theorem patch_stores_value (alloc : Nat → Bool) (file : FILE) (patch_offset : Int)
    (width height : Int) (pixels : List Nat) (hbytes : is_byte_stream file.data)
    (hw : 0 < width) (hh : 0 < height)
    (he : extract_patch_data alloc file patch_offset = .ret (some (width, height, pixels))) :
    (patch_stores alloc file patch_offset).Pairwise
      (fun a b => a.2.1 * width + a.1 ≠ b.2.1 * width + b.1) ∧
    ∀ e ∈ patch_stores alloc file patch_offset, ∀ k : Nat,
      (k : Int) = e.2.1 * width + e.1 → pixels.getD k 0 = file.data.getD e.2.2 0 := by
  obtain ⟨_, _, hl, hrep, hb, hpw⟩ :=
    extract_patch_data_stores alloc file patch_offset width height pixels hbytes hw hh he
  have hpw' : (patch_stores alloc file patch_offset).Pairwise
      (fun a b => a.2.1 * width + a.1 ≠ b.2.1 * width + b.1) := by
    refine List.Pairwise.imp_of_mem ?_ hpw
    intro a b ha hb' hab heq
    obtain ⟨h1, h2⟩ := cell_index_inj width a.1 b.1 (hb a ha).1 (hb b hb').1 a.2.1 b.2.1 heq
    omega
  refine ⟨hpw', ?_⟩
  intro e hem k hk
  rw [hrep]
  refine replay_stores_stored width file.data _ _ hpw' e hem k hk ?_
  rw [List.length_replicate]
  obtain ⟨h1, h2, h3, _⟩ := hb e hem
  have hidx1 : e.2.1 * width + e.1 < width * height := by
    have : (e.2.1 + 1) * width ≤ height * width :=
      Int.mul_le_mul_of_nonneg_right (by omega) (Int.le_of_lt hw)
    have e1 : (e.2.1 + 1) * width = e.2.1 * width + width := by ring
    have e2 : height * width = width * height := Int.mul_comm _ _
    omega
  have hcast : ((width.toNat * height.toNat : Nat) : Int) = width * height := by
    push_cast
    rw [Int.toNat_of_nonneg (by omega), Int.toNat_of_nonneg (by omega)]
  omega

/-- In the stores of the column loop, the stores of a column whose seek is
accepted are the stores of that column decoded on its own. -/
theorem decode_columns_stores_column (patch_offset height : Int) (column_offsets : List Int) :
    ∀ (n col : Nat) (file file' : FILE) (stores : List (Nat × Int × Nat)),
      decode_columns_stores patch_offset height column_offsets n col file =
        some (file', stores) →
      ∀ c : Nat, col ≤ c → c < col + n →
        0 ≤ column_start patch_offset column_offsets c →
        ∀ (f2 : FILE) (tr : List (Int × Nat)),
          decode_column_stores patch_offset height column_offsets c ⟨file.data, 0⟩ =
            some (f2, tr) →
          ∀ s : Int × Nat, (c, s.1, s.2) ∈ stores ↔ s ∈ tr := by
  intro n
  induction n with
  | zero => intro col file file' stores _ c h1 h2; omega
  | succ n ih =>
    intro col file file' stores h c hc1 hc2 hs f2 tr htr s
    rw [decode_columns_stores] at h
    cases hcs : decode_column_stores patch_offset height column_offsets col file with
    | none => rw [hcs] at h; simp at h
    | some r =>
      obtain ⟨f1, tr1⟩ := r
      rw [hcs] at h
      simp only at h
      cases hrest : decode_columns_stores patch_offset height column_offsets n (col + 1) f1 with
      | none => rw [hrest] at h; simp at h
      | some r2 =>
        obtain ⟨f3, rest⟩ := r2
        rw [hrest] at h
        simp only [Option.some.injEq, Prod.mk.injEq] at h
        rw [← h.2, List.mem_append]
        have hd1 : f1.data = file.data := by
          unfold decode_column_stores at hcs
          rw [(decode_posts_stores_bounds height _ _ _ _ _ hcs).1, fseek_SET_data]
        obtain ⟨_, hb2, _⟩ := decode_columns_stores_bounds patch_offset height column_offsets
          n (col + 1) f1 f3 rest hrest
        by_cases hcc : c = col
        · subst hcc
          have heq : tr1 = tr := by
            unfold decode_column_stores at hcs htr
            rw [fseek_SET_pos _ _ hs] at hcs htr
            simp only at hcs htr
            rw [hcs] at htr
            simp only [Option.some.injEq, Prod.mk.injEq] at htr
            exact htr.2
          rw [← heq]
          constructor
          · rintro (hm | hm)
            · simp only [List.mem_map, Prod.mk.injEq, true_and] at hm
              obtain ⟨s', hs', e1, e2⟩ := hm
              have : s' = s := Prod.ext e1 e2
              rw [← this]; exact hs'
            · have := (hb2 _ hm).1
              simp only at this
              omega
          · intro hm
            left
            exact List.mem_map.2 ⟨s, hm, rfl⟩
        · have hiff := ih (col + 1) f1 f3 rest hrest c (by omega) (by omega) hs f2 tr
            (by rw [hd1]; exact htr) s
          rw [← hiff]
          constructor
          · rintro (hm | hm)
            · simp only [List.mem_map, Prod.mk.injEq] at hm
              obtain ⟨_, _, e1, _⟩ := hm
              exact absurd e1.symm hcc
            · exact hm
          · intro hm; exact Or.inr hm

/-! ## Columns made of several posts -/

theorem post_bytes_length (p : Nat × List Nat × Nat) :
    (post_bytes p).length = p.2.1.length + 3 := by
  simp [post_bytes]

/-- The first post of a sequence present at `q`: its header and data bytes,
and the rest of the sequence after it. -/
theorem bytes_at_cons (data : List Nat) (q : Nat) (p : Nat × List Nat × Nat)
    (ps : List (Nat × List Nat × Nat)) (h : bytes_at data q (posts_bytes (p :: ps))) :
    q + 2 + p.2.1.length + 1 ≤ data.length ∧
    data.getD q 0 = p.1 ∧ data.getD (q + 1) 0 = p.2.1.length ∧
    (∀ j, j < p.2.1.length → data.getD (q + 2 + j) 0 = p.2.1.getD j 0) ∧
    bytes_at data (q + p.2.1.length + 3) (posts_bytes ps) := by
  obtain ⟨hl, hd⟩ := h
  simp only [posts_bytes, List.length_append, post_bytes_length] at hl hd
  refine ⟨by omega, ?_, ?_, ?_, ⟨by omega, ?_⟩⟩
  · have := hd 0 (by omega)
    rw [Nat.add_zero, List.getD_append _ _ _ _ (by rw [post_bytes_length]; omega)] at this
    rw [this]; rfl
  · have := hd 1 (by omega)
    rw [List.getD_append _ _ _ _ (by rw [post_bytes_length]; omega)] at this
    rw [this]; rfl
  · intro j hj
    have := hd (2 + j) (by omega)
    rw [List.getD_append _ _ _ _ (by rw [post_bytes_length]; omega)] at this
    rw [Nat.add_assoc, this]
    unfold post_bytes
    rw [show 2 + j = j + 1 + 1 by omega, List.getD_cons_succ, List.getD_cons_succ,
      List.getD_append _ _ _ _ hj]
  · intro i hi
    have := hd (p.2.1.length + 3 + i) (by omega)
    rw [List.getD_append_right _ _ _ _ (by rw [post_bytes_length]; omega),
      post_bytes_length, show p.2.1.length + 3 + i - (p.2.1.length + 3) = i by omega] at this
    rw [Nat.add_assoc, Nat.add_assoc, ← Nat.add_assoc (p.2.1.length)]
    exact this

/-- Every data byte of every post of a fitting sequence is stored, at the
row and from the position the sequence gives. -/
theorem decode_posts_stores_chain_mem (height : Int) (data : List Nat) :
    ∀ (ps : List (Nat × List Nat × Nat)) (q : Nat) (cursor : Int) (fuel : Nat)
      (file' : FILE) (tr : List (Int × Nat)),
      bytes_at data q (posts_bytes ps) → (∀ p ∈ ps, p.1 ≠ 255) → 0 ≤ cursor →
      (∀ k, k < ps.length →
        cursor + (post_row ps k : Int) + ((ps.getD k (0, [], 0)).2.1.length : Int) ≤ height) →
      decode_posts_stores height fuel ⟨data, q⟩ cursor = some (file', tr) →
      ∀ k, k < ps.length → ∀ j, j < (ps.getD k (0, [], 0)).2.1.length →
        (cursor + (post_row ps k : Int) + (j : Int), q + post_offset ps k + 2 + j) ∈ tr := by
  intro ps
  induction ps with
  | nil => intro q cursor fuel file' tr _ _ _ _ _ k hk; simp at hk
  | cons p ps ih =>
    intro q cursor fuel file' tr hb ht hc hfit hdec k hk j hj
    obtain ⟨hlen, h0, h1, hdat, hrest⟩ := bytes_at_cons data q p ps hb
    cases fuel with
    | zero => simp [decode_posts_stores] at hdec
    | succ fuel =>
      have hfit0 := hfit 0 (by simp)
      simp only [post_row, List.getD_cons_zero] at hfit0
      by_cases hrow : cursor < height
      · rw [decode_posts_stores_continue height fuel ⟨data, q⟩ cursor hrow
          (by simp only; omega) (by simp only; rw [h0]; exact ht p (List.mem_cons_self _ _))
          (by simp only; rw [h0, h1]; exact hfit0)] at hdec
        simp only [h0, h1] at hdec
        rw [show min p.2.1.length (data.length - (q + 2)) = p.2.1.length by omega] at hdec
        cases hrec : decode_posts_stores height fuel ⟨data, q + 2 + p.2.1.length + 1⟩
          (cursor + (p.1 : Int) + (p.2.1.length : Int)) with
        | none => rw [hrec] at hdec; simp at hdec
        | some r =>
          obtain ⟨f1, rest⟩ := r
          rw [hrec] at hdec
          simp only [Option.some.injEq, Prod.mk.injEq] at hdec
          rw [← hdec.2, List.mem_append]
          cases k with
          | zero =>
            left
            simp only [List.getD_cons_zero] at hj
            simp only [post_row, post_offset, List.mem_map, List.mem_range]
            exact ⟨j, hj, by simp⟩
          | succ k =>
            right
            simp only [List.getD_cons_succ] at hj
            have := ih (q + p.2.1.length + 3) (cursor + (p.1 : Int) + (p.2.1.length : Int))
              fuel f1 rest hrest (fun p' hp' => ht p' (List.mem_cons_of_mem _ hp'))
              (by omega)
              (fun k' hk' => by
                have := hfit (k' + 1) (by simpa using hk')
                simp only [post_row, List.getD_cons_succ] at this
                push_cast at this
                omega)
              (by rw [show q + p.2.1.length + 3 = q + 2 + p.2.1.length + 1 by omega]
                  exact hrec)
              k (by simpa using hk) j hj
            simp only [post_row, post_offset]
            push_cast
            have e1 : cursor + ((p.1 : Int) + (p.2.1.length : Int) + (post_row ps k : Int)) +
                (j : Int) =
                cursor + (p.1 : Int) + (p.2.1.length : Int) + (post_row ps k : Int) + (j : Int) := by
              ring
            have e2 : q + (p.2.1.length + 3 + post_offset ps k) + 2 + j =
                q + p.2.1.length + 3 + post_offset ps k + 2 + j := by omega
            rw [e1, e2]
            exact this
      · exfalso
        have := hfit k hk
        have hpr : (0 : Int) ≤ (post_row (p :: ps) k : Int) := Int.ofNat_nonneg _
        omega

theorem posts_bytes_cons_length (p : Nat × List Nat × Nat) (ps : List (Nat × List Nat × Nat)) :
    (posts_bytes (p :: ps)).length = p.2.1.length + 3 + (posts_bytes ps).length := by
  simp only [posts_bytes, List.length_append, post_bytes_length]

/-- The post loop on a sequence of complete posts that end above the last
row: it stores the bytes of the posts in order and goes on after the last
pad byte, with the row cursor advanced by every topdelta and length. -/
theorem decode_posts_stores_chain (height : Int) (data : List Nat) :
    ∀ (ps : List (Nat × List Nat × Nat)) (q : Nat) (cursor : Int) (fuel : Nat),
      bytes_at data q (posts_bytes ps) → (∀ p ∈ ps, p.1 ≠ 255) → 0 ≤ cursor →
      cursor + (posts_rows ps : Int) < height →
      decode_posts_stores height (fuel + ps.length) ⟨data, q⟩ cursor =
        match decode_posts_stores height fuel ⟨data, q + (posts_bytes ps).length⟩
          (cursor + (posts_rows ps : Int)) with
        | none => none
        | some (file', rest) => some (file', chain_stores ps q cursor ++ rest) := by
  intro ps
  induction ps with
  | nil =>
    intro q cursor fuel _ _ _ _
    simp only [posts_bytes, posts_rows, chain_stores, List.length_nil, Nat.add_zero,
      Nat.cast_zero, Int.add_zero, List.nil_append]
    cases decode_posts_stores height fuel ⟨data, q⟩ cursor with
    | none => rfl
    | some r => rfl
  | cons p ps ih =>
    intro q cursor fuel hb ht hc hfit
    obtain ⟨hlen, h0, h1, hdat, hrest⟩ := bytes_at_cons data q p ps hb
    simp only [posts_rows] at hfit
    push_cast at hfit
    have hpr : (0 : Int) ≤ (posts_rows ps : Int) := Int.ofNat_nonneg _
    rw [List.length_cons, ← Nat.add_assoc,
      decode_posts_stores_continue height (fuel + ps.length) ⟨data, q⟩ cursor (by omega)
        (by simp only; omega) (by simp only; rw [h0]; exact ht p (List.mem_cons_self _ _))
        (by simp only; rw [h0, h1]; omega)]
    simp only [h0, h1]
    rw [show min p.2.1.length (data.length - (q + 2)) = p.2.1.length by omega,
      show q + 2 + p.2.1.length + 1 = q + p.2.1.length + 3 by omega,
      ih (q + p.2.1.length + 3) (cursor + (p.1 : Int) + (p.2.1.length : Int)) fuel hrest
        (fun p' hp' => ht p' (List.mem_cons_of_mem _ hp')) (by omega) (by omega),
      posts_bytes_cons_length,
      show q + p.2.1.length + 3 + (posts_bytes ps).length =
        q + (p.2.1.length + 3 + (posts_bytes ps).length) by omega]
    simp only [posts_rows, chain_stores]
    push_cast
    rw [show cursor + ((p.1 : Int) + (p.2.1.length : Int) + (posts_rows ps : Int)) =
      cursor + (p.1 : Int) + (p.2.1.length : Int) + (posts_rows ps : Int) by ring]
    cases decode_posts_stores height fuel
      ⟨data, q + (p.2.1.length + 3 + (posts_bytes ps).length)⟩
      (cursor + (p.1 : Int) + (p.2.1.length : Int) + (posts_rows ps : Int)) with
    | none => rfl
    | some r => simp only [List.append_assoc]

/-- The post loop at a post that fits but whose data bytes end with the
byte source after `k` of them: the `k` bytes are stored and the loop stops
at its next pass, the header read after the skipped pad byte being short. -/
theorem decode_posts_stores_short_post (height : Int) (data : List Nat) (q : Nat) (cursor : Int)
    (fuel t L k : Nat) (hlen : data.length = q + 2 + k)
    (h0 : data.getD q 0 = t) (h1 : data.getD (q + 1) 0 = L) (ht : t ≠ 255) (hk : k < L)
    (hfit : cursor + (t : Int) + (L : Int) ≤ height) :
    ∃ file', decode_posts_stores height (fuel + 2) ⟨data, q⟩ cursor =
      some (file', (List.range k).map
        (fun (j : Nat) => (cursor + (t : Int) + (j : Int), q + 2 + j))) := by
  rw [decode_posts_stores_continue height (fuel + 1) ⟨data, q⟩ cursor (by omega)
    (by simp only; omega) (by simp only; rw [h0]; exact ht)
    (by simp only; rw [h0, h1]; exact hfit)]
  simp only [h0, h1]
  rw [show min L (data.length - (q + 2)) = k by omega]
  obtain ⟨f', _, hstop⟩ := decode_posts_stores_stop height fuel ⟨data, q + 2 + k + 1⟩
    (cursor + (t : Int) + (k : Int)) (by simp only; omega)
  rw [hstop]
  exact ⟨f', by simp⟩

/-! ## The stores of one column of a readable patch -/

/-- On a readable patch the stores of the decoder are those of the column
loop, run from the end of the offset table. -/
theorem patch_stores_readable (alloc : Nat → Bool) (file : FILE) (patch_offset : Int)
    (header : DoomPatchHeader) (hbytes : is_byte_stream file.data)
    (hr : patch_readable alloc file.data patch_offset header) :
    ∃ file', decode_columns_stores patch_offset header.height
        (column_offsets_at file.data patch_offset.toNat header.width.toNat)
        header.width.toNat 0 ⟨file.data, patch_offset.toNat + 8 + 4 * header.width.toNat⟩ =
      some (file', patch_stores alloc file patch_offset) := by
  have hs := patch_readable_sizes alloc file.data patch_offset header hbytes hr
  obtain ⟨hp, hhdr, hw, hh, ht, ha1, ha2⟩ := hr
  obtain ⟨_, _, hwn, hpn, hmul⟩ := hs
  have hmod : header.width.toNat * 4 % 2 ^ 64 = 4 * header.width.toNat := by
    rw [Nat.mod_eq_of_lt (by omega)]; omega
  have hpro := patch_prologue_some alloc file patch_offset patch_offset.toNat header
    (by rw [fseek_SET_pos file patch_offset hp]) hhdr (by omega)
    (by rw [hpn]; exact ha1) (by rw [hwn, hmod]; exact ha2) (by rw [hwn]; exact ht)
  rw [hwn] at hpro
  obtain ⟨f1, p1, hd, _, _⟩ := decode_columns_returns patch_offset header.width header.height
    (column_offsets_at file.data patch_offset.toNat header.width.toNat) header.width.toNat 0
    ⟨file.data, patch_offset.toNat + 8 + 4 * header.width.toNat⟩ []
  rw [decode_columns_replay] at hd
  unfold patch_stores
  rw [hpro]
  simp only []
  unfold column_offsets_at at hd ⊢
  cases hcs : decode_columns_stores patch_offset header.height
      (int32_array header.width.toNat
        ((file.data.drop (patch_offset.toNat + 8)).take (4 * header.width.toNat)))
      header.width.toNat 0 ⟨file.data, patch_offset.toNat + 8 + 4 * header.width.toNat⟩ with
  | none => rw [hcs] at hd; simp at hd
  | some r => exact ⟨r.1, rfl⟩

/-- On a readable patch the stores of a column whose seek is accepted are
those of the post loop run from the start of the column with the row cursor
at 0. -/
theorem patch_column_stores (alloc : Nat → Bool) (file : FILE) (patch_offset : Int)
    (header : DoomPatchHeader) (hbytes : is_byte_stream file.data)
    (hr : patch_readable alloc file.data patch_offset header) (c : Nat)
    (hc : (c : Int) < header.width)
    (hs : 0 ≤ column_start patch_offset
      (column_offsets_at file.data patch_offset.toNat header.width.toNat) c) :
    ∃ f2 tr, decode_posts_stores header.height (file.data.length + 2)
        ⟨file.data, (column_start patch_offset
          (column_offsets_at file.data patch_offset.toNat header.width.toNat) c).toNat⟩ 0 =
          some (f2, tr) ∧
      ∀ s : Int × Nat, (c, s.1, s.2) ∈ patch_stores alloc file patch_offset ↔ s ∈ tr := by
  obtain ⟨f1, hcols⟩ := patch_stores_readable alloc file patch_offset header hbytes hr
  obtain ⟨f2, p2, hd, _, _⟩ := decode_column_returns patch_offset header.width header.height
    (column_offsets_at file.data patch_offset.toNat header.width.toNat) c ⟨file.data, 0⟩ []
  rw [decode_column_replay] at hd
  cases hcs : decode_column_stores patch_offset header.height
      (column_offsets_at file.data patch_offset.toNat header.width.toNat) c ⟨file.data, 0⟩ with
  | none => rw [hcs] at hd; simp at hd
  | some r =>
    obtain ⟨f3, tr⟩ := r
    refine ⟨f3, tr, ?_, ?_⟩
    · unfold decode_column_stores at hcs
      rw [fseek_SET_pos _ _ hs] at hcs
      exact hcs
    · exact decode_columns_stores_column patch_offset header.height _ header.width.toNat 0 _ f1 _
        hcols c (by omega) (by omega) hs f3 tr hcs

/-- The cells of a column of a decoded grid, from the stores of the column:
the cell of a store holds the byte of the store, and a cell of the column
that no store of the column targets is 0. -/
theorem patch_column_cells (alloc : Nat → Bool) (file : FILE) (patch_offset : Int)
    (width height : Int) (pixels : List Nat) (hbytes : is_byte_stream file.data)
    (hw : 0 < width) (hh : 0 < height)
    (he : extract_patch_data alloc file patch_offset = .ret (some (width, height, pixels)))
    (c : Nat) (hc : (c : Int) < width) (tr : List (Int × Nat))
    (htr : ∀ s : Int × Nat, (c, s.1, s.2) ∈ patch_stores alloc file patch_offset ↔ s ∈ tr) :
    (∀ s ∈ tr, ∀ r : Nat, (r : Int) = s.1 →
      pixels.getD (r * width.toNat + c) 0 = file.data.getD s.2 0) ∧
    (∀ r : Nat, (∀ s ∈ tr, s.1 ≠ (r : Int)) → pixels.getD (r * width.toNat + c) 0 = 0) := by
  obtain ⟨_, _, hl, hrep, hb, _⟩ :=
    extract_patch_data_stores alloc file patch_offset width height pixels hbytes hw hh he
  obtain ⟨_, hval⟩ :=
    patch_stores_value alloc file patch_offset width height pixels hbytes hw hh he
  have hidx : ∀ r : Nat, ((r * width.toNat + c : Nat) : Int) = (r : Int) * width + c := by
    intro r
    push_cast
    rw [Int.toNat_of_nonneg (by omega)]
  constructor
  · intro s hs r hr
    have := hval (c, s.1, s.2) ((htr s).2 hs) (r * width.toNat + c)
      (by rw [hidx, hr])
    exact this
  · intro r hno
    rw [hrep, replay_stores_untouched width file.data (r * width.toNat + c) _ _ ?_,
      List.getD_eq_getElem?_getD, List.getElem?_replicate]
    · split <;> rfl
    · intro e hem hk
      rw [hidx] at hk
      obtain ⟨hce, hre⟩ := cell_index_inj width c e.1 hc (hb e hem).1 (r : Int) e.2.1 hk
      have hmem : (c, e.2.1, e.2.2) ∈ patch_stores alloc file patch_offset := by
        rw [hce]; exact hem
      exact hno (e.2.1, e.2.2) ((htr (e.2.1, e.2.2)).1 hmem) hre.symm

/-! ## Positions and rows of the posts of a sequence -/

/-- The header of the first post is at the start of the column and its
first row is its topdelta. -/
theorem post_first (p : Nat × List Nat × Nat) (ps : List (Nat × List Nat × Nat)) :
    post_offset (p :: ps) 0 = 0 ∧ post_row (p :: ps) 0 = p.1 := ⟨rfl, rfl⟩

/-- From a post to the next: the header moves by the length of the post plus
3, the first row by the length of the post plus the next topdelta. -/
theorem post_next : ∀ (ps : List (Nat × List Nat × Nat)) (k : Nat), k + 1 < ps.length →
    post_offset ps (k + 1) = post_offset ps k + ((ps.getD k (0, [], 0)).2.1.length + 3) ∧
    post_row ps (k + 1) =
      post_row ps k + (ps.getD k (0, [], 0)).2.1.length + (ps.getD (k + 1) (0, [], 0)).1 := by
  intro ps
  induction ps with
  | nil => intro k hk; simp at hk
  | cons p ps ih =>
    intro k hk
    cases k with
    | zero =>
      cases ps with
      | nil => simp at hk
      | cons p' ps' =>
        simp only [post_offset, post_row, List.getD_cons_zero, List.getD_cons_succ]
        exact ⟨by omega, trivial⟩
    | succ k =>
      obtain ⟨h1, h2⟩ := ih k (by simpa using hk)
      simp only [post_offset, post_row, List.getD_cons_succ]
      rw [h1, h2]
      omega

/-- The bytes of post `k` of a sequence present at `q`: its header at
`q + post_offset ps k` and its data after the header. -/
theorem bytes_at_post (data : List Nat) :
    ∀ (ps : List (Nat × List Nat × Nat)) (q : Nat), bytes_at data q (posts_bytes ps) →
      ∀ k, k < ps.length →
        data.getD (q + post_offset ps k) 0 = (ps.getD k (0, [], 0)).1 ∧
        data.getD (q + post_offset ps k + 1) 0 = (ps.getD k (0, [], 0)).2.1.length ∧
        ∀ j, j < (ps.getD k (0, [], 0)).2.1.length →
          data.getD (q + post_offset ps k + 2 + j) 0 = (ps.getD k (0, [], 0)).2.1.getD j 0 := by
  intro ps
  induction ps with
  | nil => intro q _ k hk; simp at hk
  | cons p ps ih =>
    intro q hb k hk
    obtain ⟨_, h0, h1, hdat, hrest⟩ := bytes_at_cons data q p ps hb
    cases k with
    | zero =>
      simp only [post_offset, List.getD_cons_zero, Nat.add_zero]
      exact ⟨h0, h1, hdat⟩
    | succ k =>
      have := ih (q + p.2.1.length + 3) hrest k (by simpa using hk)
      simp only [post_offset, List.getD_cons_succ]
      rw [show q + (p.2.1.length + 3 + post_offset ps k) =
        q + p.2.1.length + 3 + post_offset ps k by omega]
      exact this

theorem posts_bytes_length_ge : ∀ ps : List (Nat × List Nat × Nat),
    ps.length ≤ (posts_bytes ps).length := by
  intro ps
  induction ps with
  | nil => simp [posts_bytes]
  | cons p ps ih => rw [posts_bytes_cons_length, List.length_cons]; omega

/-- The stores of a sequence of posts stay between the row cursor at its
start and the row cursor after it. -/
theorem chain_stores_rows : ∀ (ps : List (Nat × List Nat × Nat)) (q : Nat) (cursor : Int),
    ∀ s ∈ chain_stores ps q cursor, cursor ≤ s.1 ∧ s.1 < cursor + (posts_rows ps : Int) := by
  intro ps
  induction ps with
  | nil => intro q cursor s hs; simp [chain_stores] at hs
  | cons p ps ih =>
    intro q cursor s hs
    simp only [chain_stores, List.mem_append, List.mem_map, List.mem_range] at hs
    simp only [posts_rows]
    push_cast
    have hpr : (0 : Int) ≤ (posts_rows ps : Int) := Int.ofNat_nonneg _
    rcases hs with ⟨j, hj, rfl⟩ | hs
    · simp only
      omega
    · have := ih _ _ s hs
      omega

/-! ## Multi-post columns -/

/-- C13: on a readable patch, for every column `c` whose seek is accepted
and whose data, from the column start `start`, is a sequence `ps` of posts
`(t_k, L_k, d_k, pad)` with no topdelta `0xFF` and every post fitting
(`s_k + L_k <= height`), `extract_patch_data` returns a grid in which, for
every post `k` and every `j < L_k`, the byte `d_k[j]`, read at position
`start + o_k + 2 + j`, is stored at row `s_k + j` of column `c`. Here the
header of post `k` is at `start + o_k` with `o_0 = 0` and
`o_(k+1) = o_k + (L_k + 3)` (the two header bytes, the data and one pad
byte), and `s_0 = t_0`, `s_(k+1) = s_k + L_k + t_(k+1)`: the topdelta is added
to the row cursor left after the last pixel of the previous post. -/
theorem multi_post_column_running_cursor (alloc : Nat → Bool) (file : FILE)
    (patch_offset : Int) (header : DoomPatchHeader) (c start : Nat)
    (ps : List (Nat × List Nat × Nat)) (hbytes : is_byte_stream file.data)
    (hr : patch_readable alloc file.data patch_offset header)
    (hc : (c : Int) < header.width)
    (hs : column_start patch_offset
      (column_offsets_at file.data patch_offset.toNat header.width.toNat) c = (start : Int))
    (hcol : bytes_at file.data start (posts_bytes ps))
    (ht : ∀ p ∈ ps, p.1 ≠ 255)
    (hfit : ∀ k, k < ps.length →
      (post_row ps k : Int) + ((ps.getD k (0, [], 0)).2.1.length : Int) ≤ header.height) :
    ∃ pixels, extract_patch_data alloc file patch_offset =
        .ret (some (header.width, header.height, pixels)) ∧
      (0 < ps.length → post_offset ps 0 = 0 ∧ post_row ps 0 = (ps.getD 0 (0, [], 0)).1) ∧
      (∀ k, k + 1 < ps.length →
        post_offset ps (k + 1) = post_offset ps k + ((ps.getD k (0, [], 0)).2.1.length + 3) ∧
        post_row ps (k + 1) = post_row ps k + (ps.getD k (0, [], 0)).2.1.length +
          (ps.getD (k + 1) (0, [], 0)).1) ∧
      ∀ k, k < ps.length →
        file.data.getD (start + post_offset ps k) 0 = (ps.getD k (0, [], 0)).1 ∧
        file.data.getD (start + post_offset ps k + 1) 0 = (ps.getD k (0, [], 0)).2.1.length ∧
        ∀ j, j < (ps.getD k (0, [], 0)).2.1.length →
          (c, ((post_row ps k + j : Nat) : Int), start + post_offset ps k + 2 + j) ∈
            patch_stores alloc file patch_offset ∧
          pixels.getD ((post_row ps k + j) * header.width.toNat + c) 0 =
            (ps.getD k (0, [], 0)).2.1.getD j 0 := by
  obtain ⟨f', pixels, _, he, _⟩ :=
    extract_patch_data_readable alloc file patch_offset header hbytes hr
  have hw : 0 < header.width := hr.2.2.1
  have hh : 0 < header.height := hr.2.2.2.1
  obtain ⟨f2, tr, hdec, htr⟩ := patch_column_stores alloc file patch_offset header hbytes hr c hc
    (by rw [hs]; exact Int.ofNat_nonneg _)
  rw [hs, Int.toNat_ofNat] at hdec
  obtain ⟨hcell, _⟩ := patch_column_cells alloc file patch_offset header.width header.height
    pixels hbytes hw hh he c hc tr htr
  refine ⟨pixels, he, ?_, post_next ps, ?_⟩
  · intro h0
    cases ps with
    | nil => simp at h0
    | cons p ps => exact ⟨rfl, rfl⟩
  intro k hk
  obtain ⟨hb0, hb1, hbd⟩ := bytes_at_post file.data ps start hcol k hk
  refine ⟨hb0, hb1, ?_⟩
  intro j hj
  have hmem := decode_posts_stores_chain_mem header.height file.data ps start 0
    (file.data.length + 2) f2 tr hcol ht (le_refl _)
    (fun k' hk' => by have := hfit k' hk'; omega) hdec k hk j hj
  have hrow : (0 : Int) + (post_row ps k : Int) + (j : Int) = ((post_row ps k + j : Nat) : Int) := by
    push_cast; omega
  rw [hrow] at hmem
  refine ⟨(htr _).2 hmem, ?_⟩
  rw [hcell _ hmem (post_row ps k + j) rfl]
  exact hbd j hj

/-- C13 at the 1x6 patch `tall_patch`, whose column holds the posts
`(1, [5, 6])` and `(1, [7])`: the byte 7 of the second post, read at position
19, is stored at row 4 = 1 + 2 + 1. -/
theorem multi_post_column_running_cursor_witness :
    ∃ pixels, extract_patch_data roomy_alloc ⟨tall_patch, 0⟩ 0 = .ret (some (1, 6, pixels)) ∧
      (0, (4 : Int), 19) ∈ patch_stores roomy_alloc ⟨tall_patch, 0⟩ 0 ∧
      pixels.getD 4 0 = 7 :=
  (multi_post_column_running_cursor roomy_alloc ⟨tall_patch, 0⟩ 0 ⟨1, 6, 0, 0⟩ 0 12
    [(1, [5, 6], 0), (1, [7], 0)] (by decide) (by decide) (by decide) (by decide) (by decide)
    (by decide) (by decide)).imp
    (fun _ h => ⟨h.1, ((h.2.2.2 1 (by decide)).2.2 0 (by decide)).1,
      ((h.2.2.2 1 (by decide)).2.2 0 (by decide)).2⟩)

/-! ## A byte source that ends inside a post -/

/-- C14: on a readable patch, for every column `c` whose seek is accepted
and whose data is a sequence `ps` of complete posts (none, for a first
post) followed at position `q` by a post header `(t, L)` with `t` not `0xFF`
that fits the grid (`cursor + t + L <= height`, `cursor` the row cursor
after `ps`), the byte source ending after `k < L` data bytes of that post:
`extract_patch_data` returns a grid; the `k` bytes are stored at the rows
`cursor + t .. cursor + t + k - 1` of the column; every store of the column
at a row from `cursor + t` on is one of these `k` stores (the pad-byte skip
and the next pass of the post loop store nothing); and the cells of the
column from row `cursor + t + k` on are 0. -/
theorem short_read_mid_post (alloc : Nat → Bool) (file : FILE)
    (patch_offset : Int) (header : DoomPatchHeader) (c start : Nat)
    (ps : List (Nat × List Nat × Nat)) (t L k : Nat) (hbytes : is_byte_stream file.data)
    (hr : patch_readable alloc file.data patch_offset header)
    (hc : (c : Int) < header.width)
    (hs : column_start patch_offset
      (column_offsets_at file.data patch_offset.toNat header.width.toNat) c = (start : Int))
    (hcol : bytes_at file.data start (posts_bytes ps))
    (hps : ∀ p ∈ ps, p.1 ≠ 255)
    (h0 : file.data.getD (start + (posts_bytes ps).length) 0 = t)
    (h1 : file.data.getD (start + (posts_bytes ps).length + 1) 0 = L)
    (hend : file.data.length = start + (posts_bytes ps).length + 2 + k)
    (ht : t ≠ 255) (hk : k < L)
    (hfit : (posts_rows ps : Int) + (t : Int) + (L : Int) ≤ header.height) :
    ∃ pixels, extract_patch_data alloc file patch_offset =
        .ret (some (header.width, header.height, pixels)) ∧
      (∀ j, j < k →
        (c, ((posts_rows ps + t + j : Nat) : Int), start + (posts_bytes ps).length + 2 + j) ∈
          patch_stores alloc file patch_offset ∧
        pixels.getD ((posts_rows ps + t + j) * header.width.toNat + c) 0 =
          file.data.getD (start + (posts_bytes ps).length + 2 + j) 0) ∧
      (∀ (r : Int) (pos : Nat), (c, r, pos) ∈ patch_stores alloc file patch_offset →
        (posts_rows ps : Int) + (t : Int) ≤ r →
        ∃ j, j < k ∧ r = ((posts_rows ps + t + j : Nat) : Int) ∧
          pos = start + (posts_bytes ps).length + 2 + j) ∧
      ∀ r : Nat, posts_rows ps + t + k ≤ r → (r : Int) < header.height →
        pixels.getD (r * header.width.toNat + c) 0 = 0 := by
  obtain ⟨f', pixels, _, he, _⟩ :=
    extract_patch_data_readable alloc file patch_offset header hbytes hr
  have hw : 0 < header.width := hr.2.2.1
  have hh : 0 < header.height := hr.2.2.2.1
  obtain ⟨f2, tr, hdec, htr⟩ := patch_column_stores alloc file patch_offset header hbytes hr c hc
    (by rw [hs]; exact Int.ofNat_nonneg _)
  rw [hs, Int.toNat_ofNat] at hdec
  obtain ⟨hcell, hzero⟩ := patch_column_cells alloc file patch_offset header.width
    header.height pixels hbytes hw hh he c hc tr htr
  have hge := posts_bytes_length_ge ps
  have hpr : (0 : Int) ≤ (posts_rows ps : Int) := Int.ofNat_nonneg _
  obtain ⟨f3, hshort⟩ := decode_posts_stores_short_post header.height file.data
    (start + (posts_bytes ps).length) (0 + (posts_rows ps : Int))
    (file.data.length - ps.length) t L k hend h0 h1 ht hk (by omega)
  rw [show file.data.length + 2 = (file.data.length - ps.length + 2) + ps.length by omega,
    decode_posts_stores_chain header.height file.data ps start 0
      (file.data.length - ps.length + 2) hcol hps (le_refl _) (by omega), hshort] at hdec
  simp only [Option.some.injEq, Prod.mk.injEq] at hdec
  have htr_eq := hdec.2
  have hmem_tr : ∀ s : Int × Nat, s ∈ tr ↔
      s ∈ chain_stores ps start 0 ∨
      ∃ j, j < k ∧ s = (0 + (posts_rows ps : Int) + (t : Int) + (j : Int),
        start + (posts_bytes ps).length + 2 + j) := by
    intro s
    rw [← htr_eq, List.mem_append, List.mem_map]
    constructor
    · rintro (h | ⟨j, hj, rfl⟩)
      · exact Or.inl h
      · exact Or.inr ⟨j, List.mem_range.1 hj, rfl⟩
    · rintro (h | ⟨j, hj, rfl⟩)
      · exact Or.inl h
      · exact Or.inr ⟨j, List.mem_range.2 hj, rfl⟩
  refine ⟨pixels, he, ?_, ?_, ?_⟩
  · intro j hj
    have hm : (((posts_rows ps + t + j : Nat) : Int),
        start + (posts_bytes ps).length + 2 + j) ∈ tr := by
      rw [hmem_tr]
      right
      refine ⟨j, hj, ?_⟩
      push_cast
      rw [Int.zero_add]
    exact ⟨(htr _).2 hm, hcell _ hm (posts_rows ps + t + j) rfl⟩
  · intro r pos hm hr'
    have hm' := (htr (r, pos)).1 hm
    rw [hmem_tr] at hm'
    rcases hm' with h | ⟨j, hj, hjeq⟩
    · have := chain_stores_rows ps start 0 (r, pos) h
      simp only at this
      omega
    · simp only [Prod.mk.injEq] at hjeq
      refine ⟨j, hj, ?_, hjeq.2⟩
      rw [hjeq.1]
      push_cast
      rw [Int.zero_add]
  · intro r hr' _
    apply hzero
    intro s hs' hsr
    rw [hmem_tr] at hs'
    rcases hs' with h | ⟨j, hj, rfl⟩
    · have := chain_stores_rows ps start 0 s h
      omega
    · simp only at hsr
      omega

/-- C14 at the 1x6 patch `cut_patch`: after the post `(1, [5])` the post of
topdelta 1 and length 3 has only the byte 7 before the end of the file; it
is stored at row 3, and the cell of row 4 is 0. -/
theorem short_read_mid_post_witness :
    ∃ pixels, extract_patch_data roomy_alloc ⟨cut_patch, 0⟩ 0 = .ret (some (1, 6, pixels)) ∧
      (0, (3 : Int), 18) ∈ patch_stores roomy_alloc ⟨cut_patch, 0⟩ 0 ∧
      pixels.getD 3 0 = 7 ∧ pixels.getD 4 0 = 0 :=
  (short_read_mid_post roomy_alloc ⟨cut_patch, 0⟩ 0 ⟨1, 6, 0, 0⟩ 0 12
    [(1, [5], 0)] 1 3 1 (by decide) (by decide) (by decide) (by decide) (by decide)
    (by decide) (by decide) (by decide) (by decide) (by decide) (by decide) (by decide)).imp
    (fun _ h => ⟨h.1, (h.2.1 0 (by decide)).1, (h.2.1 0 (by decide)).2,
      h.2.2.2 4 (by decide) (by decide)⟩)

/-! ## Directory entries at `directory_offset + 16 * i` -/

/-- The offset handed to `read_directory_entry` for the entry of index `i`
is `directory_offset + 16 * i` as long as this value is below `2 ^ 31`. -/
theorem dir_entry_offset_plain (directory_offset : Int) (i : Nat)
    (h0 : 0 ≤ directory_offset) (h1 : directory_offset + 16 * (i : Int) < 2 ^ 31) :
    dir_entry_offset directory_offset i = directory_offset + 16 * (i : Int) := by
  unfold dir_entry_offset
  rw [to_size_t_nonneg directory_offset h0 (by omega),
    to_size_t_nonneg (i : Int) (by omega) (by omega), Int.toNat_ofNat,
    Nat.mod_eq_of_lt (by omega), wrap_int32_of_small _ (by omega) (by push_cast; omega)]
  push_cast
  omega

/-- A rejected seek ends `read_directory_entry` with `exit(EXIT_FAILURE)`. -/
theorem read_directory_entry_rejected (file : FILE) (offset : Int) (h : offset < 0) :
    read_directory_entry file offset = .exit_failure := by
  unfold read_directory_entry fseek_SET
  rw [if_pos h]
  rfl

theorem dir_entry_at_replicate_name (n off : Nat) (h : off + 16 ≤ n) :
    (dir_entry_at (List.replicate n 0) off).name = List.replicate 8 0 := by
  unfold dir_entry_at
  simp only [List.drop_replicate, List.take_replicate]
  congr 1
  omega

/-- C1: let every directory entry of index `i` below `num_lumps` lie inside
the archive at byte `directory_offset + 16 * i`, this offset being below
`2 ^ 31` (it is handed to `read_directory_entry` as an `int`). Then
`find_lump` returns the entry stored at `directory_offset + 16 * k` for the
smallest index `k` whose name matches the target (so the unique one when the
name occurs once, the first one when it occurs several times), leaving the
stream after that entry; when no index matches, also for `num_lumps <= 0`, it
returns the sentinel `(0, -1, eight NUL bytes)`, which is no directory entry
of non-negative size. -/
theorem find_lump_first_match (file : FILE) (num_lumps directory_offset : Int)
    (lump_name : List Nat)
    (hread : ∀ i : Nat, (i : Int) < num_lumps →
      entry_in_archive file.data directory_offset i)
    (hint : ∀ i : Nat, (i : Int) < num_lumps → directory_offset + 16 * (i : Int) < 2 ^ 31) :
    (∀ k : Nat, (k : Int) < num_lumps →
      name_matches (dir_entry_at file.data (directory_offset + 16 * (k : Int)).toNat)
        lump_name →
      (∀ j : Nat, j < k →
        ¬ name_matches (dir_entry_at file.data (directory_offset + 16 * (j : Int)).toNat)
          lump_name) →
      find_lump file num_lumps directory_offset lump_name =
        .ret (dir_entry_at file.data (directory_offset + 16 * (k : Int)).toNat,
          ⟨file.data, (directory_offset + 16 * (k : Int)).toNat + 16⟩)) ∧
    ((∀ j : Nat, (j : Int) < num_lumps →
        ¬ name_matches (dir_entry_at file.data (directory_offset + 16 * (j : Int)).toNat)
          lump_name) →
      ∃ file', find_lump file num_lumps directory_offset lump_name =
        .ret (invalid_entry, file')) ∧
    (invalid_entry.filepos = 0 ∧ invalid_entry.size = -1 ∧
      invalid_entry.name = [0, 0, 0, 0, 0, 0, 0, 0]) ∧
    (∀ off : Nat, 0 ≤ (dir_entry_at file.data off).size →
      dir_entry_at file.data off ≠ invalid_entry) := by
  have hlt : ∀ j : Nat, j < 0 + num_lumps.toNat → (j : Int) < num_lumps := by
    intro j hj; omega
  have heq : ∀ i : Nat, (i : Int) < num_lumps →
      dir_entry_offset directory_offset i = directory_offset + 16 * (i : Int) := by
    intro i hi
    have h0 := (hread 0 (by omega)).1
    exact dir_entry_offset_plain directory_offset i (by simpa using h0) (hint i hi)
  have hread' : ∀ j : Nat, (j : Int) < num_lumps →
      entry_readable file.data directory_offset j := by
    intro j hj
    obtain ⟨h1, h2⟩ := hread j hj
    unfold entry_readable
    rw [heq j hj]
    exact ⟨h1, by omega⟩
  have hde : ∀ j : Nat, (j : Int) < num_lumps →
      dir_entry file.data directory_offset j =
        dir_entry_at file.data (directory_offset + 16 * (j : Int)).toNat := by
    intro j hj
    unfold dir_entry
    rw [heq j hj]
  have hspec := find_lump_loop_spec directory_offset lump_name num_lumps.toNat 0 file
    (fun j _ h2 => hread' j (hlt j h2))
  refine ⟨?_, ?_, ⟨rfl, rfl, rfl⟩, ?_⟩
  · intro k hk hm hfirst
    have := hspec.1 k (Nat.zero_le _) (by omega) (by rw [hde k hk]; exact hm)
      (fun j _ h2 => by rw [hde j (by omega)]; exact hfirst j h2)
    rw [hde k hk, heq k hk] at this
    unfold find_lump
    exact this
  · intro hnone
    obtain ⟨file', _, h⟩ := hspec.2 (fun j _ h2 => by
      rw [hde j (hlt j h2)]; exact hnone j (hlt j h2))
    exact ⟨file', by unfold find_lump; exact h⟩
  · intro off hsz heq'
    rw [heq'] at hsz
    exact absurd hsz (by decide)

/-- C1 at a directory of two entries, `A` and `SKY1`: the lookup of `SKY1`
returns the entry of index 1, stored at byte 16, and the lookup of the absent
name `B` returns the sentinel. -/
theorem find_lump_first_match_witness :
    find_lump ⟨two_entry_directory, 0⟩ 2 0 SKY1 =
      .ret ({ filepos := 12, size := 28, name := [83, 75, 89, 49, 0, 0, 0, 0] },
        ⟨two_entry_directory, 32⟩) ∧
    (∃ file', find_lump ⟨two_entry_directory, 0⟩ 2 0 [66] = .ret (invalid_entry, file')) :=
  ⟨(find_lump_first_match ⟨two_entry_directory, 0⟩ 2 0 SKY1
      (fun i hi => by
        have : i = 0 ∨ i = 1 := by omega
        rcases this with rfl | rfl <;> decide)
      (fun i hi => by omega)).1 1 (by decide) (by decide)
      (fun j hj => by
        have : j = 0 := by omega
        subst this
        decide),
   (find_lump_first_match ⟨two_entry_directory, 0⟩ 2 0 [66]
      (fun i hi => by
        have : i = 0 ∨ i = 1 := by omega
        rcases this with rfl | rfl <;> decide)
      (fun i hi => by omega)).2.1
      (fun j hj => by
        have : j = 0 ∨ j = 1 := by omega
        rcases this with rfl | rfl <;> decide)⟩

theorem far_archive_length : far_archive.length = 2147483664 := by
  unfold far_archive
  exact List.length_replicate _ _

/-- C1 as stated fails: in the archive of `2 ^ 31 + 16` zero bytes with the
directory of two entries at `2 ^ 31 - 16`, both entries lie inside the
archive and neither is named `SKY1`, but the offset of the second entry,
`2 ^ 31`, becomes the `int` `- 2 ^ 31`: the seek is rejected and
`read_directory_entry` exits, so `find_lump` does not return the sentinel. -/
theorem find_lump_exits_beyond_int_range :
    entry_in_archive far_archive 2147483632 0 ∧
    entry_in_archive far_archive 2147483632 1 ∧
    ¬ name_matches (dir_entry_at far_archive 2147483632) SKY1 ∧
    ¬ name_matches (dir_entry_at far_archive 2147483648) SKY1 ∧
    dir_entry_offset 2147483632 1 = -2147483648 ∧
    find_lump ⟨far_archive, 12⟩ 2 2147483632 SKY1 = .exit_failure := by
  have hn : ¬ strncmp (List.replicate 8 0) SKY1 8 = 0 := by decide
  have h0 : dir_entry_offset 2147483632 0 = 2147483632 := by
    have := dir_entry_offset_plain 2147483632 0 (by norm_num) (by norm_num)
    simpa using this
  have h1 : dir_entry_offset 2147483632 (0 + 1) = -2147483648 := by
    unfold dir_entry_offset to_size_t wrap_int32 to_signed
    norm_num
  have hm0 : ¬ name_matches (dir_entry_at far_archive 2147483632) SKY1 := by
    unfold name_matches far_archive
    rw [dir_entry_at_replicate_name _ _ (by norm_num)]
    exact hn
  refine ⟨?_, ?_, hm0, ?_, by simpa using h1, ?_⟩
  · unfold entry_in_archive
    rw [far_archive_length]
    norm_num
  · unfold entry_in_archive
    rw [far_archive_length]
    norm_num
  · unfold name_matches far_archive
    rw [dir_entry_at_replicate_name _ _ (by norm_num)]
    exact hn
  · unfold find_lump
    have e2 : (2 : Int).toNat = 0 + 1 + 1 := rfl
    rw [e2, find_lump_loop, h0,
      read_directory_entry_ok _ _ (by norm_num) (by
        show (2147483632 : Int).toNat + 16 ≤ far_archive.length
        rw [far_archive_length]; decide)]
    simp only []
    have e3 : (2147483632 : Int).toNat = 2147483632 := rfl
    have hm1 : ¬ strncmp (dir_entry_at far_archive 2147483632).name SKY1 8 = 0 := hm0
    rw [e3, if_neg hm1, find_lump_loop, h1, read_directory_entry_rejected _ _ (by norm_num)]

end WadEditor
